import Mathlib

/-!
Verification of the movie_indexing merge/fusion core against its
specification.  The Python sources embedded here are:
  src/scene_fusion.py        (confidence-aware fusion of per-phase scenes)
  src/scene_master_merger.py (conservative master merge, timings, folder maps)
  src/scene_schema.py        (lenient scene validator and strict wrapper)

JSON values are modelled by the inductive `JVal`; Python dicts are
insertion-ordered association lists with unique keys, Python `None` is
`JVal.null`, and Python numbers are rationals (float rounding plays no role
in any statement proved here: all concrete numbers are small decimals whose
sums and comparisons are exact in binary floating point as well).
-/

/-- JSON-like values as produced and consumed by the pipeline. -/
inductive JVal where
  | null : JVal
  | bool (b : Bool) : JVal
  | num (q : ℚ) : JVal
  | str (s : String) : JVal
  | arr (elems : List JVal) : JVal
  | obj (fields : List (String × JVal)) : JVal
  deriving Repr

namespace JVal

mutual

/-- Structural equality of JSON values (Python `==` on parsed JSON trees,
for the tree shapes the pipeline produces). -/
def beq : JVal → JVal → Bool
  | .null, .null => true
  | .bool a, .bool b => a == b
  | .num a, .num b => a == b
  | .str a, .str b => a == b
  | .arr a, .arr b => beqList a b
  | .obj a, .obj b => beqPairs a b
  | _, _ => false

def beqList : List JVal → List JVal → Bool
  | [], [] => true
  | x :: xs, y :: ys => beq x y && beqList xs ys
  | _, _ => false

def beqPairs : List (String × JVal) → List (String × JVal) → Bool
  | [], [] => true
  | (k, v) :: xs, (k', v') :: ys => k == k' && beq v v' && beqPairs xs ys
  | _, _ => false

end

/-- Python `d.get(k)`: value at the first occurrence of key `k`. -/
def jget : List (String × JVal) → String → Option JVal
  | [], _ => none
  | (k', v) :: rest, k => if k' = k then some v else jget rest k

/-- Python `d[k] = v`: replace the value at the first occurrence of `k`,
keeping its position, or append `(k, v)` when `k` is absent. -/
def jset : List (String × JVal) → String → JVal → List (String × JVal)
  | [], k, v => [(k, v)]
  | (k', v') :: rest, k, v =>
      if k' = k then (k', v) :: rest else (k', v') :: jset rest k v

/-- Python truthiness of a JSON value (`bool(v)`). -/
def jtruthy : JVal → Bool
  | .null => false
  | .bool b => b
  | .num q => q != 0
  | .str s => s != ""
  | .arr [] => false
  | .arr (_ :: _) => true
  | .obj [] => false
  | .obj (_ :: _) => true

end JVal

/-- Association-list lookup for non-`JVal` values (Python `d.get(k)`). -/
def aget {α : Type} : List (String × α) → String → Option α
  | [], _ => none
  | (k', v) :: rest, k => if k' = k then some v else aget rest k

/-- Association-list assignment for non-`JVal` values (Python `d[k] = v`). -/
def aset {α : Type} : List (String × α) → String → α → List (String × α)
  | [], k, v => [(k, v)]
  | (k', v') :: rest, k, v =>
      if k' = k then (k', v) :: rest else (k', v') :: aset rest k v

/-- Lexicographic order on character lists by code point, as Python compares
strings. -/
def chLt : List Char → List Char → Bool
  | [], [] => false
  | [], _ :: _ => true
  | _ :: _, [] => false
  | a :: as, b :: bs =>
      if a.val < b.val then true
      else if b.val < a.val then false
      else chLt as bs

/-- Python `a < b` on strings. -/
def strLtB (a b : String) : Bool := chLt a.data b.data

/-- Does `pat` occur at the head of `s`? -/
def chStartsWith : List Char → List Char → Bool
  | [], _ => true
  | _ :: _, [] => false
  | p :: ps, c :: cs => p == c && chStartsWith ps cs

/-- Split around the first occurrence of `pat` in `s`: `some (before, after)`
when `pat` occurs, `none` otherwise.  This is the search under Python's
`pat in s`, `s.split(pat)[0]` and `s.split(pat, 1)[1]`. -/
def chBreak (pat : List Char) : List Char → Option (List Char × List Char)
  | [] => if chStartsWith pat [] then some ([], []) else none
  | c :: cs =>
      if chStartsWith pat (c :: cs) then some ([], (c :: cs).drop pat.length)
      else (chBreak pat cs).map fun p => (c :: p.1, p.2)

/-- Insert a key into a sorted key list (ascending). -/
def insKey (k : String) : List String → List String
  | [] => [k]
  | x :: xs => if strLtB k x then k :: x :: xs else x :: insKey k xs

/-- Python `sorted` on a list of strings (insertion sort; the inputs it is
applied to are duplicate-free sets of keys). -/
def sortKeys : List String → List String
  | [] => []
  | k :: ks => insKey k (sortKeys ks)

/-- Keep the first occurrence of every string, dropping later duplicates
(the effect of collecting keys into a Python `set` before sorting). -/
def dedupKeysAux (seen : List String) : List String → List String
  | [] => []
  | k :: ks =>
      if seen.contains k then dedupKeysAux seen ks
      else k :: dedupKeysAux (k :: seen) ks

/-- Insert one key/value pair into a key-sorted pair list. -/
def insPair (p : String × JVal) : List (String × JVal) → List (String × JVal)
  | [] => [p]
  | q :: qs => if strLtB p.1 q.1 then p :: q :: qs else q :: insPair p qs

/-- Sort an object's fields by key (what `json.dumps(..., sort_keys=True)`
does at each object level). -/
def sortPairsByKey : List (String × JVal) → List (String × JVal)
  | [] => []
  | p :: ps => insPair p (sortPairsByKey ps)

mutual

/-- Canonical form of a JSON value: every object's keys sorted, recursively.
Two values have the same `json.dumps(..., sort_keys=True)` text exactly when
their canonical forms coincide. -/
def canon : JVal → JVal
  | .null => .null
  | .bool b => .bool b
  | .num q => .num q
  | .str s => .str s
  | .arr xs => .arr (canonList xs)
  | .obj kvs => .obj (sortPairsByKey (canonPairs kvs))

def canonList : List JVal → List JVal
  | [] => []
  | x :: xs => canon x :: canonList xs

def canonPairs : List (String × JVal) → List (String × JVal)
  | [] => []
  | (k, v) :: rest => (k, canon v) :: canonPairs rest

end

/-! ### src/scene_fusion.py -/

namespace Fusion

open JVal

/-- Dedup key used by `_uniq_list`:
`json.dumps(it, sort_keys=True) if isinstance(it, dict) else json.dumps(it)`.
Top-level dicts are compared by canonical (key-order-independent) text; every
other value — including dicts nested inside lists — is compared by its plain
dump, i.e. structurally, with key order significant. -/
def dumpsKey (v : JVal) : JVal :=
  match v with
  | .obj kvs => canon (.obj kvs)
  | x => x

/-- Worker for `_uniq_list`: `seen` holds the dedup keys already emitted. -/
def uniqAux (seen : List JVal) : List JVal → List JVal
  | [] => []
  | it :: rest =>
      let k := dumpsKey it
      if seen.any (fun x => beq x k) then uniqAux seen rest
      else it :: uniqAux (k :: seen) rest

/-- `_uniq_list` from src/scene_fusion.py. -/
def uniq_list (items : List JVal) : List JVal := uniqAux [] items

/-- One gathered candidate for a field: `(value, confidence_or_None,
provenance_list)`.  Confidences are numeric in every pipeline input (they are
compared with `max`, which Python cannot apply across types); provenance
entries are source-identifier strings. -/
structure Cand where
  val : JVal
  conf : Option ℚ
  prov : List String
  deriving Repr

/-- Ordered union used for provenance lists:
`for x in p: if x not in out: out.append(x)`. -/
def provUnion (acc : List String) : List String → List String
  | [] => acc
  | p :: ps => provUnion (if acc.contains p then acc else acc ++ [p]) ps

/-- Python `max(filtered, key=lambda t: (t[1],))`: scan left to right, replace
the current best only on a strictly larger confidence, so the first maximal
element wins. -/
def pickMax (best : JVal × ℚ × List String) :
    List (JVal × ℚ × List String) → JVal × ℚ × List String
  | [] => best
  | c :: cs => pickMax (if best.2.1 < c.2.1 then c else best) cs

/-- `_pick_best_scalar` from src/scene_fusion.py. -/
def pick_best_scalar (cands : List Cand) : JVal × Option ℚ × List String :=
  let filtered := cands.filterMap fun c =>
    match c.val with
    | .null => none
    | _ => some (c.val, c.conf.getD (-1), c.prov)
  match filtered with
  | [] => (.null, none, [])
  | f :: fs =>
      let best := pickMax f fs
      let confOut := if best.2.1 < 0 then none else some best.2.1
      let provOut := filtered.foldl (fun acc t => provUnion acc t.2.2) []
      (best.1, confOut, provOut)

/-- State threaded through the `characters` aggregation loop: the per-name
entry map, the per-name confidence map, and the flat provenance union, each
in insertion order. -/
structure CharState where
  charMap : List (String × List (String × JVal))
  confs : List (String × ℚ)
  provs : List String
  deriving Repr

/-- `item.get("name")` followed by `if not name: continue`.  Only string
names are modelled: a non-string truthy name would become a non-string JSON
key in the output and does not occur in pipeline data. -/
def charItemName (item : List (String × JVal)) : Option String :=
  match jget item "name" with
  | some (.str s) => if s == "" then none else some s
  | _ => none

/-- Numeric field access: `isinstance(x, (int, float))` plus the value.
`JVal` keeps booleans apart from numbers, so a boolean `screen_time` (which
Python, where `bool` subclasses `int`, would coerce) is treated as
non-numeric here; no claim touches that corner. -/
def getNum (o : List (String × JVal)) (k : String) : Option ℚ :=
  match jget o k with
  | some (.num q) => some q
  | _ => none

/-- Insert one character item into the per-name map: first occurrence copies
the item (defaulting `screen_time` to `0.0` when the key is absent); later
occurrences of the same name add their numeric `screen_time` onto
`float(entry.get("screen_time", 0.0))`. -/
def addCharEntry (cm : List (String × List (String × JVal))) (name : String)
    (item : List (String × JVal)) : List (String × List (String × JVal)) :=
  match aget cm name with
  | none =>
      let entry :=
        if (jget item "screen_time").isSome then item
        else jset item "screen_time" (.num 0)
      cm ++ [(name, entry)]
  | some entry =>
      match getNum item "screen_time" with
      | some q =>
          let old := (getNum entry "screen_time").getD 0
          aset cm name (jset entry "screen_time" (.num (old + q)))
      | none => cm

/-- Process one item of one candidate inside the `characters` branch:
update the name map, then track `confs_map[name] =
max(confs_map.get(name, 0.0), conf)` when the candidate carries a
confidence. -/
def charItemStep (conf : Option ℚ) (s : CharState)
    (item : List (String × JVal)) : CharState :=
  match charItemName item with
  | none => s
  | some name =>
      let cm := addCharEntry s.charMap name item
      let confs :=
        match conf with
        | none => s.confs
        | some q => aset s.confs name (max ((aget s.confs name).getD 0) q)
      ⟨cm, confs, s.provs⟩

/-- Process one candidate inside the `characters` branch: iterate its items
when the value is a list (every item there is a dict in pipeline data; a
non-dict would raise in the Python source and is skipped here), then union
the candidate's provenance into the flat list. -/
def charStep (s : CharState) (c : Cand) : CharState :=
  let s1 :=
    match c.val with
    | .arr items =>
        items.foldl
          (fun (st : CharState) (it : JVal) =>
            match it with
            | .obj o => charItemStep c.conf st o
            | _ => st)
          s
    | _ => s
  { s1 with provs := provUnion s1.provs c.prov }

/-- The `characters` aggregation loop of `merge_scenes_from_sources`. -/
def fuseCharacters (cands : List Cand) : CharState :=
  cands.foldl charStep ⟨[], [], []⟩

/-- The generic list branch's accumulators: concatenated candidate lists,
collected confidences, and the provenance union, in candidate order. -/
def listParts (cands : List Cand) : List JVal × List ℚ × List String :=
  cands.foldl
    (fun acc c =>
      (match c.val with
       | .arr xs => acc.1 ++ xs
       | _ => acc.1,
       match c.conf with
       | some q => acc.2.1 ++ [q]
       | none => acc.2.1,
       provUnion acc.2.2 c.prov))
    ([], [], [])

/-- Python `max` over a non-empty list, head as the seed. -/
def maxList (q : ℚ) : List ℚ → ℚ
  | [] => q
  | c :: cs => maxList (max q c) cs

/-- Head test of the `characters` special case:
`first_val and isinstance(first_val[0], dict)`. -/
def headIsObj : List JVal → Bool
  | .obj _ :: _ => true
  | _ => false

/-- Per-field fusion: the body of the `for field in sorted(all_keys)` loop of
`merge_scenes_from_sources`, returning the merged value, the optional
`field_confidences[field]` entry (which the generic list branch sets to an
explicit `None`), and the optional `field_provenance[field]` entry. -/
def fuseField (field : String) (cands : List Cand) :
    JVal × Option JVal × Option (List String) :=
  match cands with
  | [] => (.null, none, none)
  | c0 :: _ =>
      match c0.val with
      | .arr xs =>
          if headIsObj xs && field == "characters" then
            let st := fuseCharacters cands
            (.arr (st.charMap.map fun p => .obj p.2),
             if st.confs.isEmpty then none
             else some (.obj (st.confs.map fun p => (p.1, .num p.2))),
             if st.provs.isEmpty then none else some st.provs)
          else
            let (ls, confs, provsAll) := listParts cands
            (.arr (uniq_list ls),
             some (match confs with
                   | [] => .null
                   | c :: cs => .num (maxList c cs)),
             if provsAll.isEmpty then none else some provsAll)
      | _ =>
          let (v, conf, prov) := pick_best_scalar cands
          (v, conf.map .num, if prov.isEmpty then none else some prov)

/-- One fusion input after the source's own unpacking steps
`scene = s.get("scene", s)` (documented to be a dict) and
`srcname = s.get("source") or s.get("__source") or "unknown"` (always a
truthy string, the literal `"unknown"` when both keys are falsy or
missing). -/
structure Src where
  scene : List (String × JVal)
  source : String
  deriving Repr

/-- `scene.get("field_confidences", {}).get(field)`.  Non-numeric confidence
values — which Python could not feed to `max` — are treated as absent. -/
def confOfScene (scene : List (String × JVal)) (field : String) : Option ℚ :=
  match JVal.jget scene "field_confidences" with
  | some (.obj kvs) =>
      match JVal.jget kvs field with
      | some (.num q) => some q
      | _ => none
  | _ => none

/-- `scene.get("field_provenance", {}).get(field, [])`.  Provenance entries
are source-identifier strings in every pipeline input; other shapes are
treated as the empty default. -/
def provOfScene (scene : List (String × JVal)) (field : String) : List String :=
  match JVal.jget scene "field_provenance" with
  | some (.obj kvs) =>
      match JVal.jget kvs field with
      | some (.arr xs) =>
          xs.filterMap fun v =>
            match v with
            | .str s => some s
            | _ => none
      | _ => []
  | _ => []

/-- `if srcname not in provs: provs = provs + [srcname]`. -/
def withSource (provs : List String) (srcname : String) : List String :=
  if provs.contains srcname then provs else provs ++ [srcname]

/-- Candidate gathering for one field across all sources, in input order. -/
def gatherCandidates (srcs : List Src) (field : String) : List Cand :=
  srcs.filterMap fun s =>
    match JVal.jget s.scene field with
    | some v =>
        some ⟨v, confOfScene s.scene field,
              withSource (provOfScene s.scene field) s.source⟩
    | none => none

/-- Every field key appearing in any source's scene, deduplicated and sorted
(`sorted(all_keys)` over the union of `scene.keys()`). -/
def allFieldKeys (srcs : List Src) : List String :=
  sortKeys (dedupKeysAux [] (srcs.foldl (fun acc s => acc ++ s.scene.map Prod.fst) []))

/-- First source whose scene carries a truthy value for an identifier key
(`if idk in scene and scene[idk]: ... break`). -/
def firstTruthyId (srcs : List Src) (idk : String) : Option JVal :=
  match srcs with
  | [] => none
  | s :: rest =>
      match JVal.jget s.scene idk with
      | some v => if jtruthy v then some v else firstTruthyId rest idk
      | none => firstTruthyId rest idk

/-- The identifier-copying prologue of `merge_scenes_from_sources`. -/
def idInit (srcs : List Src) : List (String × JVal) :=
  let m :=
    match firstTruthyId srcs "scene_id" with
    | some v => JVal.jset [] "scene_id" v
    | none => []
  match firstTruthyId srcs "movie_id" with
  | some v => JVal.jset m "movie_id" v
  | none => m

/-- Loop body over one field: skip identifiers, skip fields with no
candidates, otherwise fuse and record the merged value plus any
confidence/provenance entries. -/
def fuseStep (srcs : List Src)
    (acc : List (String × JVal) × List (String × JVal) × List (String × List String))
    (field : String) :
    List (String × JVal) × List (String × JVal) × List (String × List String) :=
  if field == "scene_id" || field == "movie_id" then acc
  else
    match gatherCandidates srcs field with
    | [] => acc
    | c :: cs =>
        let (v, confEntry, provEntry) := fuseField field (c :: cs)
        (JVal.jset acc.1 field v,
         match confEntry with
         | some cv => JVal.jset acc.2.1 field cv
         | none => acc.2.1,
         match provEntry with
         | some ps => aset acc.2.2 field ps
         | none => acc.2.2)

/-- The merged record and the two metadata accumulators of
`merge_scenes_from_sources`, before the final attachment step. -/
def fuseCore (srcs : List Src) :
    List (String × JVal) × List (String × JVal) × List (String × List String) :=
  (allFieldKeys srcs).foldl (fuseStep srcs) (idInit srcs, [], [])

/-- `merge_scenes_from_sources` from src/scene_fusion.py: fuse all fields,
then attach `field_confidences`/`field_provenance` when non-empty. -/
def merge_scenes_from_sources (srcs : List Src) : List (String × JVal) :=
  let (m, fc, fp) := fuseCore srcs
  let m1 := if fc.isEmpty then m else JVal.jset m "field_confidences" (.obj fc)
  if fp.isEmpty then m1
  else
    JVal.jset m1 "field_provenance"
      (.obj (fp.map fun p => (p.1, .arr (p.2.map .str))))

end Fusion

example :
    Fusion.pick_best_scalar
      [⟨.str "a", some (mkRat 6 10), ["s1"]⟩, ⟨.str "b", some (mkRat 9 10), ["s2"]⟩]
      = (.str "b", some (mkRat 9 10), ["s1", "s2"]) := rfl

example :
    Fusion.pick_best_scalar [⟨.null, some (mkRat 9 10), ["s1"]⟩, ⟨.str "b", none, ["s2"]⟩]
      = (.str "b", none, ["s2"]) := rfl

example :
    Fusion.uniq_list [.obj [("type", .str "car")], .obj [("type", .str "person")],
      .obj [("type", .str "car")]]
      = [.obj [("type", .str "car")], .obj [("type", .str "person")]] := rfl

/-! ### src/scene_master_merger.py -/

namespace Merger

open JVal

/-- `normalize_scene_id` from src/scene_master_merger.py. -/
def normalize_scene_id (scene_id movie : String) : String :=
  if movie.data.isPrefixOf scene_id.data then scene_id
  else movie ++ "_" ++ scene_id

/-- Dedup key of `merge_scene`'s list branch:
`json.dumps(item, sort_keys=True)` for dicts, `str(item)` otherwise.
Distinct JSON values whose Python `str` text happens to coincide (such as
`1` and `"1"`) are not identified by this model; no statement below depends
on which duplicate of a value survives. -/
def key_of (item : JVal) : JVal :=
  match item with
  | .obj kvs => canon (.obj kvs)
  | x => x

/-- Append the source items whose key is not yet in `seen`, left to right,
growing `seen` as items are kept. -/
def unionAux (seen : List JVal) : List JVal → List JVal
  | [] => []
  | it :: rest =>
      let k := key_of it
      if seen.any (fun x => beq x k) then unionAux seen rest
      else it :: unionAux (k :: seen) rest

/-- The list-union rule of `merge_scene`: keep every existing item in order,
then append the source items not already present. -/
def listUnion (existing v : List JVal) : List JVal :=
  existing ++ unionAux (existing.map key_of) v

/-- The dict rule of `merge_scene`: `merged = dict(existing)`, then a source
entry is written only when its key is missing or its current value is
`None`. -/
def mergeDict (existing v : List (String × JVal)) : List (String × JVal) :=
  v.foldl
    (fun (m : List (String × JVal)) p =>
      match jget m p.1 with
      | none => jset m p.1 p.2
      | some .null => jset m p.1 p.2
      | some _ => m)
    existing

/-- Python iterates a non-empty string as its characters; this is what
`for item in existing` does when a list value meets a string target. -/
def strItems (s : String) : List JVal :=
  s.data.map fun c => .str (String.mk [c])

/-- Python iterates a dict as its keys; this is what `for item in existing`
does when a list value meets a dict target. -/
def objItems (kvs : List (String × JVal)) : List JVal :=
  kvs.map fun p => .str p.1

/-- One iteration of `merge_scene`'s `for k, v in src.items()` loop.  The
paths on which the Python source raises — iterating a number/boolean, or
`dict(existing)` on the non-mapping shapes the pipeline stores (strings,
numbers, lists of scalars) — are modelled as errors; a list-of-pairs value,
which `dict()` would accept, does not occur as an existing field value. -/
def mergeField (target : List (String × JVal)) (k : String) (v : JVal) :
    Except String (List (String × JVal)) :=
  if k == "scene_id" || k == "movie_id" then .ok target
  else
    let existing := (jget target k).getD .null
    match v with
    | .arr xs =>
        if jtruthy existing then
          match existing with
          | .arr es => .ok (jset target k (.arr (listUnion es xs)))
          | .str s => .ok (jset target k (.arr (listUnion (strItems s) xs)))
          | .obj kvs => .ok (jset target k (.arr (listUnion (objItems kvs) xs)))
          | _ => .error "TypeError: existing value is not iterable"
        else .ok (jset target k (.arr xs))
    | .obj kvs =>
        if jtruthy existing then
          match existing with
          | .obj ekvs => .ok (jset target k (.obj (mergeDict ekvs kvs)))
          | _ => .error "TypeError: dict() of a non-mapping value"
        else .ok (jset target k (.obj kvs))
    | .str s =>
        .ok (if jtruthy existing then target else jset target k (.str s))
    | .num q =>
        .ok (match existing with
             | .null => jset target k (.num q)
             | _ => target)
    | .bool b =>
        .ok (match existing with
             | .null => jset target k (.bool b)
             | _ => target)
    | .null =>
        .ok (if (jget target k).isSome then target else jset target k .null)

/-- `merge_scene` from src/scene_master_merger.py (the unused `src_name`
parameter is dropped): fold the per-field rule over the source's items in
order, mutating the target. -/
def merge_scene (target : List (String × JVal)) :
    List (String × JVal) → Except String (List (String × JVal))
  | [] => .ok target
  | (k, v) :: rest =>
      match mergeField target k v with
      | .ok t => merge_scene t rest
      | .error e => .error e

/-- `empty_scene_template` from src/scene_master_merger.py; `now` stands for
`datetime.utcnow().isoformat()`. -/
def empty_scene_template (scene_id now : String) : List (String × JVal) :=
  [("scene_id", .str scene_id),
   ("movie_id", .null),
   ("title_name", .null),
   ("start_time", .null),
   ("end_time", .null),
   ("duration", .null),
   ("scene_summary", .str ""),
   ("scene_type", .str ""),
   ("scene_category_secondary", .str ""),
   ("importance_score", .null),
   ("scene_priority", .str ""),
   ("scene_priority_score", .null),
   ("viewer_attention_score", .null),
   ("key_plot_point", .null),
   ("characters", .arr []),
   ("character_dominance_ranking", .arr []),
   ("dialogue_text", .arr []),
   ("dialogue_speed_wpm", .null),
   ("audio_clarity_score", .null),
   ("profanity_present", .null),
   ("location", .str ""),
   ("time_of_day", .str ""),
   ("indoor_outdoor", .str ""),
   ("objects", .arr []),
   ("actions", .arr []),
   ("background_activity", .arr []),
   ("resolution", .str ""),
   ("aspect_ratio", .null),
   ("motion_intensity_score", .null),
   ("camera_movement", .str ""),
   ("lighting_style", .str ""),
   ("color_tone", .str ""),
   ("shot_type", .str ""),
   ("emotion_arousal_score", .null),
   ("emotion_scene_variation_score", .null),
   ("audio_activity_score", .null),
   ("vfx_presence", .null),
   ("cg_characters_present", .null),
   ("ai_confidence_score", .null),
   ("ai_model_version", .str ""),
   ("metadata_generated_at", .str now),
   ("notes", .str "")]

/-- Build the timing map from the parsed scenes file:
`timing_map[sid] = {start_time, end_time, duration}` for each entry of
`data.get("scenes", [])`.  An entry that is not a dict, or whose
`scene_id` is not a string, would make the Python run crash (at the
`scene.get` call, or later when `sorted()` meets a non-string key) and is
modelled as an error. -/
def buildTimings (acc : List (String × List (String × JVal))) :
    List JVal → Except String (List (String × List (String × JVal)))
  | [] => .ok acc
  | .obj scene :: rest =>
      match jget scene "scene_id" with
      | some (.str sid) =>
          buildTimings
            (aset acc sid
              [("start_time", (jget scene "start_time").getD .null),
               ("end_time", (jget scene "end_time").getD .null),
               ("duration", (jget scene "duration").getD .null)])
            rest
      | _ => .error "scene_id is not a string"
  | _ :: _ => .error "scene entry is not a dict"

/-- `load_scene_timings` from src/scene_master_merger.py.  `file` is the
parsed content of `outputs/scenes/{movie}_scenes.json`, `none` when the
file does not exist — in which case the function returns the empty map
rather than failing.  A non-dict top level (whose `.get` would raise) and a
non-list `"scenes"` value (whose iteration would raise) are errors. -/
def load_scene_timings (file : Option JVal) :
    Except String (List (String × List (String × JVal))) :=
  match file with
  | none => .ok []
  | some (.obj kvs) =>
      match jget kvs "scenes" with
      | none => .ok []
      | some (.arr scenes) => buildTimings [] scenes
      | some _ => .error "scenes is not a list"
  | some _ => .error "timings file is not a dict"

/-- Apply each phase source's fragment for this scene id, in the fixed
phase order, with the conservative merge rule. -/
def applySources (sid : String) (scene : List (String × JVal)) :
    List (String × List (String × List (String × JVal))) →
    Except String (List (String × JVal))
  | [] => .ok scene
  | (_, srcMap) :: rest =>
      match aget srcMap sid with
      | some frag =>
          match merge_scene scene frag with
          | .ok sc => applySources sid sc rest
          | .error e => .error e
      | none => applySources sid scene rest

/-- Build one canonical scene: template, timing update, conservative merges,
then stamp `movie_id` and `title_name` with the movie. -/
def buildScene (movie now : String)
    (timings : List (String × List (String × JVal)))
    (sources : List (String × List (String × List (String × JVal))))
    (sid : String) : Except String (List (String × JVal)) :=
  let base := empty_scene_template sid now
  let base :=
    match aget timings sid with
    | some t => t.foldl (fun sc p => jset sc p.1 p.2) base
    | none => base
  match applySources sid base sources with
  | .ok sc => .ok (jset (jset sc "movie_id" (.str movie)) "title_name" (.str movie))
  | .error e => .error e

/-- The scene-building loop of `main`, over the sorted canonical ids. -/
def buildAll (movie now : String)
    (timings : List (String × List (String × JVal)))
    (sources : List (String × List (String × List (String × JVal)))) :
    List String → Except String (List (List (String × JVal)))
  | [] => .ok []
  | sid :: rest =>
      match buildScene movie now timings sources sid with
      | .ok sc =>
          match buildAll movie now timings sources rest with
          | .ok scs => .ok (sc :: scs)
          | .error e => .error e
      | .error e => .error e

/-- Per-scene provenance entry: `prov[field] = True` for every field other
than the identifiers/title whose value is not in `(None, "", [], {})`. -/
def presenceMap (s : List (String × JVal)) : List (String × JVal) :=
  s.foldl
    (fun (acc : List (String × JVal)) p =>
      if p.1 == "scene_id" || p.1 == "movie_id" || p.1 == "title_name" then acc
      else if beq p.2 .null || beq p.2 (.str "") || beq p.2 (.arr []) ||
              beq p.2 (.obj []) then acc
      else jset acc p.1 (.bool true))
    []

/-- The `scene_id` of a built scene (always the string the template wrote:
the merge loop never overwrites it). -/
def sceneKey (s : List (String × JVal)) : String :=
  match jget s "scene_id" with
  | some (.str x) => x
  | _ => ""

/-- The three documents `main` writes for one movie. -/
structure MasterOut where
  finalScenes : List (List (String × JVal))
  provenance : List (String × List (String × JVal))
  completeSchema : List (String × JVal)
  deriving Repr

/-- The pure core of `main` from src/scene_master_merger.py for one movie:
inputs are the parsed timings file (`none` when absent) and the eight
already-loaded per-phase maps in their fixed order; outputs are the three
documents written at the end of the run (`now` stands for the timestamps).
File discovery, printing and the post-write validation pass — whose
exceptions, including the strict-mode `RuntimeError`, are swallowed by the
surrounding `try`/`except` — are outside the pure model. -/
def runMaster (movie now : String) (timingsFile : Option JVal)
    (sources : List (String × List (String × List (String × JVal)))) :
    Except String MasterOut :=
  match load_scene_timings timingsFile with
  | .error e => .error e
  | .ok timings =>
      match buildAll movie now timings sources (sortKeys (timings.map Prod.fst)) with
      | .error e => .error e
      | .ok scenes =>
          .ok ⟨scenes,
               scenes.map (fun s => (sceneKey s, presenceMap s)),
               [("movie", .str movie),
                ("total_scenes", .num scenes.length),
                ("scenes", .arr (scenes.map .obj)),
                ("generated_at", .str now)]⟩

/-- Movie signal derived from the filename: the text before the first
`"_scene_"` marker, when the marker occurs in the stem. -/
def filenameSignal (stem : String) : Option JVal :=
  match chBreak "_scene_".data stem.data with
  | some (pre, _) => some (.str (String.mk pre))
  | none => none

/-- Movie signal from the file content: a truthy `movie_id` on a dict
fragment, or on the first item of a list fragment. -/
def contentSignal (content : JVal) : Option JVal :=
  match content with
  | .obj kvs =>
      match jget kvs "movie_id" with
      | some v => if jtruthy v then some v else none
      | none => none
  | .arr (.obj kvs :: _) =>
      match jget kvs "movie_id" with
      | some v => if jtruthy v then some v else none
      | none => none
  | _ => none

/-- `file_movie` as computed in `load_folder_as_map`: the filename-derived
signal first, then overwritten by a truthy content `movie_id` when one is
present — so the content signal takes priority. -/
def file_movie_of (stem : String) (content : JVal) : Option JVal :=
  match contentSignal content with
  | some v => some v
  | none => filenameSignal stem

/-- The local `local_sid` helper: strip the leading `{file_movie}_` prefix
when the raw id contains at least two underscores and its first
underscore-delimited component equals the file's movie signal. -/
def local_sid (fileMovie : Option JVal) (raw : String) : String :=
  match chBreak ['_'] raw.data with
  | some (pre, post) =>
      if 2 ≤ raw.data.count '_' &&
         (match fileMovie with
          | some (.str fm) => String.mk pre == fm
          | _ => false) then
        String.mk post
      else raw
  | none => raw

/-- `if file_movie and file_movie != movie_name: continue` — a fragment is
skipped exactly when the file's movie signal is truthy and differs from the
requested movie. -/
def skipsFile (movieName : String) (fileMovie : Option JVal) : Bool :=
  match fileMovie with
  | some v => jtruthy v && !(beq v (.str movieName))
  | none => false

/-- Register one fragment item in the scene map: skip items without a
truthy `scene_id`, skip items from files whose movie signal differs from
the requested movie, otherwise store the item under its localized id.  A
non-string truthy `scene_id` would raise inside `local_sid` (string split
on a non-string) and is not modelled. -/
def processItem (movieName : String) (fileMovie : Option JVal)
    (dataMap : List (String × JVal)) (item : JVal) : List (String × JVal) :=
  match item with
  | .obj kvs =>
      match jget kvs "scene_id" with
      | some (.str sid) =>
          if sid == "" then dataMap
          else if skipsFile movieName fileMovie then dataMap
          else jset dataMap (local_sid fileMovie sid) item
      | _ => dataMap
  | _ => dataMap

/-- Process one JSON file of the folder: a list fragment contributes each of
its items, a dict fragment contributes itself, anything else contributes
nothing.  (A non-dict element inside a list fragment would raise at
`item.get` in the Python source.) -/
def processFile (movieName : String) (dataMap : List (String × JVal))
    (stem : String) (content : JVal) : List (String × JVal) :=
  let fm := file_movie_of stem content
  match content with
  | .arr items => items.foldl (processItem movieName fm) dataMap
  | .obj _ => processItem movieName fm dataMap content
  | _ => dataMap

/-- `load_folder_as_map` from src/scene_master_merger.py, over the parsed
directory listing: `files` holds the stem and parsed content of each
`.json` file of the searched folder (the movie-named subfolder when one
exists, else the folder itself), in listing order; a missing folder is the
empty listing.  File I/O and the `.json` suffix filter live outside the
pure model. -/
def load_folder_as_map (movieName : String) (files : List (String × JVal)) :
    List (String × JVal) :=
  files.foldl (fun m f => processFile movieName m f.1 f.2) []

end Merger

/-! ### src/scene_schema.py

The validator's schema-driven block sits inside `try: ... except Exception:
pass`, so any exception there is swallowed (leaving the messages gathered so
far); the repository ships no `schema/scene_schema.json`, so `schemaFile`
is `none` at the shipped program's runs, and the optional third-party
`jsonschema` pass (itself wrapped in its own `try`/`except`) is modelled as
unavailable.  The text of schema-derived messages is representative; no
statement below inspects it. -/

namespace Schema

open JVal

/-- `_is_number` from src/scene_schema.py: a number and not a boolean
(`JVal` keeps the two apart). -/
def is_number : JVal → Bool
  | .num _ => true
  | _ => false

/-- Numeric payload of a value already known to be a number. -/
def qOf : JVal → ℚ
  | .num q => q
  | _ => 0

mutual

/-- `_check_type` from src/scene_schema.py: `none` models a `None` expected
type (accept); a list of types accepts when any member does; the five type
names accept their runtime type or `None`; anything else accepts. -/
def check_type (val : JVal) : Option JVal → Bool
  | none => true
  | some e => checkTypeOne val e

def checkTypeOne (val : JVal) : JVal → Bool
  | .arr ts => checkTypeAny val ts
  | .str "string" =>
      match val with
      | .str _ => true
      | .null => true
      | _ => false
  | .str "number" => is_number val || beq val .null
  | .str "boolean" =>
      match val with
      | .bool _ => true
      | .null => true
      | _ => false
  | .str "array" =>
      match val with
      | .arr _ => true
      | .null => true
      | _ => false
  | .str "object" =>
      match val with
      | .obj _ => true
      | .null => true
      | _ => false
  | _ => true

def checkTypeAny (val : JVal) : List JVal → Bool
  | [] => false
  | t :: ts => checkTypeOne val t || checkTypeAny val ts

end

/-- Range messages for a numeric value against a spec's
`minimum`/`maximum` keys (a non-numeric bound would raise at `<` in Python
and be swallowed by the outer handler). -/
def belowAbove (pre : String) (spec : List (String × JVal)) (v : JVal) :
    List String :=
  (match jget spec "minimum" with
   | some (.num m) => if qOf v < m then [pre ++ " below minimum"] else []
   | _ => []) ++
  (match jget spec "maximum" with
   | some (.num m) => if m < qOf v then [pre ++ " above maximum"] else []
   | _ => [])

/-- Sub-field checks for one object item of a declared array field. -/
def checkSubprops (field : String) (i : Nat)
    (subprops : List (String × JVal)) (item : List (String × JVal)) :
    List String :=
  subprops.foldl
    (fun (acc : List String) p =>
      match jget item p.1 with
      | none => acc
      | some v =>
          let subty :=
            match p.2 with
            | .obj skvs => jget skvs "type"
            | _ => none
          let m1 :=
            if check_type v subty then []
            else ["field " ++ field ++ "[" ++ toString i ++ "]." ++ p.1 ++
                  " has invalid type"]
          let m2 :=
            if (match subty with
                | some t => beq t (.str "number")
                | none => false) && is_number v then
              match p.2 with
              | .obj skvs =>
                  belowAbove
                    ("field " ++ field ++ "[" ++ toString i ++ "]." ++ p.1)
                    skvs v
              | _ => []
            else []
          acc ++ m1 ++ m2)
    []

/-- The `for i, item in enumerate(val)` loop over a declared array field. -/
def checkItemsLoop (field : String) (itemType : Option JVal)
    (subprops : List (String × JVal)) : Nat → List JVal → List String
  | _, [] => []
  | i, item :: rest =>
      (if (match itemType with
           | some t => beq t (.str "object")
           | none => false) &&
          (match item with
           | .obj _ => true
           | _ => false) then
         match item with
         | .obj o => checkSubprops field i subprops o
         | _ => []
       else
         if check_type item itemType then []
         else ["field " ++ field ++ "[" ++ toString i ++ "] has invalid type"])
      ++ checkItemsLoop field itemType subprops (i + 1) rest

/-- Checks for a declared-array field whose value is a list:
`item_type = items.get("type") if items else None` and the item loop. -/
def checkArrayItems (field : String) (itemSpec : Option JVal)
    (xs : List JVal) : List String :=
  let itemType :=
    match itemSpec with
    | some it =>
        if jtruthy it then
          match it with
          | .obj ikvs => jget ikvs "type"
          | _ => none
        else none
    | none => none
  let subprops :=
    match itemSpec with
    | some (.obj ikvs) =>
        match jget ikvs "properties" with
        | some (.obj ps) => ps
        | _ => []
    | _ => []
  checkItemsLoop field itemType subprops 0 xs

/-- First failure inside a `oneOf` option's nested
`additionalProperties` check (the Python loop breaks at the first bad
key). -/
def innerAddlCheck (inAddl : List (String × JVal)) :
    List (String × JVal) → Option String
  | [] => none
  | (k3, v3) :: rest =>
      let inType := jget inAddl "type"
      if (match inType with
          | some t => jtruthy t && !(check_type v3 (some t))
          | none => false) then
        some ("nested field " ++ k3 ++ " has invalid type")
      else if (match inType with
               | some t => beq t (.str "number")
               | none => false) && is_number v3 &&
              (match jget inAddl "minimum" with
               | some (.num m) => decide (qOf v3 < m)
               | _ => false) then
        some ("nested field " ++ k3 ++ " below minimum")
      else if (match inType with
               | some t => beq t (.str "number")
               | none => false) && is_number v3 &&
              (match jget inAddl "maximum" with
               | some (.num m) => decide (m < qOf v3)
               | _ => false) then
        some ("nested field " ++ k3 ++ " above maximum")
      else innerAddlCheck inAddl rest

/-- Walk the `oneOf` options for one value: an option whose truthy declared
type matches is taken unless its numeric range or nested
`additionalProperties` check fails, in which case its message is collected
and the next option is tried. -/
def tryOptions (v2 : JVal) : List JVal → List String → Bool × List String
  | [], acc => (false, acc)
  | opt :: rest, acc =>
      match opt with
      | .obj optKvs =>
          match jget optKvs "type" with
          | some t =>
              if jtruthy t && check_type v2 (some t) then
                if beq t (.str "number") && is_number v2 &&
                   (match jget optKvs "minimum" with
                    | some (.num m) => decide (qOf v2 < m)
                    | _ => false) then
                  tryOptions v2 rest (acc ++ ["below minimum"])
                else if beq t (.str "number") && is_number v2 &&
                   (match jget optKvs "maximum" with
                    | some (.num m) => decide (m < qOf v2)
                    | _ => false) then
                  tryOptions v2 rest (acc ++ ["above maximum"])
                else if beq t (.str "object") then
                  match v2 with
                  | .obj v2kvs =>
                      match jget optKvs "additionalProperties" with
                      | some (.obj inAddl) =>
                          match innerAddlCheck inAddl v2kvs with
                          | some m => tryOptions v2 rest (acc ++ [m])
                          | none => (true, acc)
                      | _ => (true, acc)
                  | _ => (true, acc)
                else (true, acc)
              else tryOptions v2 rest acc
          | none => tryOptions v2 rest acc
      | _ => tryOptions v2 rest acc

/-- The non-`oneOf` `additionalProperties` check for one key. -/
def plainAddl (field k2 : String) (addl : List (String × JVal)) (v2 : JVal) :
    List String :=
  let expectedType := jget addl "type"
  let m1 :=
    match expectedType with
    | some t =>
        if jtruthy t && !(check_type v2 (some t)) then
          ["field " ++ field ++ "." ++ k2 ++ " has invalid type"]
        else []
    | none => []
  let m2 :=
    if (match expectedType with
        | some t => beq t (.str "number")
        | none => false) && is_number v2 then
      belowAbove ("field " ++ field ++ "." ++ k2) addl v2
    else []
  m1 ++ m2

/-- The `additionalProperties` loop over an object field's keys. -/
def checkAddl (field : String) (addl : List (String × JVal)) :
    List (String × JVal) → List String
  | [] => []
  | (k2, v2) :: rest =>
      (match jget addl "oneOf" with
       | some (.arr opts) =>
           match tryOptions v2 opts [] with
           | (true, _) => []
           | (false, optMsgs) =>
               ["field " ++ field ++ "." ++ k2 ++ " has invalid value (" ++
                (if optMsgs.isEmpty then "does not match allowed types"
                 else String.intercalate "; " optMsgs) ++ ")"]
       | _ => plainAddl field k2 addl v2)
      ++ checkAddl field addl rest

/-- The basic-type branch of the field loop: one type-mismatch message plus
the `additionalProperties` checks for declared-object fields. -/
def basicChecks (field : String) (specKvs : List (String × JVal))
    (expected : Option JVal) (val : JVal) : List String :=
  let m1 :=
    if check_type val expected then []
    else ["field " ++ field ++ " has invalid type"]
  let m2 :=
    if (match expected with
        | some e => beq e (.str "object")
        | none => false) then
      match val with
      | .obj vkvs =>
          match jget specKvs "additionalProperties" with
          | some (.obj addl) => checkAddl field addl vkvs
          | _ => []
      | _ => []
    else []
  m1 ++ m2

/-- The body of `for field, spec in props.items()` for one declared field
(a non-dict spec would raise at `spec.get` and be swallowed). -/
def checkField (scene : List (String × JVal)) (field : String) (spec : JVal) :
    List String :=
  match jget scene field with
  | none => []
  | some val =>
      match spec with
      | .obj specKvs =>
          let expected := jget specKvs "type"
          if beq val .null then []
          else if (match expected with
                   | some e => beq e (.str "array")
                   | none => false) &&
                  (match val with
                   | .arr _ => true
                   | _ => false) then
            match val with
            | .arr xs => checkArrayItems field (jget specKvs "items") xs
            | _ => []
          else basicChecks field specKvs expected val
      | _ => []

/-- The schema-driven message block of `validate_scene`: empty when the
schema file does not exist (the shipped repository carries none), else the
field loop over `schema.get("properties", {})`. -/
def schemaMsgs (schemaFile : Option JVal) (scene : List (String × JVal)) :
    List String :=
  match schemaFile with
  | none => []
  | some (.obj schemaKvs) =>
      match jget schemaKvs "properties" with
      | some (.obj props) =>
          props.foldl (fun (acc : List String) p => acc ++ checkField scene p.1 p.2) []
      | _ => []
  | some _ => []

/-- `validate_scene` from src/scene_schema.py: non-dict input short-circuits
with a message; otherwise the two identifier checks run first and the
schema block's messages follow; the verdict is `messages == []`. -/
def validate_scene (schemaFile : Option JVal) (scene : JVal) :
    Bool × List String :=
  match scene with
  | .obj kvs =>
      let m1 := if (jget kvs "scene_id").isSome then [] else ["missing scene_id"]
      let m2 := if (jget kvs "movie_id").isSome then [] else ["missing movie_id"]
      let msgs := m1 ++ m2 ++ schemaMsgs schemaFile kvs
      (msgs.isEmpty, msgs)
  | _ => (false, ["scene is not a dict"])

/-- `enforce_scene` from src/scene_schema.py, with the module-level `STRICT`
flag (an environment read) passed explicitly: raise exactly when the record
is invalid and strict mode is on, else return the validator's pair. -/
def enforce_scene (strict : Bool) (schemaFile : Option JVal) (scene : JVal) :
    Except String (Bool × List String) :=
  let r := validate_scene schemaFile scene
  if !r.1 && strict then .error "Scene validation failed"
  else .ok r

end Schema

/-! ### Claim-side definitions

These definitions follow the specification's words, not the source; each is
compared against the corresponding source-derived definition in the theorems
below. -/

namespace Spec

/-- The scalar-selection rule as the specification words it: among the
candidates with non-null values, the one with the highest supplied
confidence; with no supplied confidence at all, the first in input order;
ties resolve to the first carrier of the maximal confidence. -/
def claimedBestScalar (cands : List Fusion.Cand) : Option Fusion.Cand :=
  let nn := cands.filter fun c =>
    match c.val with
    | .null => false
    | _ => true
  let supplied := nn.filterMap Fusion.Cand.conf
  match supplied with
  | [] => nn.head?
  | q :: qs =>
      let m := qs.foldl max q
      nn.find? fun c => c.conf == some m

/-- The fragment's movie affiliation as the claim words it: the explicit
`movie_id` field on the fragment or on its first list item when one is
present, else the filename text before a `"_scene_"` marker, else no
signal. -/
def claimedMovieSignal (stem : String) (content : JVal) : Option JVal :=
  let fromContent :=
    match content with
    | .obj kvs => JVal.jget kvs "movie_id"
    | .arr (.obj kvs :: _) => JVal.jget kvs "movie_id"
    | _ => none
  match fromContent with
  | some v => some v
  | none =>
      match chBreak "_scene_".data stem.data with
      | some (pre, _) => some (.str (String.mk pre))
      | none => none

/-- The object items of one candidate's list value. -/
def itemsOf (c : Fusion.Cand) : List (List (String × JVal)) :=
  match c.val with
  | .arr items =>
      items.filterMap fun it =>
        match it with
        | .obj o => some o
        | _ => none
  | _ => []

/-- The truthy names occurring among one candidate's items. -/
def itemNamesOf (c : Fusion.Cand) : List String :=
  (itemsOf c).filterMap Fusion.charItemName

/-- The claimed fused `characters` name list: every contributed name, first
occurrence first, duplicates merged. -/
def claimedCharNames (cands : List Fusion.Cand) : List String :=
  dedupKeysAux [] (cands.foldl (fun acc c => acc ++ itemNamesOf c) [])

/-- The claimed `screen_time` of one fused character: the sum of the numeric
`screen_time` values of every contributed item bearing that name. -/
def claimedScreenTime (cands : List Fusion.Cand) (name : String) : ℚ :=
  ((cands.foldl (fun acc c => acc ++ itemsOf c) []).filterMap fun o =>
    if Fusion.charItemName o = some name then Fusion.getNum o "screen_time"
    else none).sum

/-- The claimed per-name confidence: the maximum confidence supplied by a
contribution whose items mention the name, absent when no such contribution
supplies one. -/
def claimedCharConf (cands : List Fusion.Cand) (name : String) : Option ℚ :=
  let qs := cands.filterMap fun c =>
    match c.conf with
    | some q => if (itemNamesOf c).contains name then some q else none
    | none => none
  match qs with
  | [] => none
  | q :: rest => some (rest.foldl max q)

/-- Kind compatibility of a source value against a non-null target value,
the hypothesis under which the conservative merge is lossless: a list meets
a list, a dict meets a dict, a string meets a string; numbers, booleans and
null may meet anything (they overwrite at most a null target). -/
def kindCompat (v w : JVal) : Prop :=
  match v with
  | .arr _ => ∃ l, w = .arr l
  | .obj _ => ∃ o, w = .obj o
  | .str _ => ∃ s, w = .str s
  | _ => True

end Spec

/-! ### Flattened view of the characters aggregation loop -/

/-- The (confidence, item) pairs one candidate feeds into the `characters`
loop, in item order. -/
def charPairsOf (c : Fusion.Cand) : List (Option ℚ × List (String × JVal)) :=
  (Spec.itemsOf c).map fun o => (c.conf, o)

/-- The flattened pair stream of a candidate list. -/
def flatCharPairs (cands : List Fusion.Cand) :
    List (Option ℚ × List (String × JVal)) :=
  cands.flatMap charPairsOf

/-- One step of the flattened `characters` loop on the (name map, confidence
map) projection of `CharState`; mirrors `charItemStep`. -/
def cpStep (st : List (String × List (String × JVal)) × List (String × ℚ))
    (p : Option ℚ × List (String × JVal)) :
    List (String × List (String × JVal)) × List (String × ℚ) :=
  match Fusion.charItemName p.2 with
  | none => st
  | some name =>
      (Fusion.addCharEntry st.1 name p.2,
       match p.1 with
       | none => st.2
       | some q => aset st.2 name (max ((aget st.2 name).getD 0) q))

/-- The truthy names carried by a pair stream, in order. -/
def pairNames (P : List (Option ℚ × List (String × JVal))) : List String :=
  P.filterMap fun p => Fusion.charItemName p.2

/-- The summed numeric `screen_time` a pair stream contributes to a name. -/
def pairSum (P : List (Option ℚ × List (String × JVal))) (name : String) : ℚ :=
  (P.filterMap fun p =>
    if Fusion.charItemName p.2 = some name then
      Fusion.getNum p.2 "screen_time"
    else none).sum

/-- The confidences a pair stream contributes to a name, in order. -/
def pairConfs (P : List (Option ℚ × List (String × JVal))) (name : String) :
    List ℚ :=
  P.filterMap fun p =>
    match p.1 with
    | some q =>
        if Fusion.charItemName p.2 = some name then some q else none
    | none => none

/-- The running `confs_map[name] = max(confs_map.get(name, 0.0), conf)`
update of the `characters` loop. -/
def confStep (o : Option ℚ) (q : ℚ) : Option ℚ := some (max (o.getD 0) q)

/-- Shape predicate: an item's `screen_time`, when present, is numeric. -/
def stOk (o : List (String × JVal)) : Bool :=
  match JVal.jget o "screen_time" with
  | some (.num _) => true
  | none => true
  | _ => false

/-- Shape predicate: a candidate's confidence, when supplied, is
nonnegative (the data model keeps confidences in [0, 1]). -/
def confOk (c : Fusion.Cand) : Bool :=
  match c.conf with
  | some q => decide (0 ≤ q)
  | none => true

/-! ### Shared lemmas about the association-list operations -/

theorem jget_jset_same (m : List (String × JVal)) (k : String) (v : JVal) :
    JVal.jget (JVal.jset m k v) k = some v := by
  induction m with
  | nil => simp [JVal.jget, JVal.jset]
  | cons p rest ih =>
      by_cases h : p.1 = k
      · cases p with
        | mk k' v' => simp_all [JVal.jget, JVal.jset]
      · cases p with
        | mk k' v' => simp_all [JVal.jget, JVal.jset]

theorem jget_jset_other (m : List (String × JVal)) (k k' : String) (v : JVal)
    (h : k' ≠ k) : JVal.jget (JVal.jset m k v) k' = JVal.jget m k' := by
  induction m with
  | nil => simp [JVal.jget, JVal.jset, Ne.symm h]
  | cons p rest ih =>
      cases p with
      | mk k0 v0 =>
          by_cases h0 : k0 = k
          · subst h0
            simp [JVal.jget, JVal.jset, Ne.symm h]
          · simp [JVal.jget, JVal.jset, h0, ih]

theorem aget_aset_same {α : Type} (m : List (String × α)) (k : String) (v : α) :
    aget (aset m k v) k = some v := by
  induction m with
  | nil => simp [aget, aset]
  | cons p rest ih =>
      cases p with
      | mk k' v' =>
          by_cases h : k' = k
          · simp_all [aget, aset]
          · simp_all [aget, aset]

theorem aget_aset_other {α : Type} (m : List (String × α)) (k k' : String)
    (v : α) (h : k' ≠ k) : aget (aset m k v) k' = aget m k' := by
  induction m with
  | nil => simp [aget, aset, Ne.symm h]
  | cons p rest ih =>
      cases p with
      | mk k0 v0 =>
          by_cases h0 : k0 = k
          · subst h0
            simp [aget, aset, Ne.symm h]
          · simp [aget, aset, h0, ih]

/-! ### Fusion helper lemmas -/

theorem pickMax_all_le (f : JVal × ℚ × List String)
    (fs : List (JVal × ℚ × List String)) (h : ∀ x ∈ fs, x.2.1 ≤ f.2.1) :
    Fusion.pickMax f fs = f := by
  induction fs with
  | nil => rfl
  | cons c cs ih =>
      have hc : c.2.1 ≤ f.2.1 := h c (by simp)
      have : ¬ f.2.1 < c.2.1 := not_lt.mpr hc
      simp only [Fusion.pickMax, if_neg this]
      exact ih fun x hx => h x (by simp [hx])

theorem pick_conf_none (cands : List Fusion.Cand)
    (h : ∀ c ∈ cands, c.conf = none) :
    (Fusion.pick_best_scalar cands).2.1 = none := by
  unfold Fusion.pick_best_scalar
  simp only []
  generalize hf :
    (cands.filterMap fun c =>
      match c.val with
      | .null => none
      | _ => some (c.val, c.conf.getD (-1), c.prov)) = filtered
  have hall : ∀ e ∈ filtered, e.2.1 = (-1 : ℚ) := by
    intro e he
    rw [← hf] at he
    obtain ⟨c, hc, hce⟩ := List.mem_filterMap.mp he
    have hcc := h c hc
    cases hv : c.val <;> rw [hv] at hce <;> simp_all <;> rw [← hce]
  cases filtered with
  | nil => rfl
  | cons f fs =>
      have hff : f.2.1 = (-1 : ℚ) := hall f (by simp)
      have hpm : Fusion.pickMax f fs = f :=
        pickMax_all_le f fs fun x hx => by
          rw [hall x (by simp [hx]), hff]
      simp [hpm, hff]

theorem listParts_fold_confs_none (cands : List Fusion.Cand)
    (h : ∀ c ∈ cands, c.conf = none) :
    ∀ acc : List JVal × List ℚ × List String,
      (cands.foldl
        (fun acc c =>
          (match c.val with
           | .arr xs => acc.1 ++ xs
           | _ => acc.1,
           match c.conf with
           | some q => acc.2.1 ++ [q]
           | none => acc.2.1,
           Fusion.provUnion acc.2.2 c.prov)) acc).2.1 = acc.2.1 := by
  induction cands with
  | nil => intro acc; rfl
  | cons c cs ih =>
      intro acc
      have hc : c.conf = none := h c (by simp)
      have ihr := ih (fun x hx => h x (by simp [hx]))
      simp only [List.foldl_cons]
      rw [ihr]
      simp [hc]

theorem listParts_confs_none (cands : List Fusion.Cand)
    (h : ∀ c ∈ cands, c.conf = none) :
    (Fusion.listParts cands).2.1 = [] :=
  listParts_fold_confs_none cands h ([], [], [])

theorem foldl_append_mem {α β : Type} (f : α → List β) (l : List α)
    (x : β) :
    ∀ init : List β,
      x ∈ l.foldl (fun acc s => acc ++ f s) init →
      x ∈ init ∨ ∃ s ∈ l, x ∈ f s := by
  induction l with
  | nil => intro init h; exact Or.inl h
  | cons a as ih =>
      intro init h
      rcases ih (init ++ f a) h with h1 | ⟨s, hs, hx⟩
      · rcases List.mem_append.mp h1 with h2 | h2
        · exact Or.inl h2
        · exact Or.inr ⟨a, by simp, h2⟩
      · exact Or.inr ⟨s, by simp [hs], hx⟩

theorem mem_insKey (x k : String) (l : List String) :
    x ∈ insKey k l → x = k ∨ x ∈ l := by
  induction l with
  | nil => intro h; simpa [insKey] using h
  | cons a as ih =>
      intro h
      by_cases hlt : strLtB k a
      · simp only [insKey, if_pos hlt] at h
        simp only [List.mem_cons] at h ⊢
        tauto
      · simp only [insKey, if_neg hlt] at h
        simp only [List.mem_cons] at h ⊢
        rcases h with h | h
        · tauto
        · rcases ih h with h1 | h1
          · tauto
          · tauto

theorem mem_sortKeys (x : String) (l : List String) :
    x ∈ sortKeys l → x ∈ l := by
  induction l with
  | nil => intro h; simp [sortKeys] at h
  | cons a as ih =>
      intro h
      rcases mem_insKey x a (sortKeys as) h with h1 | h1
      · simp [h1]
      · simp [ih h1]

theorem mem_dedupKeysAux (x : String) (l : List String) :
    ∀ seen, x ∈ dedupKeysAux seen l → x ∈ l := by
  induction l with
  | nil => intro seen h; simp [dedupKeysAux] at h
  | cons a as ih =>
      intro seen h
      by_cases hc : seen.contains a
      · simp only [dedupKeysAux, if_pos hc] at h
        exact List.mem_cons_of_mem a (ih seen h)
      · simp only [dedupKeysAux, if_neg hc] at h
        simp only [List.mem_cons] at h ⊢
        rcases h with h | h
        · tauto
        · exact Or.inr (ih (a :: seen) h)

theorem allFieldKeys_mem (srcs : List Fusion.Src) (k : String) :
    k ∈ Fusion.allFieldKeys srcs → ∃ s ∈ srcs, k ∈ s.scene.map Prod.fst := by
  intro h
  have h1 := mem_dedupKeysAux k _ [] (mem_sortKeys k _ h)
  rcases foldl_append_mem (fun s : Fusion.Src => s.scene.map Prod.fst) srcs k [] h1 with
    h2 | h2
  · simp at h2
  · exact h2

theorem idInit_other (srcs : List Fusion.Src) (k : String)
    (h1 : k ≠ "scene_id") (h2 : k ≠ "movie_id") :
    JVal.jget (Fusion.idInit srcs) k = none := by
  unfold Fusion.idInit
  cases hs : Fusion.firstTruthyId srcs "scene_id" <;>
    cases hm : Fusion.firstTruthyId srcs "movie_id" <;>
      simp [JVal.jget, JVal.jset, Ne.symm h1, Ne.symm h2]

theorem fuseStep_fold_other (srcs : List Fusion.Src) (k : String)
    (keys : List String) (hk : k ∉ keys) :
    ∀ acc, JVal.jget (keys.foldl (Fusion.fuseStep srcs) acc).1 k
      = JVal.jget acc.1 k := by
  induction keys with
  | nil => intro acc; rfl
  | cons f fs ih =>
      intro acc
      have hkf : k ≠ f := by
        intro he; exact hk (by simp [he])
      have hkfs : k ∉ fs := fun hh => hk (by simp [hh])
      simp only [List.foldl_cons]
      rw [ih hkfs]
      unfold Fusion.fuseStep
      by_cases hid : (f == "scene_id" || f == "movie_id") = true
      · simp [hid]
      · simp only [hid]
        cases hg : Fusion.gatherCandidates srcs f with
        | nil => simp
        | cons c cs =>
            simp only []
            exact jget_jset_other acc.1 f k _ hkf

theorem fuseCore_fst_not_mem (srcs : List Fusion.Src) (k : String)
    (h1 : k ≠ "scene_id") (h2 : k ≠ "movie_id")
    (h3 : ∀ s ∈ srcs, k ∉ s.scene.map Prod.fst) :
    JVal.jget (Fusion.fuseCore srcs).1 k = none := by
  have hk : k ∉ Fusion.allFieldKeys srcs := by
    intro hmem
    obtain ⟨s, hs, hks⟩ := allFieldKeys_mem srcs k hmem
    exact h3 s hs hks
  unfold Fusion.fuseCore
  rw [fuseStep_fold_other srcs k _ hk]
  exact idInit_other srcs k h1 h2

/-! ### Reduction helpers for the per-field fusion dispatch -/

theorem fuseField_scalar (field : String) (c0 : Fusion.Cand)
    (cs : List Fusion.Cand) (h : ∀ xs, c0.val ≠ JVal.arr xs) :
    Fusion.fuseField field (c0 :: cs) =
      ((Fusion.pick_best_scalar (c0 :: cs)).1,
       (Fusion.pick_best_scalar (c0 :: cs)).2.1.map JVal.num,
       if (Fusion.pick_best_scalar (c0 :: cs)).2.2.isEmpty then none
       else some (Fusion.pick_best_scalar (c0 :: cs)).2.2) := by
  cases hv : c0.val with
  | arr xs => exact absurd hv (h xs)
  | null => simp [Fusion.fuseField, hv]
  | bool b => simp [Fusion.fuseField, hv]
  | num q => simp [Fusion.fuseField, hv]
  | str s => simp [Fusion.fuseField, hv]
  | obj o => simp [Fusion.fuseField, hv]

theorem fuseField_generic (field : String) (c0 : Fusion.Cand)
    (cs : List Fusion.Cand) (xs : List JVal) (h1 : c0.val = JVal.arr xs)
    (h2 : (Fusion.headIsObj xs && field == "characters") = false) :
    Fusion.fuseField field (c0 :: cs) =
      (.arr (Fusion.uniq_list (Fusion.listParts (c0 :: cs)).1),
       some (match (Fusion.listParts (c0 :: cs)).2.1 with
             | [] => JVal.null
             | q :: qs => JVal.num (Fusion.maxList q qs)),
       if (Fusion.listParts (c0 :: cs)).2.2.isEmpty then none
       else some (Fusion.listParts (c0 :: cs)).2.2) := by
  simp [Fusion.fuseField, h1, h2]

theorem fuseField_characters (c0 : Fusion.Cand) (cs : List Fusion.Cand)
    (xs : List JVal) (h1 : c0.val = JVal.arr xs)
    (h2 : Fusion.headIsObj xs = true) :
    Fusion.fuseField "characters" (c0 :: cs) =
      (.arr ((Fusion.fuseCharacters (c0 :: cs)).charMap.map fun p => .obj p.2),
       if (Fusion.fuseCharacters (c0 :: cs)).confs.isEmpty then none
       else some (.obj ((Fusion.fuseCharacters (c0 :: cs)).confs.map
              fun p => (p.1, .num p.2))),
       if (Fusion.fuseCharacters (c0 :: cs)).provs.isEmpty then none
       else some (Fusion.fuseCharacters (c0 :: cs)).provs) := by
  simp [Fusion.fuseField, h1, h2]

theorem merge_attach_conf (srcs : List Fusion.Src)
    (h : (Fusion.fuseCore srcs).2.1 ≠ []) :
    JVal.jget (Fusion.merge_scenes_from_sources srcs) "field_confidences"
      = some (.obj (Fusion.fuseCore srcs).2.1) := by
  rcases hc : Fusion.fuseCore srcs with ⟨m, fc, fp⟩
  rw [hc] at h
  simp only at h
  have hne : fc.isEmpty = false := by
    cases fc with
    | nil => exact absurd rfl h
    | cons a b => rfl
  unfold Fusion.merge_scenes_from_sources
  rw [hc]
  simp only [hne, Bool.false_eq_true, if_false]
  cases hfp : fp.isEmpty with
  | true => simp [hfp, jget_jset_same]
  | false =>
      simp only [hfp, Bool.false_eq_true, if_false]
      rw [jget_jset_other _ _ _ _ (by decide)]
      exact jget_jset_same _ _ _

theorem merge_attach_prov (srcs : List Fusion.Src)
    (h : (Fusion.fuseCore srcs).2.2 ≠ []) :
    JVal.jget (Fusion.merge_scenes_from_sources srcs) "field_provenance"
      = some (.obj ((Fusion.fuseCore srcs).2.2.map
          fun p => (p.1, .arr (p.2.map .str)))) := by
  rcases hc : Fusion.fuseCore srcs with ⟨m, fc, fp⟩
  rw [hc] at h
  simp only at h
  have hne : fp.isEmpty = false := by
    cases fp with
    | nil => exact absurd rfl h
    | cons a b => rfl
  unfold Fusion.merge_scenes_from_sources
  rw [hc]
  simp only [hne, Bool.false_eq_true, if_false]
  cases hfc : fc.isEmpty <;> simp only [hfc, Bool.false_eq_true, if_false, if_true] <;>
    exact jget_jset_same _ _ _

theorem merge_attach_conf_none (srcs : List Fusion.Src)
    (hclean : ∀ s ∈ srcs, "field_confidences" ∉ s.scene.map Prod.fst)
    (h : (Fusion.fuseCore srcs).2.1 = []) :
    JVal.jget (Fusion.merge_scenes_from_sources srcs) "field_confidences"
      = none := by
  have hm : JVal.jget (Fusion.fuseCore srcs).1 "field_confidences" = none :=
    fuseCore_fst_not_mem srcs _ (by decide) (by decide) hclean
  rcases hc : Fusion.fuseCore srcs with ⟨m, fc, fp⟩
  rw [hc] at h hm
  simp only at h hm
  unfold Fusion.merge_scenes_from_sources
  rw [hc]
  subst h
  simp only [List.isEmpty_nil, if_true]
  cases hfp : fp.isEmpty with
  | true => simpa [hfp] using hm
  | false =>
      simp only [hfp, Bool.false_eq_true, if_false]
      rw [jget_jset_other _ _ _ _ (by decide)]
      exact hm


theorem merge_attach_prov_none (srcs : List Fusion.Src)
    (hclean : ∀ s ∈ srcs, "field_provenance" ∉ s.scene.map Prod.fst)
    (h : (Fusion.fuseCore srcs).2.2 = []) :
    JVal.jget (Fusion.merge_scenes_from_sources srcs) "field_provenance"
      = none := by
  have hm : JVal.jget (Fusion.fuseCore srcs).1 "field_provenance" = none :=
    fuseCore_fst_not_mem srcs _ (by decide) (by decide) hclean
  rcases hc : Fusion.fuseCore srcs with ⟨m, fc, fp⟩
  rw [hc] at h hm
  simp only at h hm
  unfold Fusion.merge_scenes_from_sources
  rw [hc]
  subst h
  simp only [List.isEmpty_nil, if_true]
  cases hfc : fc.isEmpty with
  | true => simpa [hfc] using hm
  | false =>
      simp only [hfc, Bool.false_eq_true, if_false]
      rw [jget_jset_other _ _ _ _ (by decide)]
      exact hm

/-! ### mergeDict lemmas -/

theorem mergeDict_cons_write (m : List (String × JVal)) (p : String × JVal)
    (rest : List (String × JVal))
    (h : JVal.jget m p.1 = none ∨ JVal.jget m p.1 = some JVal.null) :
    Merger.mergeDict m (p :: rest)
      = Merger.mergeDict (JVal.jset m p.1 p.2) rest := by
  unfold Merger.mergeDict
  simp only [List.foldl_cons]
  rcases h with h | h <;> rw [h]

theorem mergeDict_cons_keep (m : List (String × JVal)) (p : String × JVal)
    (rest : List (String × JVal)) (w : JVal)
    (h : JVal.jget m p.1 = some w) (hw : w ≠ JVal.null) :
    Merger.mergeDict m (p :: rest) = Merger.mergeDict m rest := by
  unfold Merger.mergeDict
  simp only [List.foldl_cons]
  rw [h]
  cases w with
  | null => exact absurd rfl hw
  | bool b => rfl
  | num q => rfl
  | str s => rfl
  | arr l => rfl
  | obj o => rfl

theorem mergeDict_keep (ds : List (String × JVal)) :
    ∀ (m : List (String × JVal)) (sub : String) (w : JVal),
      JVal.jget m sub = some w → w ≠ JVal.null →
      JVal.jget (Merger.mergeDict m ds) sub = some w := by
  induction ds with
  | nil => intro m sub w hw _; exact hw
  | cons p rest ih =>
      intro m sub w hw hnn
      by_cases hk : p.1 = sub
      · subst hk
        rw [mergeDict_cons_keep m p rest w hw hnn]
        exact ih m p.1 w hw hnn
      · cases hg : JVal.jget m p.1 with
        | none =>
            rw [mergeDict_cons_write m p rest (Or.inl hg)]
            exact ih _ sub w (by rw [jget_jset_other _ _ _ _ (Ne.symm hk)]; exact hw) hnn
        | some v =>
            cases hv : v with
            | null =>
                rw [mergeDict_cons_write m p rest (Or.inr (hv ▸ hg))]
                exact ih _ sub w (by rw [jget_jset_other _ _ _ _ (Ne.symm hk)]; exact hw) hnn
            | bool b =>
                rw [mergeDict_cons_keep m p rest _ hg (hv ▸ by simp)]
                exact ih m sub w hw hnn
            | num q =>
                rw [mergeDict_cons_keep m p rest _ hg (hv ▸ by simp)]
                exact ih m sub w hw hnn
            | str s =>
                rw [mergeDict_cons_keep m p rest _ hg (hv ▸ by simp)]
                exact ih m sub w hw hnn
            | arr l =>
                rw [mergeDict_cons_keep m p rest _ hg (hv ▸ by simp)]
                exact ih m sub w hw hnn
            | obj o =>
                rw [mergeDict_cons_keep m p rest _ hg (hv ▸ by simp)]
                exact ih m sub w hw hnn

theorem mergeDict_not_key (ds : List (String × JVal)) :
    ∀ (m : List (String × JVal)) (sub : String),
      sub ∉ ds.map Prod.fst →
      JVal.jget (Merger.mergeDict m ds) sub = JVal.jget m sub := by
  induction ds with
  | nil => intro m sub _; rfl
  | cons p rest ih =>
      intro m sub hs
      have hk : p.1 ≠ sub := by
        intro he; exact hs (by simp [he])
      have hrest : sub ∉ rest.map Prod.fst := by
        intro he; exact hs (by simp [he])
      cases hg : JVal.jget m p.1 with
      | none =>
          rw [mergeDict_cons_write m p rest (Or.inl hg)]
          rw [ih _ sub hrest, jget_jset_other _ _ _ _ (Ne.symm hk)]
      | some v =>
          cases hv : v with
          | null =>
              rw [mergeDict_cons_write m p rest (Or.inr (hv ▸ hg))]
              rw [ih _ sub hrest, jget_jset_other _ _ _ _ (Ne.symm hk)]
          | bool b => rw [mergeDict_cons_keep m p rest _ hg (hv ▸ by simp)]; exact ih m sub hrest
          | num q => rw [mergeDict_cons_keep m p rest _ hg (hv ▸ by simp)]; exact ih m sub hrest
          | str s => rw [mergeDict_cons_keep m p rest _ hg (hv ▸ by simp)]; exact ih m sub hrest
          | arr l => rw [mergeDict_cons_keep m p rest _ hg (hv ▸ by simp)]; exact ih m sub hrest
          | obj o => rw [mergeDict_cons_keep m p rest _ hg (hv ▸ by simp)]; exact ih m sub hrest

theorem mergeDict_absent (ds : List (String × JVal)) :
    ∀ (m : List (String × JVal)) (sub : String),
      JVal.jget m sub = none → (ds.map Prod.fst).Nodup →
      JVal.jget (Merger.mergeDict m ds) sub = JVal.jget ds sub := by
  induction ds with
  | nil => intro m sub hm _; exact hm
  | cons p rest ih =>
      intro m sub hm hnd
      have hnd1 : (rest.map Prod.fst).Nodup := by
        simpa using hnd.of_cons
      by_cases hk : p.1 = sub
      · subst hk
        rw [mergeDict_cons_write m p rest (Or.inl hm)]
        have hnr : p.1 ∉ rest.map Prod.fst := by
          have := hnd
          simp only [List.map_cons, List.nodup_cons] at this
          exact this.1
        rw [mergeDict_not_key rest _ _ hnr, jget_jset_same]
        simp [JVal.jget]
      · have hd : JVal.jget (p :: rest) sub = JVal.jget rest sub := by
          simp [JVal.jget, hk]
        rw [hd]
        cases hg : JVal.jget m p.1 with
        | none =>
            rw [mergeDict_cons_write m p rest (Or.inl hg)]
            exact ih _ sub (by rw [jget_jset_other _ _ _ _ (Ne.symm hk)]; exact hm) hnd1
        | some v =>
            cases hv : v with
            | null =>
                rw [mergeDict_cons_write m p rest (Or.inr (hv ▸ hg))]
                exact ih _ sub (by rw [jget_jset_other _ _ _ _ (Ne.symm hk)]; exact hm) hnd1
            | bool b => rw [mergeDict_cons_keep m p rest _ hg (hv ▸ by simp)]; exact ih m sub hm hnd1
            | num q => rw [mergeDict_cons_keep m p rest _ hg (hv ▸ by simp)]; exact ih m sub hm hnd1
            | str s => rw [mergeDict_cons_keep m p rest _ hg (hv ▸ by simp)]; exact ih m sub hm hnd1
            | arr l => rw [mergeDict_cons_keep m p rest _ hg (hv ▸ by simp)]; exact ih m sub hm hnd1
            | obj o => rw [mergeDict_cons_keep m p rest _ hg (hv ▸ by simp)]; exact ih m sub hm hnd1

theorem mergeDict_fill (ds : List (String × JVal)) :
    ∀ (m : List (String × JVal)) (sub : String) (v : JVal),
      JVal.jget m sub = some JVal.null → (ds.map Prod.fst).Nodup →
      JVal.jget ds sub = some v →
      JVal.jget (Merger.mergeDict m ds) sub = some v := by
  induction ds with
  | nil => intro m sub v _ _ hd; simp [JVal.jget] at hd
  | cons p rest ih =>
      intro m sub v hm hnd hd
      have hnd1 : (rest.map Prod.fst).Nodup := by
        simpa using hnd.of_cons
      by_cases hk : p.1 = sub
      · subst hk
        rw [mergeDict_cons_write m p rest (Or.inr hm)]
        have hnr : p.1 ∉ rest.map Prod.fst := by
          have := hnd
          simp only [List.map_cons, List.nodup_cons] at this
          exact this.1
        rw [mergeDict_not_key rest _ _ hnr, jget_jset_same]
        rw [JVal.jget] at hd
        simp only [if_pos rfl] at hd
        exact hd
      · rw [JVal.jget] at hd
        simp only [if_neg hk] at hd
        cases hg : JVal.jget m p.1 with
        | none =>
            rw [mergeDict_cons_write m p rest (Or.inl hg)]
            exact ih _ sub v (by rw [jget_jset_other _ _ _ _ (Ne.symm hk)]; exact hm) hnd1 hd
        | some w =>
            cases hw : w with
            | null =>
                rw [mergeDict_cons_write m p rest (Or.inr (hw ▸ hg))]
                exact ih _ sub v (by rw [jget_jset_other _ _ _ _ (Ne.symm hk)]; exact hm) hnd1 hd
            | bool b => rw [mergeDict_cons_keep m p rest _ hg (hw ▸ by simp)]; exact ih m sub v hm hnd1 hd
            | num q => rw [mergeDict_cons_keep m p rest _ hg (hw ▸ by simp)]; exact ih m sub v hm hnd1 hd
            | str s => rw [mergeDict_cons_keep m p rest _ hg (hw ▸ by simp)]; exact ih m sub v hm hnd1 hd
            | arr l => rw [mergeDict_cons_keep m p rest _ hg (hw ▸ by simp)]; exact ih m sub v hm hnd1 hd
            | obj o => rw [mergeDict_cons_keep m p rest _ hg (hw ▸ by simp)]; exact ih m sub v hm hnd1 hd

/-! ### Claim C5 -/

/-- C5 counterexample: with the timing table for movie `"alpha"` missing
(`load_scene_timings` sees no file), the master build does not abort — it
completes successfully and still produces all three output documents: an
empty canonical scene list, an empty provenance side-file, and a
complete-schema document with `total_scenes = 0`, contradicting the claim
that no output is written and the failure is surfaced. -/
theorem C5_counterexample :
    Merger.runMaster "alpha" "t0" none [] =
      Except.ok ⟨[], [],
        [("movie", .str "alpha"), ("total_scenes", .num 0),
         ("scenes", .arr []), ("generated_at", .str "t0")]⟩ := rfl

/-- C5 (amended): when the scene-timing table for the requested movie cannot
be found, `load_scene_timings` returns the empty map and the master build
proceeds silently for any phase inputs: it completes with success status and
writes an empty canonical scene list, an empty provenance side-file, and a
complete-schema document with `total_scenes = 0`; no failure is surfaced to
the caller. -/
theorem C5_missing_timings_proceeds (movie now : String)
    (sources : List (String × List (String × List (String × JVal)))) :
    Merger.runMaster movie now none sources =
      Except.ok ⟨[], [],
        [("movie", .str movie), ("total_scenes", .num 0),
         ("scenes", .arr []), ("generated_at", .str now)]⟩ := rfl

/-! ### Claim C7 -/

/-- C7 counterexample: the target's dict field `"meta"` already has the key
`"a"` (with value `null`); merging a fragment carrying `{"meta": {"a": 1}}`
overwrites it, so an existing key does not keep its existing value. -/
theorem C7_counterexample :
    Merger.merge_scene
      [("scene_id", .str "s"), ("meta", .obj [("a", JVal.null)])]
      [("meta", .obj [("a", .num 1)])]
      = Except.ok [("scene_id", .str "s"), ("meta", .obj [("a", .num 1)])] := rfl

/-- C7 (amended): when both the target and the source hold a dict value for
the same non-identity field, the result is a shallow merge in which every
key present in the target's dict with a non-null value keeps its existing
value, keys missing from the target's dict take the source's value, and
keys present with a null value are filled from the source. -/
theorem C7_dict_shallow_merge (target : List (String × JVal)) (k : String)
    (dt ds : List (String × JVal))
    (hT : JVal.jget target k = some (.obj dt))
    (hnd : (ds.map Prod.fst).Nodup)
    (hk : (k == "scene_id" || k == "movie_id") = false) :
    ∃ r, Merger.mergeField target k (.obj ds)
        = Except.ok (JVal.jset target k (.obj r)) ∧
      (∀ sub w, JVal.jget dt sub = some w → w ≠ JVal.null →
        JVal.jget r sub = some w) ∧
      (∀ sub, JVal.jget dt sub = none → JVal.jget r sub = JVal.jget ds sub) ∧
      (∀ sub v, JVal.jget dt sub = some JVal.null →
        JVal.jget ds sub = some v → JVal.jget r sub = some v) := by
  cases dt with
  | nil =>
      refine ⟨ds, ?_, ?_, ?_, ?_⟩
      · simp [Merger.mergeField, hk, hT, JVal.jtruthy]
      · intro sub w hw _; simp [JVal.jget] at hw
      · intro sub _; rfl
      · intro sub v hw _; simp [JVal.jget] at hw
  | cons q qs =>
      refine ⟨Merger.mergeDict (q :: qs) ds, ?_, ?_, ?_, ?_⟩
      · simp [Merger.mergeField, hk, hT, JVal.jtruthy]
      · intro sub w hw hnn; exact mergeDict_keep ds (q :: qs) sub w hw hnn
      · intro sub hs; exact mergeDict_absent ds (q :: qs) sub hs hnd
      · intro sub v hs hv; exact mergeDict_fill ds (q :: qs) sub v hs hnd hv

/-- C7 witness: the amended dict-merge theorem applied to a concrete target
and source; the merged dict keeps the non-null `"a"`, fills the null `"b"`
from the source and adds the missing `"c"`. -/
theorem C7_wit :
    Merger.mergeField
      [("scene_id", .str "s"), ("meta", .obj [("a", .num 2), ("b", JVal.null)])]
      "meta" (.obj [("b", .num 3), ("c", .str "x")])
      = Except.ok
          [("scene_id", .str "s"),
           ("meta", .obj [("a", .num 2), ("b", .num 3), ("c", .str "x")])] := by
  have h := C7_dict_shallow_merge
    [("scene_id", .str "s"), ("meta", .obj [("a", .num 2), ("b", JVal.null)])]
    "meta" [("a", .num 2), ("b", JVal.null)] [("b", .num 3), ("c", .str "x")]
    rfl (by decide) rfl
  obtain ⟨r, h1, h2, h3, h4⟩ := h
  have hb : JVal.jget r "b" = some (.num 3) := h4 "b" (.num 3) rfl rfl
  have ha : JVal.jget r "a" = some (.num 2) := h2 "a" (.num 2) rfl (by simp)
  have hc : JVal.jget r "c" = JVal.jget [("b", JVal.num 3), ("c", .str "x")] "c" :=
    h3 "c" rfl
  exact rfl

/-! ### Claim C10 -/

/-- C10: the per-name character aggregation runs only when the first
contribution defining `"characters"` supplies a non-empty list whose first
element is a dict; otherwise (empty first list, or non-dict first element)
the field falls back to the generic deduplicated union, whose confidence
entry is a single scalar (or null) rather than a per-name map and which
performs no `screen_time` summation — as the closed instance shows: an
empty first candidate list sends two same-name items through unsummed,
with the scalar confidence `0.7`. -/
theorem C10_characters_branch_condition (cands : List Fusion.Cand)
    (c0 : Fusion.Cand) (cs : List Fusion.Cand) (xs : List JVal)
    (h1 : cands = c0 :: cs) (h2 : c0.val = JVal.arr xs) :
    ((Fusion.headIsObj xs = false →
        (Fusion.fuseField "characters" cands).1
          = .arr (Fusion.uniq_list (Fusion.listParts cands).1) ∧
        (Fusion.fuseField "characters" cands).2.1
          = some (match (Fusion.listParts cands).2.1 with
                  | [] => JVal.null
                  | q :: qs => JVal.num (Fusion.maxList q qs))) ∧
     (Fusion.headIsObj xs = true →
        (Fusion.fuseField "characters" cands).1
          = .arr ((Fusion.fuseCharacters cands).charMap.map fun p => .obj p.2))) ∧
    Fusion.fuseField "characters"
      [⟨.arr [], none, ["s1"]⟩,
       ⟨.arr [.obj [("name", .str "Alice"), ("screen_time", .num 5)],
              .obj [("name", .str "Alice"), ("screen_time", .num 3)]],
        some (mkRat 7 10), ["s2"]⟩]
      = (.arr [.obj [("name", .str "Alice"), ("screen_time", .num 5)],
               .obj [("name", .str "Alice"), ("screen_time", .num 3)]],
         some (.num (mkRat 7 10)), some ["s1", "s2"]) := by
  subst h1
  refine ⟨⟨?_, ?_⟩, rfl⟩
  · intro h3
    have hcond : (Fusion.headIsObj xs && "characters" == "characters") = false := by
      simp [h3]
    rw [fuseField_generic "characters" c0 cs xs h2 hcond]
    exact ⟨rfl, rfl⟩
  · intro h3
    rw [fuseField_characters c0 cs xs h2 h3]

/-- C10 witness: the branch-condition theorem applied to the concrete
fallback instance (first candidate list empty). -/
theorem C10_wit :
    (Fusion.fuseField "characters"
      [⟨.arr [], none, ["s1"]⟩,
       ⟨.arr [.obj [("name", .str "Alice"), ("screen_time", .num 5)],
              .obj [("name", .str "Alice"), ("screen_time", .num 3)]],
        some (mkRat 7 10), ["s2"]⟩]).2.1 = some (.num (mkRat 7 10)) := by
  have h := C10_characters_branch_condition
    [⟨.arr [], none, ["s1"]⟩,
     ⟨.arr [.obj [("name", .str "Alice"), ("screen_time", .num 5)],
            .obj [("name", .str "Alice"), ("screen_time", .num 3)]],
      some (mkRat 7 10), ["s2"]⟩]
    ⟨.arr [], none, ["s1"]⟩
    [⟨.arr [.obj [("name", .str "Alice"), ("screen_time", .num 5)],
            .obj [("name", .str "Alice"), ("screen_time", .num 3)]],
      some (mkRat 7 10), ["s2"]⟩]
    [] rfl rfl
  exact (h.1.1 rfl).2

theorem mem_provUnion (l : List String) :
    ∀ (acc : List String) (x : String),
      x ∈ Fusion.provUnion acc l ↔ x ∈ acc ∨ x ∈ l := by
  induction l with
  | nil => intro acc x; simp [Fusion.provUnion]
  | cons p ps ih =>
      intro acc x
      simp only [Fusion.provUnion]
      by_cases hc : acc.contains p
      · simp only [hc, if_true]
        rw [ih acc x]
        constructor
        · intro h
          rcases h with h | h
          · exact Or.inl h
          · exact Or.inr (by simp [h])
        · intro h
          rcases h with h | h
          · exact Or.inl h
          · rcases List.mem_cons.mp h with h1 | h1
            · subst h1
              exact Or.inl (by simpa using hc)
            · exact Or.inr h1
      · simp only [hc, Bool.false_eq_true, if_false]
        rw [ih (acc ++ [p]) x]
        simp only [List.mem_append, List.mem_singleton, List.mem_cons]
        tauto


/-! ### Provenance-presence helpers for the scalar and list branches -/

theorem withSource_ne_nil (provs : List String) (srcname : String) :
    Fusion.withSource provs srcname ≠ [] := by
  unfold Fusion.withSource
  by_cases hc : provs.contains srcname
  · rw [if_pos hc]
    cases provs with
    | nil => simp at hc
    | cons a as => simp
  · rw [if_neg hc]
    simp

theorem gatherCandidates_prov_ne_nil (srcs : List Fusion.Src)
    (field : String) :
    ∀ c ∈ Fusion.gatherCandidates srcs field, c.prov ≠ [] := by
  intro c hc
  obtain ⟨s, hs, hsome⟩ := List.mem_filterMap.mp hc
  cases hj : JVal.jget s.scene field with
  | none => simp [Fusion.gatherCandidates, hj] at hsome
  | some v =>
      simp only [hj] at hsome
      injection hsome with h2
      rw [← h2]
      exact withSource_ne_nil _ _

theorem provUnion_foldl_mem {α : Type} (f : α → List String) (l : List α) :
    ∀ (acc : List String) (x : String),
      x ∈ l.foldl (fun a t => Fusion.provUnion a (f t)) acc
        ↔ x ∈ acc ∨ ∃ t ∈ l, x ∈ f t := by
  induction l with
  | nil => intro acc x; simp
  | cons t ts ih =>
      intro acc x
      simp only [List.foldl_cons]
      rw [ih]
      simp only [mem_provUnion]
      constructor
      · rintro ((h | h) | ⟨t2, ht2, hx⟩)
        · exact Or.inl h
        · exact Or.inr ⟨t, by simp, h⟩
        · exact Or.inr ⟨t2, by simp [ht2], hx⟩
      · rintro (h | ⟨t2, ht2, hx⟩)
        · exact Or.inl (Or.inl h)
        · rcases List.mem_cons.mp ht2 with h1 | h1
          · subst h1
            exact Or.inl (Or.inr hx)
          · exact Or.inr ⟨t2, h1, hx⟩

theorem pick_prov_all_null (cands : List Fusion.Cand)
    (h : ∀ c ∈ cands, c.val = JVal.null) :
    Fusion.pick_best_scalar cands = (JVal.null, none, []) := by
  unfold Fusion.pick_best_scalar
  have hf : (cands.filterMap fun c =>
      match c.val with
      | JVal.null => none
      | _ => some (c.val, c.conf.getD (-1), c.prov)) = [] := by
    rw [List.filterMap_eq_nil_iff]
    intro c hc
    rw [h c hc]
  simp [hf]

theorem pick_prov_eq (cands : List Fusion.Cand) :
    (Fusion.pick_best_scalar cands).2.2
      = (cands.filterMap fun c =>
          match c.val with
          | JVal.null => none
          | _ => some (c.val, c.conf.getD (-1), c.prov)).foldl
          (fun acc t => Fusion.provUnion acc t.2.2) [] := by
  unfold Fusion.pick_best_scalar
  cases hfilter : (cands.filterMap fun c =>
      match c.val with
      | JVal.null => none
      | _ => some (c.val, c.conf.getD (-1), c.prov)) with
  | nil => simp [hfilter]
  | cons f1 fs => simp [hfilter]

theorem pick_prov_mem (cands : List Fusion.Cand) (c : Fusion.Cand)
    (hc : c ∈ cands) (hnn : c.val ≠ JVal.null) (x : String)
    (hx : x ∈ c.prov) :
    x ∈ (Fusion.pick_best_scalar cands).2.2 := by
  have hmem : (c.val, c.conf.getD (-1), c.prov) ∈ cands.filterMap (fun c =>
      match c.val with
      | JVal.null => none
      | _ => some (c.val, c.conf.getD (-1), c.prov)) := by
    refine List.mem_filterMap.mpr ⟨c, hc, ?_⟩
    cases hv : c.val with
    | null => exact absurd hv hnn
    | bool b => rfl
    | num q => rfl
    | str s => rfl
    | arr l => rfl
    | obj o => rfl
  rw [pick_prov_eq]
  exact (provUnion_foldl_mem (fun t => t.2.2) _ [] x).mpr
    (Or.inr ⟨(c.val, c.conf.getD (-1), c.prov), hmem, hx⟩)

/-! ### Claim C8 -/

/-- C8: for every input value of any shape, `validate_scene` returns a
boolean/message-list pair computed totally (all exceptions in the Python
schema block are swallowed by its handler): the verdict is exactly
"no messages", a non-dict input yields the single not-a-dict message, a
record missing `scene_id` or `movie_id` gets a message rather than an
exception, and `enforce_scene` errors exactly when validation fails and
strict mode is on, otherwise returning the validator's pair unchanged. -/
theorem C8_validator_never_raises (schemaFile : Option JVal) (scene : JVal)
    (strict : Bool) :
    ((Schema.validate_scene schemaFile scene).1
        = (Schema.validate_scene schemaFile scene).2.isEmpty) ∧
    ((∃ kvs, scene = JVal.obj kvs) ∨
      Schema.validate_scene schemaFile scene = (false, ["scene is not a dict"])) ∧
    (∀ kvs, scene = JVal.obj kvs →
      (JVal.jget kvs "scene_id").isSome = true ∨
        "missing scene_id" ∈ (Schema.validate_scene schemaFile scene).2) ∧
    (∀ kvs, scene = JVal.obj kvs →
      (JVal.jget kvs "movie_id").isSome = true ∨
        "missing movie_id" ∈ (Schema.validate_scene schemaFile scene).2) ∧
    (Schema.enforce_scene strict schemaFile scene =
      if (!(Schema.validate_scene schemaFile scene).1 && strict) = true
      then Except.error "Scene validation failed"
      else Except.ok (Schema.validate_scene schemaFile scene)) := by
  cases scene with
  | obj kvs =>
      refine ⟨rfl, Or.inl ⟨kvs, rfl⟩, ?_, ?_, rfl⟩
      · intro kvs' he
        cases he
        by_cases hs : (JVal.jget kvs "scene_id").isSome
        · exact Or.inl hs
        · right
          unfold Schema.validate_scene
          simp only [Bool.not_eq_true] at hs
          simp [hs]
      · intro kvs' he
        cases he
        by_cases hs : (JVal.jget kvs "movie_id").isSome
        · exact Or.inl hs
        · right
          unfold Schema.validate_scene
          simp only [Bool.not_eq_true] at hs
          simp [hs]
  | null =>
      refine ⟨rfl, Or.inr rfl, ?_, ?_, rfl⟩ <;> intro kvs he <;> cases he
  | bool b =>
      refine ⟨rfl, Or.inr rfl, ?_, ?_, rfl⟩ <;> intro kvs he <;> cases he
  | num q =>
      refine ⟨rfl, Or.inr rfl, ?_, ?_, rfl⟩ <;> intro kvs he <;> cases he
  | str s =>
      refine ⟨rfl, Or.inr rfl, ?_, ?_, rfl⟩ <;> intro kvs he <;> cases he
  | arr l =>
      refine ⟨rfl, Or.inr rfl, ?_, ?_, rfl⟩ <;> intro kvs he <;> cases he

/-- C8 witness: the validator contract applied to the malformed non-dict
input `null` under strict enforcement: the pair is returned, no exception
model is reachable, and the enforce wrapper escalates. -/
theorem C8_wit :
    Schema.enforce_scene true none JVal.null
      = Except.error "Scene validation failed" := by
  have h := C8_validator_never_raises none JVal.null true
  rw [h.2.2.2.2]
  rfl

/-! ### Folder-loading helper lemmas -/

theorem beq_str_true (v : JVal) (m : String) :
    JVal.beq v (.str m) = true → v = .str m := by
  cases v <;> simp [JVal.beq]

theorem local_sid_none (raw : String) : Merger.local_sid none raw = raw := by
  unfold Merger.local_sid
  cases h : chBreak ['_'] raw.data with
  | none => rfl
  | some p => simp

theorem processItem_skip (movieName : String) (fm : Option JVal)
    (hs : Merger.skipsFile movieName fm = true) :
    ∀ (m : List (String × JVal)) (item : JVal),
      Merger.processItem movieName fm m item = m := by
  intro m item
  cases item with
  | obj kvs =>
      unfold Merger.processItem
      cases hg : JVal.jget kvs "scene_id" with
      | none => simp [hg]
      | some v =>
          cases v with
          | str sid =>
              by_cases he : sid == ""
              · simp [hg, he]
              · simp [hg, he, hs]
          | null => simp [hg]
          | bool b => simp [hg]
          | num q => simp [hg]
          | arr l => simp [hg]
          | obj o => simp [hg]
  | null => rfl
  | bool b => rfl
  | num q => rfl
  | str s => rfl
  | arr l => rfl

theorem foldl_processItem_skip (movieName : String) (fm : Option JVal)
    (hs : Merger.skipsFile movieName fm = true) (items : List JVal) :
    ∀ m, items.foldl (Merger.processItem movieName fm) m = m := by
  induction items with
  | nil => intro m; rfl
  | cons it rest ih =>
      intro m
      simp only [List.foldl_cons]
      rw [processItem_skip movieName fm hs m it, ih m]

theorem processItem_include (movieName : String)
    (kvs dataMap : List (String × JVal)) (sid : String)
    (hid : JVal.jget kvs "scene_id" = some (.str sid)) (hne : sid ≠ "") :
    Merger.processItem movieName none dataMap (.obj kvs)
      = JVal.jset dataMap sid (.obj kvs) := by
  unfold Merger.processItem
  simp only [hid]
  have hsid : (sid == "") = false := by simp [hne]
  simp [hsid, Merger.skipsFile, local_sid_none]

/-! ### Claim C9 -/

/-- C9 counterexample: the fragment file `_scene_0001.json` (no `movie_id`
inside) has, per the claim's inference, the filename-derived movie `""` —
the text before the `"_scene_"` marker — which differs from the requested
movie `"m1"`; the claim then demands exclusion, yet `load_folder_as_map`
returns the fragment in the scene map (the code ignores falsy signals). -/
theorem C9_counterexample :
    Spec.claimedMovieSignal "_scene_0001" (.obj [("scene_id", .str "scene_0001")])
        = some (.str "") ∧
    ("" = "m1") = False ∧
    Merger.load_folder_as_map "m1"
        [("_scene_0001", .obj [("scene_id", .str "scene_0001")])]
      = [("scene_0001", .obj [("scene_id", .str "scene_0001")])] :=
  ⟨rfl, by simp, rfl⟩

/-- C9 (amended): a fragment's movie affiliation is inferred from a truthy
explicit `movie_id` (on the fragment or its first list item) first, then
from the filename text before a `"_scene_"` marker; a truthy inferred
signal that differs from the requested movie excludes the fragment from
the map — so fragments with truthy signals never leak into another movie's
map — while a missing (or falsy, e.g. empty) signal is permissive: the
fragment is treated as belonging to the requested movie and a dict
fragment with a truthy string `scene_id` is registered under its id. -/
theorem C9_movie_affiliation (movieName stem : String) (content : JVal)
    (dataMap : List (String × JVal)) :
    (∀ v, Merger.contentSignal content = some v →
        Merger.file_movie_of stem content = some v) ∧
    (Merger.contentSignal content = none →
        Merger.file_movie_of stem content = Merger.filenameSignal stem) ∧
    (∀ v, Merger.file_movie_of stem content = some v →
        JVal.jtruthy v = true → v ≠ .str movieName →
        Merger.processFile movieName dataMap stem content = dataMap) ∧
    (Merger.file_movie_of stem content = none →
        ∀ kvs sid, content = .obj kvs →
          JVal.jget kvs "scene_id" = some (.str sid) → sid ≠ "" →
          Merger.processFile movieName dataMap stem content
            = JVal.jset dataMap sid (.obj kvs)) ∧
    (∀ m1 m2 : String, m1 ≠ m2 → m1 ≠ "" →
        Merger.file_movie_of stem content = some (.str m1) →
        Merger.processFile m2 dataMap stem content = dataMap) := by
  have hskipgen : ∀ (mn : String) (v : JVal),
      Merger.file_movie_of stem content = some v →
      JVal.jtruthy v = true → v ≠ .str mn →
      Merger.processFile mn dataMap stem content = dataMap := by
    intro mn v hsig htr hne
    have hbeq : JVal.beq v (.str mn) = false := by
      cases hb : JVal.beq v (.str mn)
      · rfl
      · exact absurd (beq_str_true v mn hb) hne
    have hskip : Merger.skipsFile mn (some v) = true := by
      simp [Merger.skipsFile, htr, hbeq]
    unfold Merger.processFile
    rw [hsig]
    cases content with
    | arr items => exact foldl_processItem_skip mn (some v) hskip items dataMap
    | obj kvs => exact processItem_skip mn (some v) hskip dataMap (.obj kvs)
    | null => rfl
    | bool b => rfl
    | num q => rfl
    | str s => rfl
  refine ⟨?_, ?_, hskipgen movieName, ?_, ?_⟩
  · intro v h
    simp [Merger.file_movie_of, h]
  · intro h
    simp [Merger.file_movie_of, h]
  · intro hsig kvs sid he hid hne
    subst he
    have h1 : Merger.processFile movieName dataMap stem (.obj kvs)
        = Merger.processItem movieName (Merger.file_movie_of stem (.obj kvs))
            dataMap (.obj kvs) := rfl
    rw [h1, hsig]
    exact processItem_include movieName kvs dataMap sid hid hne
  · intro m1 m2 hne hne1 hsig
    refine hskipgen m2 (.str m1) hsig ?_ ?_
    · simp [JVal.jtruthy, hne1]
    · intro h
      have : m1 = m2 := by injection h
      exact hne this

/-- C9 witness: the affiliation theorem applied to a fragment of movie
`"m2"` loaded while building movie `"m1"`: the content `movie_id` wins and
the fragment is excluded from the other movie's map. -/
theorem C9_wit :
    Merger.processFile "m1" []
      "m2_scene_0001"
      (.obj [("scene_id", .str "m2_scene_0001"), ("movie_id", .str "m2")])
      = [] := by
  have h := C9_movie_affiliation "m1" "m2_scene_0001"
    (.obj [("scene_id", .str "m2_scene_0001"), ("movie_id", .str "m2")]) []
  exact h.2.2.2.2 "m2" "m1" (by decide) (by decide) rfl

/-! ### Scalar-selection lemmas (claim C2) -/

theorem le_foldl_max (l : List ℚ) : ∀ q : ℚ, q ≤ l.foldl max q := by
  induction l with
  | nil => intro q; exact le_refl q
  | cons c cs ih =>
      intro q
      simp only [List.foldl_cons]
      exact le_trans (le_max_left q c) (ih (max q c))

theorem foldl_max_le_of_mem (l : List ℚ) :
    ∀ (q x : ℚ), x ∈ l → x ≤ l.foldl max q := by
  induction l with
  | nil => intro q x hx; simp at hx
  | cons c cs ih =>
      intro q x hx
      simp only [List.foldl_cons]
      rcases List.mem_cons.mp hx with h | h
      · subst h
        exact le_trans (le_max_right q x) (le_foldl_max cs (max q x))
      · exact ih (max q c) x h

theorem foldl_max_mem_or_seed (l : List ℚ) :
    ∀ q : ℚ, l.foldl max q = q ∨ l.foldl max q ∈ l := by
  induction l with
  | nil => intro q; exact Or.inl rfl
  | cons c cs ih =>
      intro q
      simp only [List.foldl_cons]
      rcases ih (max q c) with h | h
      · rcases max_choice q c with hm | hm
        · exact Or.inl (by rw [h, hm])
        · exact Or.inr (by rw [h, hm]; simp)
      · exact Or.inr (by simp [h])

theorem pickMax_seed_le (fs : List (JVal × ℚ × List String)) :
    ∀ f, f.2.1 ≤ (Fusion.pickMax f fs).2.1 := by
  induction fs with
  | nil => intro f; exact le_refl _
  | cons c cs ih =>
      intro f
      simp only [Fusion.pickMax]
      by_cases h : f.2.1 < c.2.1
      · simp only [if_pos h]
        exact le_trans (le_of_lt h) (ih c)
      · simp only [if_neg h]
        exact ih f

theorem pickMax_mem (fs : List (JVal × ℚ × List String)) :
    ∀ f, Fusion.pickMax f fs = f ∨ Fusion.pickMax f fs ∈ fs := by
  induction fs with
  | nil => intro f; exact Or.inl rfl
  | cons c cs ih =>
      intro f
      simp only [Fusion.pickMax]
      by_cases h : f.2.1 < c.2.1
      · simp only [if_pos h]
        rcases ih c with h1 | h1
        · exact Or.inr (by simp [h1])
        · exact Or.inr (by simp [h1])
      · simp only [if_neg h]
        rcases ih f with h1 | h1
        · exact Or.inl h1
        · exact Or.inr (by simp [h1])

theorem pickMax_ge (fs : List (JVal × ℚ × List String)) :
    ∀ f, ∀ x ∈ fs, x.2.1 ≤ (Fusion.pickMax f fs).2.1 := by
  induction fs with
  | nil => intro f x hx; simp at hx
  | cons c cs ih =>
      intro f x hx
      simp only [Fusion.pickMax]
      rcases List.mem_cons.mp hx with h | h
      · subst h
        by_cases hc : f.2.1 < x.2.1
        · simp only [if_pos hc]
          exact pickMax_seed_le cs x
        · simp only [if_neg hc]
          exact le_trans (not_lt.mp hc) (pickMax_seed_le cs f)
      · by_cases hc : f.2.1 < c.2.1
        · simp only [if_pos hc]
          exact ih c x h
        · simp only [if_neg hc]
          exact ih f x h

theorem pickMax_first (fs : List (JVal × ℚ × List String)) :
    ∀ f, ∃ pre post, f :: fs = pre ++ Fusion.pickMax f fs :: post ∧
      ∀ x ∈ pre, x.2.1 < (Fusion.pickMax f fs).2.1 := by
  induction fs with
  | nil =>
      intro f
      exact ⟨[], [], rfl, by intro x hx; simp at hx⟩
  | cons c cs ih =>
      intro f
      simp only [Fusion.pickMax]
      by_cases h : f.2.1 < c.2.1
      · simp only [if_pos h]
        obtain ⟨pre, post, heq, hlt⟩ := ih c
        refine ⟨f :: pre, post, by rw [List.cons_append, ← heq], ?_⟩
        intro x hx
        rcases List.mem_cons.mp hx with h1 | h1
        · subst h1
          exact lt_of_lt_of_le h (pickMax_seed_le cs c)
        · exact hlt x h1
      · simp only [if_neg h]
        obtain ⟨pre, post, heq, hlt⟩ := ih f
        cases pre with
        | nil =>
            simp only [List.nil_append] at heq
            refine ⟨[], c :: cs, ?_, by intro x hx; simp at hx⟩
            have hf : Fusion.pickMax f cs = f := (List.cons.injEq _ _ _ _).mp heq |>.1.symm
            rw [hf]
            rfl
        | cons a pre' =>
            have ha : a = f ∧ cs = pre' ++ Fusion.pickMax f cs :: post := by
              have := (List.cons.injEq _ _ _ _).mp heq
              exact ⟨this.1.symm, this.2⟩
            refine ⟨f :: c :: pre', post, ?_, ?_⟩
            · simp only [List.cons_append]
              rw [← ha.2]
            · intro x hx
              rcases List.mem_cons.mp hx with h1 | h1
              · subst h1
                have haf : a ∈ (a :: pre') := by simp
                exact ha.1 ▸ hlt a haf
              · rcases List.mem_cons.mp h1 with h2 | h2
                · subst h2
                  have hfp : f.2.1 < (Fusion.pickMax f cs).2.1 := by
                    have haf : a ∈ (a :: pre') := by simp
                    exact ha.1 ▸ hlt a haf
                  exact lt_of_le_of_lt (not_lt.mp h) hfp
                · exact hlt x (by simp [h2])

theorem filterMap_nil_all {α β : Type} (f : α → Option β) (l : List α)
    (h : l.filterMap f = []) : ∀ x ∈ l, f x = none := by
  induction l with
  | nil => intro x hx; simp at hx
  | cons a as ih =>
      intro x hx
      rw [List.filterMap_cons] at h
      cases hf : f a with
      | some b => rw [hf] at h; simp at h
      | none =>
          rw [hf] at h
          rcases List.mem_cons.mp hx with h1 | h1
          · exact h1 ▸ hf
          · exact ih h x h1

theorem find?_skip_append {α : Type} (p : α → Bool) (l1 l2 : List α)
    (h : ∀ x ∈ l1, p x = false) :
    (l1 ++ l2).find? p = l2.find? p := by
  induction l1 with
  | nil => rfl
  | cons a as ih =>
      have ha : p a = false := h a (by simp)
      simp only [List.cons_append, List.find?_cons, ha]
      exact ih fun x hx => h x (by simp [hx])

theorem map_split {α β : Type} (f : α → β) (pre : List β) :
    ∀ (l : List α) (pm : β) (post : List β),
      l.map f = pre ++ pm :: post →
      ∃ preN cst postN, l = preN ++ cst :: postN ∧ preN.map f = pre ∧
        f cst = pm ∧ postN.map f = post := by
  induction pre with
  | nil =>
      intro l pm post h
      cases l with
      | nil => simp at h
      | cons c rest =>
          simp only [List.map_cons, List.nil_append] at h
          obtain ⟨h1, h2⟩ := (List.cons.injEq _ _ _ _).mp h
          exact ⟨[], c, rest, rfl, rfl, h1, h2⟩
  | cons a pre' ih =>
      intro l pm post h
      cases l with
      | nil => simp at h
      | cons c rest =>
          simp only [List.map_cons, List.cons_append] at h
          obtain ⟨h1, h2⟩ := (List.cons.injEq _ _ _ _).mp h
          obtain ⟨preN, cst, postN, he, hm1, hm2, hm3⟩ := ih rest pm post h2
          exact ⟨c :: preN, cst, postN, by rw [he]; rfl, by simp [hm1, h1], hm2, hm3⟩

theorem filtered_eq (cands : List Fusion.Cand) :
    (cands.filterMap fun c =>
      match c.val with
      | JVal.null => none
      | _ => some (c.val, c.conf.getD (-1), c.prov))
    = ((cands.filter fun c =>
        match c.val with
        | JVal.null => false
        | _ => true).map fun c => (c.val, c.conf.getD (-1), c.prov)) := by
  induction cands with
  | nil => rfl
  | cons c cs ih =>
      rw [List.filterMap_cons, List.filter_cons]
      cases hv : c.val <;> simp [hv, ih]

theorem pick_eq_claimed (cands : List Fusion.Cand)
    (hc : ∀ c ∈ cands, ∀ q, c.conf = some q → 0 ≤ q) :
    (Fusion.pick_best_scalar cands).1
      = ((Spec.claimedBestScalar cands).map Fusion.Cand.val).getD JVal.null := by
  unfold Fusion.pick_best_scalar Spec.claimedBestScalar
  rw [filtered_eq]
  cases hf : (cands.filter fun c =>
      match c.val with
      | JVal.null => false
      | _ => true) with
  | nil => simp
  | cons n0 nns =>
      simp only [List.map_cons]
      cases hs : (n0 :: nns).filterMap Fusion.Cand.conf with
      | nil =>
          have hall : ∀ c ∈ n0 :: nns, c.conf = none :=
            filterMap_nil_all Fusion.Cand.conf (n0 :: nns) hs
          have hpm : Fusion.pickMax (n0.val, n0.conf.getD (-1), n0.prov)
              (nns.map fun c => (c.val, c.conf.getD (-1), c.prov))
              = (n0.val, n0.conf.getD (-1), n0.prov) := by
            apply pickMax_all_le
            intro x hx
            obtain ⟨c, hcmem, hce⟩ := List.mem_map.mp hx
            rw [← hce]
            simp only []
            rw [hall c (by simp [hcmem]), hall n0 (by simp)]
          simp [hpm]
      | cons q qs =>
          have hmem_nn : ∀ c ∈ n0 :: nns, c ∈ cands := by
            intro c hcm
            rw [← hf] at hcm
            exact (List.mem_filter.mp hcm).1
          have hnn0 : ∀ c ∈ n0 :: nns, ∀ x, c.conf = some x → 0 ≤ x := by
            intro c hcm x hx
            exact hc c (hmem_nn c hcm) x hx
          have hsup_le : ∀ x ∈ q :: qs, x ≤ qs.foldl max q := by
            intro x hx
            rcases List.mem_cons.mp hx with h1 | h1
            · exact h1 ▸ le_foldl_max qs q
            · exact foldl_max_le_of_mem qs q x h1
          have hsup_mem : qs.foldl max q ∈ q :: qs := by
            rcases foldl_max_mem_or_seed qs q with h1 | h1
            · rw [h1]; simp
            · simp [h1]
          have hcstar : ∃ c ∈ n0 :: nns, c.conf = some (qs.foldl max q) := by
            rw [← hs] at hsup_mem
            obtain ⟨c, hcm, hcc⟩ := List.mem_filterMap.mp hsup_mem
            exact ⟨c, hcm, hcc⟩
          obtain ⟨cstar, hcsm, hcsc⟩ := hcstar
          have hm0 : 0 ≤ qs.foldl max q := hnn0 cstar hcsm _ hcsc
          have heff_le : ∀ x ∈ ((n0.val, n0.conf.getD (-1), n0.prov) ::
              (nns.map fun c => (c.val, c.conf.getD (-1), c.prov))),
              x.2.1 ≤ qs.foldl max q := by
            intro x hx
            have hx2 : x ∈ (n0 :: nns).map fun c => (c.val, c.conf.getD (-1), c.prov) := by
              simpa using hx
            obtain ⟨c, hcmem, hce⟩ := List.mem_map.mp hx2
            rw [← hce]
            cases hcc : c.conf with
            | none => simp only [Option.getD]; exact le_trans (by norm_num) hm0
            | some x0 =>
                simp only [Option.getD]
                have hx0 : x0 ∈ q :: qs := by
                  rw [← hs]
                  exact List.mem_filterMap.mpr ⟨c, hcmem, hcc⟩
                exact hsup_le x0 hx0
          have hpm_mem : Fusion.pickMax (n0.val, n0.conf.getD (-1), n0.prov)
              (nns.map fun c => (c.val, c.conf.getD (-1), c.prov))
              ∈ ((n0.val, n0.conf.getD (-1), n0.prov) ::
                 (nns.map fun c => (c.val, c.conf.getD (-1), c.prov))) := by
            rcases pickMax_mem _ _ with h1 | h1
            · rw [h1]; simp
            · simp [h1]
          have hpm_le : (Fusion.pickMax (n0.val, n0.conf.getD (-1), n0.prov)
              (nns.map fun c => (c.val, c.conf.getD (-1), c.prov))).2.1
              ≤ qs.foldl max q := heff_le _ hpm_mem
          have hpm_ge : qs.foldl max q
              ≤ (Fusion.pickMax (n0.val, n0.conf.getD (-1), n0.prov)
                 (nns.map fun c => (c.val, c.conf.getD (-1), c.prov))).2.1 := by
            have hE : ((cstar.val, cstar.conf.getD (-1), cstar.prov) :
                JVal × ℚ × List String) ∈ ((n0.val, n0.conf.getD (-1), n0.prov) ::
                (nns.map fun c => (c.val, c.conf.getD (-1), c.prov))) := by
              have : (cstar.val, cstar.conf.getD (-1), cstar.prov)
                  ∈ (n0 :: nns).map fun c => (c.val, c.conf.getD (-1), c.prov) :=
                List.mem_map.mpr ⟨cstar, hcsm, rfl⟩
              simpa using this
            have heq : ((cstar.val, cstar.conf.getD (-1), cstar.prov) :
                JVal × ℚ × List String).2.1 = qs.foldl max q := by
              simp [hcsc]
            rcases List.mem_cons.mp hE with h1 | h1
            · rw [← heq, ← h1]
              exact pickMax_seed_le _ _
            · rw [← heq]
              exact pickMax_ge _ _ _ h1
          have hpm : (Fusion.pickMax (n0.val, n0.conf.getD (-1), n0.prov)
              (nns.map fun c => (c.val, c.conf.getD (-1), c.prov))).2.1
              = qs.foldl max q := le_antisymm hpm_le hpm_ge
          obtain ⟨pre, post, heq, hlt⟩ := pickMax_first
            (nns.map fun c => (c.val, c.conf.getD (-1), c.prov))
            (n0.val, n0.conf.getD (-1), n0.prov)
          have hmapsplit : (n0 :: nns).map (fun c => (c.val, c.conf.getD (-1), c.prov))
              = pre ++ Fusion.pickMax (n0.val, n0.conf.getD (-1), n0.prov)
                  (nns.map fun c => (c.val, c.conf.getD (-1), c.prov)) :: post := by
            simpa using heq
          obtain ⟨preN, cst, postN, hnsplit, hmpre, hmcst, hmpost⟩ :=
            map_split _ pre (n0 :: nns) _ post hmapsplit
          have hcst_conf : cst.conf = some (qs.foldl max q) := by
            cases hcc : cst.conf with
            | some x0 =>
                have : x0 = qs.foldl max q := by
                  have := hmcst
                  rw [← hpm, ← this]
                  simp [hcc]
                rw [this]
            | none =>
                exfalso
                have : ((-1 : ℚ)) = qs.foldl max q := by
                  rw [← hpm, ← hmcst]
                  simp [hcc]
                have hneg : (0 : ℚ) ≤ -1 := this ▸ hm0
                norm_num at hneg
          have hfind : (n0 :: nns).find?
              (fun c => c.conf == some (qs.foldl max q)) = some cst := by
            rw [hnsplit]
            rw [find?_skip_append]
            · rw [List.find?_cons_of_pos]
              simp [hcst_conf]
            · intro x hx
              have hxE : (x.val, x.conf.getD (-1), x.prov) ∈ pre := by
                rw [← hmpre]
                exact List.mem_map.mpr ⟨x, hx, rfl⟩
              have hxlt : (x.conf.getD (-1)) < qs.foldl max q := by
                have := hlt _ hxE
                rw [hpm] at this
                simpa using this
              cases hxc : x.conf with
              | none => simp
              | some x0 =>
                  rw [hxc] at hxlt
                  simp only [Option.getD] at hxlt
                  simp [Option.some.injEq, ne_of_lt hxlt]
          show _ = (Option.map Fusion.Cand.val
            ((n0 :: nns).find? fun c =>
              c.conf == some (List.foldl max q qs))).getD JVal.null
          rw [hfind]
          have : (Fusion.pickMax (n0.val, n0.conf.getD (-1), n0.prov)
              (nns.map fun c => (c.val, c.conf.getD (-1), c.prov))).1 = cst.val := by
            rw [← hmcst]
          simp [this]

theorem pick_null_iff (cands : List Fusion.Cand) :
    ((Fusion.pick_best_scalar cands).1 = JVal.null ↔
      (cands.filter fun c =>
        match c.val with
        | JVal.null => false
        | _ => true) = []) := by
  unfold Fusion.pick_best_scalar
  rw [filtered_eq]
  cases hf : (cands.filter fun c =>
      match c.val with
      | JVal.null => false
      | _ => true) with
  | nil => simp
  | cons n0 nns =>
      simp only [List.map_cons]
      show (Fusion.pickMax (n0.val, n0.conf.getD (-1), n0.prov)
          (nns.map fun c => (c.val, c.conf.getD (-1), c.prov))).1 = JVal.null ↔ _
      constructor
      · intro h
        exfalso
        have hpm_mem : Fusion.pickMax (n0.val, n0.conf.getD (-1), n0.prov)
            (nns.map fun c => (c.val, c.conf.getD (-1), c.prov))
            ∈ (n0 :: nns).map fun c => (c.val, c.conf.getD (-1), c.prov) := by
          rcases pickMax_mem
            (nns.map fun c => (c.val, c.conf.getD (-1), c.prov))
            (n0.val, n0.conf.getD (-1), n0.prov) with h1 | h1
          · rw [h1]; simp
          · simp [h1]
        obtain ⟨c, hcmem, hce⟩ := List.mem_map.mp hpm_mem
        have hcv : c.val = JVal.null := by
          rw [← h, ← hce]
        have hfilt : c ∈ cands.filter fun c =>
            match c.val with
            | JVal.null => false
            | _ => true := by
          rw [hf]
          exact hcmem
        have hp := (List.mem_filter.mp hfilt).2
        rw [hcv] at hp
        simp at hp
      · intro h
        cases h

/-! ### Claim C2 -/

/-- C2: with in-range confidences (the data model keeps them in `[0, 1]`;
only non-negativity is needed), the scalar/object branch of the field
fusion selects exactly the candidate the specification describes: among
the non-null-valued candidates, the first one carrying the highest
supplied confidence — so ties and the all-absent case resolve to input
order — and a null-valued candidate is never selected while any non-null
candidate exists (the picked value is null exactly when every candidate's
value is null). -/
theorem C2_scalar_selection (field : String) (cands : List Fusion.Cand)
    (h0 : ∀ c ∈ cands, ∀ q, c.conf = some q → 0 ≤ q)
    (h1 : ∀ c ∈ cands, ∀ xs, c.val ≠ JVal.arr xs) :
    (Fusion.fuseField field cands).1
        = ((Spec.claimedBestScalar cands).map Fusion.Cand.val).getD JVal.null ∧
    ((Fusion.fuseField field cands).1 = JVal.null ↔
      (cands.filter fun c =>
        match c.val with
        | JVal.null => false
        | _ => true) = []) := by
  have hval : (Fusion.fuseField field cands).1
      = (Fusion.pick_best_scalar cands).1 := by
    cases cands with
    | nil => rfl
    | cons c0 cs =>
        rw [fuseField_scalar field c0 cs (h1 c0 (by simp))]
  rw [hval]
  exact ⟨pick_eq_claimed cands h0, pick_null_iff cands⟩

/-- C2 witness: a null-valued candidate carries the highest confidence but
is never selected; among the real values the higher-confidence `"b"` wins
over the earlier `"a"`. -/
theorem C2_wit :
    (Fusion.fuseField "location"
      [⟨.str "a", some (mkRat 6 10), ["s1"]⟩,
       ⟨JVal.null, some (mkRat 95 100), ["s0"]⟩,
       ⟨.str "b", some (mkRat 9 10), ["s2"]⟩]).1 = .str "b" := by
  have h := C2_scalar_selection "location"
    [⟨.str "a", some (mkRat 6 10), ["s1"]⟩,
     ⟨JVal.null, some (mkRat 95 100), ["s0"]⟩,
     ⟨.str "b", some (mkRat 9 10), ["s2"]⟩]
    (by intro c hc q hq
        simp only [List.mem_cons, List.not_mem_nil, or_false] at hc
        rcases hc with rfl | rfl | rfl <;> simp_all <;> rw [← hq] <;> decide)
    (by intro c hc xs
        simp only [List.mem_cons, List.not_mem_nil, or_false] at hc
        rcases hc with rfl | rfl | rfl <;> simp)
  exact h.1.trans rfl

/-! ### Generic list-branch lemmas (claim C4) -/

theorem maxList_eq_foldl (l : List ℚ) : ∀ q, Fusion.maxList q l = l.foldl max q := by
  induction l with
  | nil => intro q; rfl
  | cons c cs ih =>
      intro q
      simp only [Fusion.maxList, List.foldl_cons]
      exact ih (max q c)

theorem listParts_val (cands : List Fusion.Cand) :
    ∀ acc : List JVal × List ℚ × List String,
      (cands.foldl
        (fun acc c =>
          (match c.val with
           | .arr xs => acc.1 ++ xs
           | _ => acc.1,
           match c.conf with
           | some q => acc.2.1 ++ [q]
           | none => acc.2.1,
           Fusion.provUnion acc.2.2 c.prov)) acc).1
      = acc.1 ++ (cands.filterMap fun c =>
          match c.val with
          | JVal.arr xs => some xs
          | _ => none).flatten := by
  induction cands with
  | nil => intro acc; simp
  | cons c cs ih =>
      intro acc
      simp only [List.foldl_cons, List.filterMap_cons]
      cases hv : c.val <;> simp [hv, ih, List.flatten_cons]

theorem listParts_confs (cands : List Fusion.Cand) :
    ∀ acc : List JVal × List ℚ × List String,
      (cands.foldl
        (fun acc c =>
          (match c.val with
           | .arr xs => acc.1 ++ xs
           | _ => acc.1,
           match c.conf with
           | some q => acc.2.1 ++ [q]
           | none => acc.2.1,
           Fusion.provUnion acc.2.2 c.prov)) acc).2.1
      = acc.2.1 ++ cands.filterMap Fusion.Cand.conf := by
  induction cands with
  | nil => intro acc; simp
  | cons c cs ih =>
      intro acc
      simp only [List.foldl_cons, List.filterMap_cons]
      cases hv : c.conf <;> simp [hv, ih, Fusion.Cand.conf]

theorem nodup_provUnion (l : List String) :
    ∀ acc : List String, acc.Nodup → (Fusion.provUnion acc l).Nodup := by
  induction l with
  | nil => intro acc h; exact h
  | cons p ps ih =>
      intro acc h
      simp only [Fusion.provUnion]
      by_cases hc : acc.contains p
      · simp only [hc, if_true]
        exact ih acc h
      · simp only [hc, Bool.false_eq_true, if_false]
        refine ih (acc ++ [p]) ?_
        rw [List.nodup_append]
        refine ⟨h, List.nodup_singleton p, ?_⟩
        intro a ha hb
        rw [List.mem_singleton] at hb
        subst hb
        exact absurd (by simpa using ha) (by simpa using hc)

theorem listParts_provs_mem (cands : List Fusion.Cand) :
    ∀ (acc : List JVal × List ℚ × List String) (x : String),
      (x ∈ (cands.foldl
        (fun acc c =>
          (match c.val with
           | .arr xs => acc.1 ++ xs
           | _ => acc.1,
           match c.conf with
           | some q => acc.2.1 ++ [q]
           | none => acc.2.1,
           Fusion.provUnion acc.2.2 c.prov)) acc).2.2
        ↔ x ∈ acc.2.2 ∨ ∃ c ∈ cands, x ∈ c.prov) := by
  induction cands with
  | nil => intro acc x; simp
  | cons c cs ih =>
      intro acc x
      simp only [List.foldl_cons]
      rw [ih]
      simp only [mem_provUnion]
      constructor
      · intro h
        rcases h with (h | h) | ⟨c', hc', hx⟩
        · exact Or.inl h
        · exact Or.inr ⟨c, by simp, h⟩
        · exact Or.inr ⟨c', by simp [hc'], hx⟩
      · intro h
        rcases h with h | ⟨c', hc', hx⟩
        · exact Or.inl (Or.inl h)
        · rcases List.mem_cons.mp hc' with h1 | h1
          · subst h1
            exact Or.inl (Or.inr hx)
          · exact Or.inr ⟨c', h1, hx⟩

theorem listParts_provs_nodup (cands : List Fusion.Cand) :
    ∀ acc : List JVal × List ℚ × List String, acc.2.2.Nodup →
      (cands.foldl
        (fun acc c =>
          (match c.val with
           | .arr xs => acc.1 ++ xs
           | _ => acc.1,
           match c.conf with
           | some q => acc.2.1 ++ [q]
           | none => acc.2.1,
           Fusion.provUnion acc.2.2 c.prov)) acc).2.2.Nodup := by
  induction cands with
  | nil => intro acc h; exact h
  | cons c cs ih =>
      intro acc h
      simp only [List.foldl_cons]
      exact ih _ (nodup_provUnion c.prov acc.2.2 h)

theorem uniqAux_sublist (l : List JVal) :
    ∀ seen, (Fusion.uniqAux seen l).Sublist l := by
  induction l with
  | nil => intro seen; simp [Fusion.uniqAux]
  | cons it rest ih =>
      intro seen
      simp only [Fusion.uniqAux]
      by_cases hc : seen.any fun x => JVal.beq x (Fusion.dumpsKey it)
      · simp only [hc, if_true]
        exact (ih seen).cons it
      · simp only [hc, Bool.false_eq_true, if_false]
        exact (ih _).cons₂ it

theorem uniqAux_cover (l : List JVal) :
    ∀ seen x, x ∈ l →
      x ∈ Fusion.uniqAux seen l ∨
      (∃ z ∈ seen, JVal.beq z (Fusion.dumpsKey x) = true) ∨
      ∃ y ∈ Fusion.uniqAux seen l,
        JVal.beq (Fusion.dumpsKey y) (Fusion.dumpsKey x) = true := by
  induction l with
  | nil => intro seen x hx; simp at hx
  | cons it rest ih =>
      intro seen x hx
      simp only [Fusion.uniqAux]
      by_cases hc : seen.any fun z => JVal.beq z (Fusion.dumpsKey it)
      · simp only [hc, if_true]
        rcases List.mem_cons.mp hx with h1 | h1
        · subst h1
          obtain ⟨z, hz, hbeq⟩ := List.any_eq_true.mp hc
          exact Or.inr (Or.inl ⟨z, hz, hbeq⟩)
        · exact ih seen x h1
      · simp only [hc, Bool.false_eq_true, if_false]
        rcases List.mem_cons.mp hx with h1 | h1
        · subst h1
          exact Or.inl (by simp)
        · rcases ih (Fusion.dumpsKey it :: seen) x h1 with h2 | ⟨z, hz, hbeq⟩ | ⟨y, hy, hbeq⟩
          · exact Or.inl (by simp [h2])
          · rcases List.mem_cons.mp hz with h3 | h3
            · subst h3
              exact Or.inr (Or.inr ⟨it, by simp, hbeq⟩)
            · exact Or.inr (Or.inl ⟨z, h3, hbeq⟩)
          · exact Or.inr (Or.inr ⟨y, by simp [hy], hbeq⟩)

theorem uniqAux_distinct (l : List JVal) :
    ∀ seen,
      (Fusion.uniqAux seen l).Pairwise
        (fun a b => JVal.beq (Fusion.dumpsKey a) (Fusion.dumpsKey b) = false) ∧
      ∀ y ∈ Fusion.uniqAux seen l, ∀ z ∈ seen,
        JVal.beq z (Fusion.dumpsKey y) = false := by
  induction l with
  | nil =>
      intro seen
      exact ⟨List.Pairwise.nil, by intro y hy; simp [Fusion.uniqAux] at hy⟩
  | cons it rest ih =>
      intro seen
      simp only [Fusion.uniqAux]
      by_cases hc : seen.any fun z => JVal.beq z (Fusion.dumpsKey it)
      · simp only [hc, if_true]
        exact ih seen
      · simp only [hc, Bool.false_eq_true, if_false]
        obtain ⟨hP, hA⟩ := ih (Fusion.dumpsKey it :: seen)
        have hnotany : ∀ z ∈ seen, JVal.beq z (Fusion.dumpsKey it) = false := by
          intro z hz
          cases hb : JVal.beq z (Fusion.dumpsKey it)
          · rfl
          · exact absurd (List.any_eq_true.mpr ⟨z, hz, hb⟩) hc
        constructor
        · refine List.Pairwise.cons ?_ hP
          intro y hy
          exact hA y hy (Fusion.dumpsKey it) (by simp)
        · intro y hy z hz
          rcases List.mem_cons.mp hy with h1 | h1
          · subst h1
            exact hnotany z hz
          · exact hA y h1 z (by simp [hz])

/-! ### Claim C4 -/

/-- C4: for a non-`characters` field whose gathered candidates all hold
list values, the fused value is the deduplicated union of all the
candidate lists in first-seen order — a sublist of the concatenation whose
surviving elements are pairwise distinct under the dump key (canonical,
key-order-sorted form for dicts, structural value equality otherwise) and
which covers every contributed item up to that key; the field's confidence
is the maximum of all supplied candidate confidences whenever at least one
was supplied; and the field's provenance entry holds exactly the union of
all candidate provenance lists, deduplicated. -/
theorem C4_generic_list_union (field : String) (cands : List Fusion.Cand)
    (c0 : Fusion.Cand) (cs : List Fusion.Cand) (xs0 : List JVal)
    (h1 : cands = c0 :: cs) (h2 : c0.val = JVal.arr xs0)
    (hall : ∀ c ∈ cands, ∃ xs, c.val = JVal.arr xs)
    (hfc : (field == "characters") = false) :
    ((Fusion.fuseField field cands).1
        = .arr (Fusion.uniq_list ((cands.filterMap fun c =>
            match c.val with
            | JVal.arr xs => some xs
            | _ => none).flatten))) ∧
    ((Fusion.uniq_list ((cands.filterMap fun c =>
            match c.val with
            | JVal.arr xs => some xs
            | _ => none).flatten)).Sublist
        ((cands.filterMap fun c =>
            match c.val with
            | JVal.arr xs => some xs
            | _ => none).flatten)) ∧
    ((Fusion.uniq_list ((cands.filterMap fun c =>
            match c.val with
            | JVal.arr xs => some xs
            | _ => none).flatten)).Pairwise
        fun a b => JVal.beq (Fusion.dumpsKey a) (Fusion.dumpsKey b) = false) ∧
    (∀ x ∈ (cands.filterMap fun c =>
            match c.val with
            | JVal.arr xs => some xs
            | _ => none).flatten,
        x ∈ Fusion.uniq_list ((cands.filterMap fun c =>
            match c.val with
            | JVal.arr xs => some xs
            | _ => none).flatten) ∨
        ∃ y ∈ Fusion.uniq_list ((cands.filterMap fun c =>
            match c.val with
            | JVal.arr xs => some xs
            | _ => none).flatten),
          JVal.beq (Fusion.dumpsKey y) (Fusion.dumpsKey x) = true) ∧
    (∀ q qs, cands.filterMap Fusion.Cand.conf = q :: qs →
      (Fusion.fuseField field cands).2.1 = some (.num (qs.foldl max q)) ∧
      (∀ x ∈ q :: qs, x ≤ qs.foldl max q) ∧ qs.foldl max q ∈ q :: qs) ∧
    (∀ x, x ∈ (Fusion.listParts cands).2.2 ↔ ∃ c ∈ cands, x ∈ c.prov) ∧
    (Fusion.listParts cands).2.2.Nodup := by
  subst h1
  have hcond : (Fusion.headIsObj xs0 && field == "characters") = false := by
    simp [hfc]
  have hg := fuseField_generic field c0 cs xs0 h2 hcond
  have hL : (Fusion.listParts (c0 :: cs)).1
      = ((c0 :: cs).filterMap fun c =>
          match c.val with
          | JVal.arr xs => some xs
          | _ => none).flatten := by
    unfold Fusion.listParts
    rw [listParts_val (c0 :: cs) ([], [], [])]
    rfl
  have hC : (Fusion.listParts (c0 :: cs)).2.1
      = (c0 :: cs).filterMap Fusion.Cand.conf := by
    unfold Fusion.listParts
    rw [listParts_confs (c0 :: cs) ([], [], [])]
    rfl
  refine ⟨?_, ?_, ?_, ?_, ?_, ?_, ?_⟩
  · rw [hg]
    simp only []
    rw [hL]
  · exact uniqAux_sublist _ []
  · exact (uniqAux_distinct _ []).1
  · intro x hx
    rcases uniqAux_cover _ [] x hx with h | ⟨z, hz, _⟩ | h
    · exact Or.inl h
    · simp at hz
    · exact Or.inr h
  · intro q qs hs
    refine ⟨?_, fun x hx => ?_, ?_⟩
    · rw [hg]
      simp only []
      rw [hC, hs]
      simp only []
      rw [maxList_eq_foldl]
    · rcases List.mem_cons.mp hx with h | h
      · exact h ▸ le_foldl_max qs q
      · exact foldl_max_le_of_mem qs q x h
    · rcases foldl_max_mem_or_seed qs q with h | h
      · rw [h]; simp
      · simp [h]
  · intro x
    unfold Fusion.listParts
    rw [listParts_provs_mem (c0 :: cs) ([], [], []) x]
    simp
  · unfold Fusion.listParts
    exact listParts_provs_nodup (c0 :: cs) ([], [], []) (by simp)

/-- C4 witness: the union theorem applied to the specification's `objects`
example — `[{"type":"car"}]` fused with `[{"type":"person"},{"type":"car"}]`
contains exactly the car and person objects, once each. -/
theorem C4_wit :
    (Fusion.fuseField "objects"
      [⟨.arr [.obj [("type", .str "car")]], none, ["s1"]⟩,
       ⟨.arr [.obj [("type", .str "person")], .obj [("type", .str "car")]],
        some (mkRat 5 10), ["s2"]⟩]).1
      = .arr [.obj [("type", .str "car")], .obj [("type", .str "person")]] := by
  have h := C4_generic_list_union "objects"
    [⟨.arr [.obj [("type", .str "car")]], none, ["s1"]⟩,
     ⟨.arr [.obj [("type", .str "person")], .obj [("type", .str "car")]],
      some (mkRat 5 10), ["s2"]⟩]
    ⟨.arr [.obj [("type", .str "car")]], none, ["s1"]⟩
    [⟨.arr [.obj [("type", .str "person")], .obj [("type", .str "car")]],
      some (mkRat 5 10), ["s2"]⟩]
    [.obj [("type", .str "car")]] rfl rfl
    (by intro c hc
        simp only [List.mem_cons, List.not_mem_nil, or_false] at hc
        rcases hc with rfl | rfl <;> exact ⟨_, rfl⟩)
    rfl
  exact h.1.trans rfl

/-! ### Conservative-merge step lemmas (claim C1) -/

theorem unionAux_subset (l : List JVal) :
    ∀ seen x, x ∈ Merger.unionAux seen l → x ∈ l := by
  induction l with
  | nil => intro seen x hx; simp [Merger.unionAux] at hx
  | cons it rest ih =>
      intro seen x hx
      simp only [Merger.unionAux] at hx
      by_cases hc : seen.any fun z => JVal.beq z (Merger.key_of it)
      · simp only [hc, if_true] at hx
        exact List.mem_cons_of_mem it (ih seen x hx)
      · simp only [hc, Bool.false_eq_true, if_false] at hx
        rcases List.mem_cons.mp hx with h1 | h1
        · simp [h1]
        · exact List.mem_cons_of_mem it (ih _ x h1)

theorem mergeField_keep_case (target : List (String × JVal)) (k : String)
    (v : JVal) (hok : Merger.mergeField target k v = Except.ok target) :
    ∃ t', Merger.mergeField target k v = Except.ok t' ∧
      ((k == "scene_id" || k == "movie_id") = true → t' = target) ∧
      (∀ k', k' ≠ k → JVal.jget t' k' = JVal.jget target k') ∧
      (∀ s, JVal.jget target k = some (.str s) → s ≠ "" →
        JVal.jget t' k = some (.str s)) ∧
      (∀ q, JVal.jget target k = some (.num q) → JVal.jget t' k = some (.num q)) ∧
      (∀ b, JVal.jget target k = some (.bool b) → JVal.jget t' k = some (.bool b)) ∧
      (∀ es, JVal.jget target k = some (.arr es) →
        ∃ suffix, JVal.jget t' k = some (.arr (es ++ suffix)) ∧
          ∀ x ∈ suffix, ∃ l, v = .arr l ∧ x ∈ l) ∧
      (∀ dt sub w, JVal.jget target k = some (.obj dt) → JVal.jget dt sub = some w →
        w ≠ JVal.null → ∃ r, JVal.jget t' k = some (.obj r) ∧
          JVal.jget r sub = some w) := by
  refine ⟨target, hok, fun _ => rfl, fun k' _ => rfl, ?_, ?_, ?_, ?_, ?_⟩
  · intro s hs _; exact hs
  · intro q hq; exact hq
  · intro b hb; exact hb
  · intro es hes
    exact ⟨[], by simpa using hes, by intro x hx; simp at hx⟩
  · intro dt sub w hdt hsub _
    exact ⟨dt, hdt, hsub⟩

theorem mergeField_compat (target : List (String × JVal)) (k : String) (v : JVal)
    (hcompat : ∀ w, JVal.jget target k = some w → w ≠ JVal.null →
      Spec.kindCompat v w) :
    ∃ t', Merger.mergeField target k v = Except.ok t' ∧
      ((k == "scene_id" || k == "movie_id") = true → t' = target) ∧
      (∀ k', k' ≠ k → JVal.jget t' k' = JVal.jget target k') ∧
      (∀ s, JVal.jget target k = some (.str s) → s ≠ "" →
        JVal.jget t' k = some (.str s)) ∧
      (∀ q, JVal.jget target k = some (.num q) → JVal.jget t' k = some (.num q)) ∧
      (∀ b, JVal.jget target k = some (.bool b) → JVal.jget t' k = some (.bool b)) ∧
      (∀ es, JVal.jget target k = some (.arr es) →
        ∃ suffix, JVal.jget t' k = some (.arr (es ++ suffix)) ∧
          ∀ x ∈ suffix, ∃ l, v = .arr l ∧ x ∈ l) ∧
      (∀ dt sub w, JVal.jget target k = some (.obj dt) → JVal.jget dt sub = some w →
        w ≠ JVal.null → ∃ r, JVal.jget t' k = some (.obj r) ∧
          JVal.jget r sub = some w) := by
  by_cases hid : (k == "scene_id" || k == "movie_id") = true
  · have hok : Merger.mergeField target k v = Except.ok target := by
      unfold Merger.mergeField
      rw [if_pos hid]
    exact mergeField_keep_case target k v hok
  · cases hE : JVal.jget target k with
    | none =>
        have hok : Merger.mergeField target k v
            = Except.ok (JVal.jset target k v) := by
          unfold Merger.mergeField
          rw [if_neg hid]
          cases v <;> simp [hE, JVal.jtruthy]
        refine ⟨_, hok, fun hh => absurd hh hid,
          fun k' hk' => jget_jset_other _ _ _ _ hk', ?_, ?_, ?_, ?_, ?_⟩
        · intro s hs; simp at hs
        · intro q hq; simp at hq
        · intro b hb; simp at hb
        · intro es hes; simp at hes
        · intro dt sub w hdt; simp at hdt
    | some w =>
        have hkeep : Merger.mergeField target k v = Except.ok target →
            (∃ t', Merger.mergeField target k v = Except.ok t' ∧
              ((k == "scene_id" || k == "movie_id") = true → t' = target) ∧
              (∀ k', k' ≠ k → JVal.jget t' k' = JVal.jget target k') ∧
              (∀ s, some w = some (JVal.str s) → s ≠ "" →
                JVal.jget t' k = some (.str s)) ∧
              (∀ q, some w = some (JVal.num q) → JVal.jget t' k = some (.num q)) ∧
              (∀ b, some w = some (JVal.bool b) → JVal.jget t' k = some (.bool b)) ∧
              (∀ es, some w = some (JVal.arr es) →
                ∃ suffix, JVal.jget t' k = some (.arr (es ++ suffix)) ∧
                  ∀ x ∈ suffix, ∃ l, v = .arr l ∧ x ∈ l) ∧
              (∀ dt sub w', some w = some (JVal.obj dt) →
                JVal.jget dt sub = some w' → w' ≠ JVal.null →
                ∃ r, JVal.jget t' k = some (.obj r) ∧
                  JVal.jget r sub = some w')) := by
          intro hok
          have h0 := mergeField_keep_case target k v hok
          rwa [hE] at h0
        cases w with
        | null =>
            cases v with
            | null =>
                refine hkeep ?_
                unfold Merger.mergeField
                rw [if_neg hid]
                simp [hE]
            | bool b1 =>
                have hok : Merger.mergeField target k (JVal.bool b1)
                    = Except.ok (JVal.jset target k (JVal.bool b1)) := by
                  unfold Merger.mergeField
                  rw [if_neg hid]
                  simp [hE, JVal.jtruthy]
                refine ⟨_, hok, fun hh => absurd hh hid,
                  fun k' hk' => jget_jset_other _ _ _ _ hk', ?_, ?_, ?_, ?_, ?_⟩
                · intro s hs; simp at hs
                · intro q hq; simp at hq
                · intro b hb; simp at hb
                · intro es hes; simp at hes
                · intro dt sub w' hdt; simp at hdt
            | num q1 =>
                have hok : Merger.mergeField target k (JVal.num q1)
                    = Except.ok (JVal.jset target k (JVal.num q1)) := by
                  unfold Merger.mergeField
                  rw [if_neg hid]
                  simp [hE, JVal.jtruthy]
                refine ⟨_, hok, fun hh => absurd hh hid,
                  fun k' hk' => jget_jset_other _ _ _ _ hk', ?_, ?_, ?_, ?_, ?_⟩
                · intro s hs; simp at hs
                · intro q hq; simp at hq
                · intro b hb; simp at hb
                · intro es hes; simp at hes
                · intro dt sub w' hdt; simp at hdt
            | str s1 =>
                have hok : Merger.mergeField target k (JVal.str s1)
                    = Except.ok (JVal.jset target k (JVal.str s1)) := by
                  unfold Merger.mergeField
                  rw [if_neg hid]
                  simp [hE, JVal.jtruthy]
                refine ⟨_, hok, fun hh => absurd hh hid,
                  fun k' hk' => jget_jset_other _ _ _ _ hk', ?_, ?_, ?_, ?_, ?_⟩
                · intro s hs; simp at hs
                · intro q hq; simp at hq
                · intro b hb; simp at hb
                · intro es hes; simp at hes
                · intro dt sub w' hdt; simp at hdt
            | arr xs =>
                have hok : Merger.mergeField target k (JVal.arr xs)
                    = Except.ok (JVal.jset target k (JVal.arr xs)) := by
                  unfold Merger.mergeField
                  rw [if_neg hid]
                  simp [hE, JVal.jtruthy]
                refine ⟨_, hok, fun hh => absurd hh hid,
                  fun k' hk' => jget_jset_other _ _ _ _ hk', ?_, ?_, ?_, ?_, ?_⟩
                · intro s hs; simp at hs
                · intro q hq; simp at hq
                · intro b hb; simp at hb
                · intro es hes; simp at hes
                · intro dt sub w' hdt; simp at hdt
            | obj o =>
                have hok : Merger.mergeField target k (JVal.obj o)
                    = Except.ok (JVal.jset target k (JVal.obj o)) := by
                  unfold Merger.mergeField
                  rw [if_neg hid]
                  simp [hE, JVal.jtruthy]
                refine ⟨_, hok, fun hh => absurd hh hid,
                  fun k' hk' => jget_jset_other _ _ _ _ hk', ?_, ?_, ?_, ?_, ?_⟩
                · intro s hs; simp at hs
                · intro q hq; simp at hq
                · intro b hb; simp at hb
                · intro es hes; simp at hes
                · intro dt sub w' hdt; simp at hdt
        | str s0 =>
            cases v with
            | null =>
                refine hkeep ?_
                unfold Merger.mergeField
                rw [if_neg hid]
                simp [hE]
            | num q1 =>
                refine hkeep ?_
                unfold Merger.mergeField
                rw [if_neg hid]
                simp [hE]
            | bool b1 =>
                refine hkeep ?_
                unfold Merger.mergeField
                rw [if_neg hid]
                simp [hE]
            | str s1 =>
                by_cases hs0 : s0 = ""
                · subst hs0
                  have hok : Merger.mergeField target k (JVal.str s1)
                      = Except.ok (JVal.jset target k (JVal.str s1)) := by
                    unfold Merger.mergeField
                    rw [if_neg hid]
                    simp [hE, JVal.jtruthy]
                  refine ⟨_, hok, fun hh => absurd hh hid,
                    fun k' hk' => jget_jset_other _ _ _ _ hk', ?_, ?_, ?_, ?_, ?_⟩
                  · intro s hs hsne
                    simp at hs
                    first
                      | exact absurd hs hsne
                      | exact absurd hs.symm hsne
                  · intro q hq; simp at hq
                  · intro b hb; simp at hb
                  · intro es hes; simp at hes
                  · intro dt sub w' hdt; simp at hdt
                · refine hkeep ?_
                  unfold Merger.mergeField
                  rw [if_neg hid]
                  simp [hE, JVal.jtruthy, hs0]
            | arr xs =>
                have hcc := hcompat (.str s0) hE (by simp)
                simp [Spec.kindCompat] at hcc
            | obj o =>
                have hcc := hcompat (.str s0) hE (by simp)
                simp [Spec.kindCompat] at hcc
        | num q0 =>
            cases v with
            | null =>
                refine hkeep ?_
                unfold Merger.mergeField
                rw [if_neg hid]
                simp [hE]
            | num q1 =>
                refine hkeep ?_
                unfold Merger.mergeField
                rw [if_neg hid]
                simp [hE]
            | bool b1 =>
                refine hkeep ?_
                unfold Merger.mergeField
                rw [if_neg hid]
                simp [hE]
            | str s1 =>
                have hcc := hcompat (.num q0) hE (by simp)
                simp [Spec.kindCompat] at hcc
            | arr xs =>
                have hcc := hcompat (.num q0) hE (by simp)
                simp [Spec.kindCompat] at hcc
            | obj o =>
                have hcc := hcompat (.num q0) hE (by simp)
                simp [Spec.kindCompat] at hcc
        | bool b0 =>
            cases v with
            | null =>
                refine hkeep ?_
                unfold Merger.mergeField
                rw [if_neg hid]
                simp [hE]
            | num q1 =>
                refine hkeep ?_
                unfold Merger.mergeField
                rw [if_neg hid]
                simp [hE]
            | bool b1 =>
                refine hkeep ?_
                unfold Merger.mergeField
                rw [if_neg hid]
                simp [hE]
            | str s1 =>
                have hcc := hcompat (.bool b0) hE (by simp)
                simp [Spec.kindCompat] at hcc
            | arr xs =>
                have hcc := hcompat (.bool b0) hE (by simp)
                simp [Spec.kindCompat] at hcc
            | obj o =>
                have hcc := hcompat (.bool b0) hE (by simp)
                simp [Spec.kindCompat] at hcc
        | arr es0 =>
            cases v with
            | null =>
                refine hkeep ?_
                unfold Merger.mergeField
                rw [if_neg hid]
                simp [hE]
            | num q1 =>
                refine hkeep ?_
                unfold Merger.mergeField
                rw [if_neg hid]
                simp [hE]
            | bool b1 =>
                refine hkeep ?_
                unfold Merger.mergeField
                rw [if_neg hid]
                simp [hE]
            | str s1 =>
                have hcc := hcompat (.arr es0) hE (by simp)
                simp [Spec.kindCompat] at hcc
            | obj o =>
                have hcc := hcompat (.arr es0) hE (by simp)
                simp [Spec.kindCompat] at hcc
            | arr xs =>
                cases es0 with
                | nil =>
                    have hok : Merger.mergeField target k (JVal.arr xs)
                        = Except.ok (JVal.jset target k (.arr xs)) := by
                      unfold Merger.mergeField
                      rw [if_neg hid]
                      simp [hE, JVal.jtruthy]
                    refine ⟨_, hok, fun hh => absurd hh hid,
                      fun k' hk' => jget_jset_other _ _ _ _ hk', ?_, ?_, ?_, ?_, ?_⟩
                    · intro s hs; simp at hs
                    · intro q hq; simp at hq
                    · intro b hb; simp at hb
                    · intro es hes
                      simp only [Option.some.injEq, JVal.arr.injEq] at hes
                      refine ⟨xs, ?_, ?_⟩
                      · rw [← hes]
                        simpa using jget_jset_same target k (.arr xs)
                      · intro x hx
                        exact ⟨xs, rfl, hx⟩
                    · intro dt sub w' hdt; simp at hdt
                | cons e0 es' =>
                    have hok : Merger.mergeField target k (JVal.arr xs)
                        = Except.ok (JVal.jset target k
                            (.arr (Merger.listUnion (e0 :: es') xs))) := by
                      unfold Merger.mergeField
                      rw [if_neg hid]
                      simp [hE, JVal.jtruthy]
                    refine ⟨_, hok, fun hh => absurd hh hid,
                      fun k' hk' => jget_jset_other _ _ _ _ hk', ?_, ?_, ?_, ?_, ?_⟩
                    · intro s hs; simp at hs
                    · intro q hq; simp at hq
                    · intro b hb; simp at hb
                    · intro es hes
                      simp only [Option.some.injEq, JVal.arr.injEq] at hes
                      refine ⟨Merger.unionAux ((e0 :: es').map Merger.key_of) xs,
                        ?_, ?_⟩
                      · rw [← hes]
                        have := jget_jset_same target k
                          (.arr (Merger.listUnion (e0 :: es') xs))
                        rw [this]
                        rfl
                      · intro x hx
                        exact ⟨xs, rfl, unionAux_subset xs _ x hx⟩
                    · intro dt sub w' hdt; simp at hdt
        | obj dt0 =>
            cases v with
            | null =>
                refine hkeep ?_
                unfold Merger.mergeField
                rw [if_neg hid]
                simp [hE]
            | num q1 =>
                refine hkeep ?_
                unfold Merger.mergeField
                rw [if_neg hid]
                simp [hE]
            | bool b1 =>
                refine hkeep ?_
                unfold Merger.mergeField
                rw [if_neg hid]
                simp [hE]
            | str s1 =>
                have hcc := hcompat (.obj dt0) hE (by simp)
                simp [Spec.kindCompat] at hcc
            | arr xs =>
                have hcc := hcompat (.obj dt0) hE (by simp)
                simp [Spec.kindCompat] at hcc
            | obj ds =>
                cases dt0 with
                | nil =>
                    have hok : Merger.mergeField target k (JVal.obj ds)
                        = Except.ok (JVal.jset target k (.obj ds)) := by
                      unfold Merger.mergeField
                      rw [if_neg hid]
                      simp [hE, JVal.jtruthy]
                    refine ⟨_, hok, fun hh => absurd hh hid,
                      fun k' hk' => jget_jset_other _ _ _ _ hk', ?_, ?_, ?_, ?_, ?_⟩
                    · intro s hs; simp at hs
                    · intro q hq; simp at hq
                    · intro b hb; simp at hb
                    · intro es hes; simp at hes
                    · intro dt sub w' hdt hsub
                      simp only [Option.some.injEq, JVal.obj.injEq] at hdt
                      rw [← hdt] at hsub
                      simp [JVal.jget] at hsub
                | cons p ps =>
                    have hok : Merger.mergeField target k (JVal.obj ds)
                        = Except.ok (JVal.jset target k
                            (.obj (Merger.mergeDict (p :: ps) ds))) := by
                      unfold Merger.mergeField
                      rw [if_neg hid]
                      simp [hE, JVal.jtruthy]
                    refine ⟨_, hok, fun hh => absurd hh hid,
                      fun k' hk' => jget_jset_other _ _ _ _ hk', ?_, ?_, ?_, ?_, ?_⟩
                    · intro s hs; simp at hs
                    · intro q hq; simp at hq
                    · intro b hb; simp at hb
                    · intro es hes; simp at hes
                    · intro dt sub w' hdt hsub hnn
                      simp only [Option.some.injEq, JVal.obj.injEq] at hdt
                      refine ⟨Merger.mergeDict (p :: ps) ds,
                        jget_jset_same target k _, ?_⟩
                      rw [← hdt] at hsub
                      exact mergeDict_keep ds (p :: ps) sub w' hsub hnn

/-- C1 (amended): `merge_scene` never destroys data, provided every source
value is kind-compatible with the non-null value the target already holds at
that key (and the source fragment, a Python dict, has no duplicate keys):
after the merge the identifier fields `scene_id` and `movie_id` are unchanged,
every non-empty string field keeps its original value, every number and
boolean field keeps its original value, every existing list keeps its items
in their original order with new items only appended at the end, and every
non-null value under an existing dict key is unchanged.  (The unamended claim
is refuted by `C1_counterexample`: `merge_scene` treats falsy values such as
the number `0` as empty, so an incompatible string fragment overwrites them.) -/
theorem C1_conservative_merge (target src : List (String × JVal))
    (hnd : (src.map Prod.fst).Nodup)
    (hcompat : ∀ k v, (k, v) ∈ src → ∀ w, JVal.jget target k = some w →
      w ≠ JVal.null → Spec.kindCompat v w) :
    ∃ t', Merger.merge_scene target src = Except.ok t' ∧
      (∀ kk, (kk == "scene_id" || kk == "movie_id") = true →
        JVal.jget t' kk = JVal.jget target kk) ∧
      (∀ kk s, JVal.jget target kk = some (.str s) → s ≠ "" →
        JVal.jget t' kk = some (.str s)) ∧
      (∀ kk q, JVal.jget target kk = some (.num q) →
        JVal.jget t' kk = some (.num q)) ∧
      (∀ kk b, JVal.jget target kk = some (.bool b) →
        JVal.jget t' kk = some (.bool b)) ∧
      (∀ kk es, JVal.jget target kk = some (.arr es) →
        ∃ suffix, JVal.jget t' kk = some (.arr (es ++ suffix))) ∧
      (∀ kk dt sub w, JVal.jget target kk = some (.obj dt) →
        JVal.jget dt sub = some w → w ≠ JVal.null →
        ∃ r, JVal.jget t' kk = some (.obj r) ∧ JVal.jget r sub = some w) := by
  induction src generalizing target with
  | nil =>
      refine ⟨target, rfl, fun kk _ => rfl, ?_, ?_, ?_, ?_, ?_⟩
      · intro kk s h _; exact h
      · intro kk q h; exact h
      · intro kk b h; exact h
      · intro kk es h; exact ⟨[], by simpa using h⟩
      · intro kk dt sub w h hs _; exact ⟨dt, h, hs⟩
  | cons p rest ih =>
      obtain ⟨k, v⟩ := p
      have hk1 := mergeField_compat target k v
        (hcompat k v (List.mem_cons_self _ _))
      obtain ⟨t1, hok, hidk, hoth, hstr1, hnum1, hbool1, harr1, hobj1⟩ := hk1
      have hknotin : k ∉ rest.map Prod.fst := by
        have := hnd
        simp only [List.map_cons, List.nodup_cons] at this
        exact this.1
      have hnd' : (rest.map Prod.fst).Nodup := by
        have := hnd
        simp only [List.map_cons, List.nodup_cons] at this
        exact this.2
      have hneq : ∀ k2 v2, (k2, v2) ∈ rest → k2 ≠ k := by
        intro k2 v2 hm hk2
        exact hknotin (hk2 ▸ List.mem_map_of_mem Prod.fst hm)
      have hcompat' : ∀ k2 v2, (k2, v2) ∈ rest → ∀ w,
          JVal.jget t1 k2 = some w → w ≠ JVal.null → Spec.kindCompat v2 w := by
        intro k2 v2 hm w hw hnn
        rw [hoth k2 (hneq k2 v2 hm)] at hw
        exact hcompat k2 v2 (List.mem_cons_of_mem _ hm) w hw hnn
      obtain ⟨t', hok', hid', hstr', hnum', hbool', harr', hobj'⟩ :=
        ih t1 hnd' hcompat'
      have hms : Merger.merge_scene target ((k, v) :: rest)
          = Merger.merge_scene t1 rest := by
        show (match Merger.mergeField target k v with
              | Except.ok t => Merger.merge_scene t rest
              | Except.error e => Except.error e)
            = Merger.merge_scene t1 rest
        rw [hok]
      refine ⟨t', hms ▸ hok', ?_, ?_, ?_, ?_, ?_, ?_⟩
      · intro kk hkk
        by_cases hkeq : kk = k
        · subst hkeq
          rw [hid' kk hkk, hidk hkk]
        · rw [hid' kk hkk, hoth kk hkeq]
      · intro kk s h hne
        by_cases hkeq : kk = k
        · subst hkeq
          exact hstr' kk s (hstr1 s h hne) hne
        · exact hstr' kk s (by rw [hoth kk hkeq]; exact h) hne
      · intro kk q h
        by_cases hkeq : kk = k
        · subst hkeq
          exact hnum' kk q (hnum1 q h)
        · exact hnum' kk q (by rw [hoth kk hkeq]; exact h)
      · intro kk b h
        by_cases hkeq : kk = k
        · subst hkeq
          exact hbool' kk b (hbool1 b h)
        · exact hbool' kk b (by rw [hoth kk hkeq]; exact h)
      · intro kk es h
        by_cases hkeq : kk = k
        · subst hkeq
          obtain ⟨suf1, h1, _⟩ := harr1 es h
          obtain ⟨suf2, h2⟩ := harr' kk (es ++ suf1) h1
          exact ⟨suf1 ++ suf2, by rw [← List.append_assoc]; exact h2⟩
        · exact harr' kk es (by rw [hoth kk hkeq]; exact h)
      · intro kk dt sub w h hs hnn
        by_cases hkeq : kk = k
        · subst hkeq
          obtain ⟨r1, hr1, hr1s⟩ := hobj1 dt sub w h hs hnn
          exact hobj' kk r1 sub w hr1 hr1s hnn
        · exact hobj' kk dt sub w (by rw [hoth kk hkeq]; exact h) hs hnn

/-- C1 counterexample to the unamended claim: the target holds the non-null
number `0` under `importance_score`, yet merging a fragment that carries the
string `"high"` for that field overwrites it, because `merge_scene` guards the
string rule with Python truthiness (`if not existing`) and `0` is falsy. -/
theorem C1_counterexample :
    Merger.merge_scene
      [("scene_id", JVal.str "s"), ("movie_id", JVal.str "m"),
       ("importance_score", JVal.num 0)]
      [("importance_score", JVal.str "high")]
    = Except.ok
      [("scene_id", JVal.str "s"), ("movie_id", JVal.str "m"),
       ("importance_score", JVal.str "high")] := by
  rfl

/-- Witness for C1: a concrete merge where the amended theorem's hypotheses
hold and the original summary survives an overwriting fragment. -/
theorem C1_wit :
    ∃ t', Merger.merge_scene
        [("scene_id", JVal.str "s1"), ("movie_id", JVal.str "m1"),
         ("scene_summary", JVal.str "orig")]
        [("scene_summary", JVal.str "later"), ("mood", JVal.num 1)]
      = Except.ok t' ∧
      JVal.jget t' "scene_id" = some (JVal.str "s1") ∧
      JVal.jget t' "scene_summary" = some (JVal.str "orig") := by
  have hc : ∀ k v, (k, v) ∈
      [("scene_summary", JVal.str "later"), ("mood", JVal.num 1)] → ∀ w,
      JVal.jget [("scene_id", JVal.str "s1"), ("movie_id", JVal.str "m1"),
        ("scene_summary", JVal.str "orig")] k = some w →
      w ≠ JVal.null → Spec.kindCompat v w := by
    intro k v hm w hw hnn
    simp only [List.mem_cons, List.not_mem_nil, or_false, Prod.mk.injEq] at hm
    rcases hm with ⟨hk, hv⟩ | ⟨hk, hv⟩
    · subst hk; subst hv
      have he : JVal.jget
          [("scene_id", JVal.str "s1"), ("movie_id", JVal.str "m1"),
           ("scene_summary", JVal.str "orig")] "scene_summary"
          = some (JVal.str "orig") := rfl
      rw [he] at hw
      injection hw with hw2
      subst hw2
      exact ⟨"orig", rfl⟩
    · subst hk; subst hv
      have he : JVal.jget
          [("scene_id", JVal.str "s1"), ("movie_id", JVal.str "m1"),
           ("scene_summary", JVal.str "orig")] "mood" = none := rfl
      rw [he] at hw
      simp at hw
  obtain ⟨t', hok, hid, hstr, _, _, _, _⟩ :=
    C1_conservative_merge
      [("scene_id", JVal.str "s1"), ("movie_id", JVal.str "m1"),
       ("scene_summary", JVal.str "orig")]
      [("scene_summary", JVal.str "later"), ("mood", JVal.num 1)]
      (by decide) hc
  refine ⟨t', hok, ?_, ?_⟩
  · rw [hid "scene_id" (by decide)]
    rfl
  · exact hstr "scene_summary" "orig" rfl (by decide)

/-! ### C3: the characters loop as a fold over the flattened pair stream -/

theorem aget_append_left {α : Type} (l1 l2 : List (String × α)) (k : String)
    (v : α) (h : aget l1 k = some v) : aget (l1 ++ l2) k = some v := by
  induction l1 with
  | nil => simp [aget] at h
  | cons p rest ih =>
      cases p with
      | mk k0 v0 =>
          by_cases h0 : k0 = k
          · subst h0; simp_all [aget]
          · simp_all [aget]

theorem aget_append_right {α : Type} (l1 l2 : List (String × α)) (k : String)
    (h : aget l1 k = none) : aget (l1 ++ l2) k = aget l2 k := by
  induction l1 with
  | nil => rfl
  | cons p rest ih =>
      cases p with
      | mk k0 v0 =>
          by_cases h0 : k0 = k
          · subst h0; simp_all [aget]
          · simp_all [aget]

theorem aget_none_iff {α : Type} (l : List (String × α)) (k : String) :
    aget l k = none ↔ k ∉ l.map Prod.fst := by
  induction l with
  | nil => simp [aget]
  | cons p rest ih =>
      cases p with
      | mk k0 v0 =>
          by_cases h0 : k0 = k
          · subst h0; simp [aget]
          · simp [aget, h0, ih, Ne.symm h0]

theorem aset_keys_of_mem {α : Type} (l : List (String × α)) (k : String)
    (v : α) (h : aget l k ≠ none) :
    (aset l k v).map Prod.fst = l.map Prod.fst := by
  induction l with
  | nil => simp [aget] at h
  | cons p rest ih =>
      cases p with
      | mk k0 v0 =>
          by_cases h0 : k0 = k
          · subst h0; simp [aset]
          · have h1 : aget rest k ≠ none := by
              simpa [aget, h0] using h
            simp [aset, h0, ih h1]

theorem charStep_items_fold (conf : Option ℚ) (items : List JVal) :
    ∀ s : Fusion.CharState,
      items.foldl
        (fun (st : Fusion.CharState) (it : JVal) =>
          match it with
          | .obj o => Fusion.charItemStep conf st o
          | _ => st) s
      = (items.filterMap fun it =>
          match it with
          | .obj o => some o
          | _ => none).foldl (Fusion.charItemStep conf) s := by
  induction items with
  | nil => intro s; rfl
  | cons it its ih =>
      intro s
      cases it <;> simp [List.filterMap_cons, ih]

theorem charItemStep_proj (conf : Option ℚ) (s : Fusion.CharState)
    (o : List (String × JVal)) :
    Fusion.charItemStep conf s o
      = ⟨(cpStep (s.charMap, s.confs) (conf, o)).1,
         (cpStep (s.charMap, s.confs) (conf, o)).2,
         s.provs⟩ := by
  cases hn : Fusion.charItemName o <;>
    cases conf <;> simp [Fusion.charItemStep, cpStep, hn]

theorem charItems_fold_proj (conf : Option ℚ)
    (os : List (List (String × JVal))) :
    ∀ s : Fusion.CharState,
      os.foldl (Fusion.charItemStep conf) s
        = ⟨((os.map fun o => ((conf, o) : Option ℚ × List (String × JVal))).foldl
              cpStep (s.charMap, s.confs)).1,
           ((os.map fun o => ((conf, o) : Option ℚ × List (String × JVal))).foldl
              cpStep (s.charMap, s.confs)).2,
           s.provs⟩ := by
  induction os with
  | nil => intro s; rfl
  | cons o os ih =>
      intro s
      simp only [List.foldl_cons, List.map_cons]
      rw [charItemStep_proj, ih]

theorem charStep_proj (s : Fusion.CharState) (c : Fusion.Cand) :
    Fusion.charStep s c
      = ⟨((charPairsOf c).foldl cpStep (s.charMap, s.confs)).1,
         ((charPairsOf c).foldl cpStep (s.charMap, s.confs)).2,
         Fusion.provUnion s.provs c.prov⟩ := by
  cases hv : c.val with
  | arr items =>
      show (Fusion.charStep s c) = _
      unfold Fusion.charStep
      rw [hv]
      simp only []
      rw [charStep_items_fold, charItems_fold_proj]
      simp [charPairsOf, Spec.itemsOf, hv]
  | null =>
      unfold Fusion.charStep
      rw [hv]
      simp [charPairsOf, Spec.itemsOf, hv]
  | bool b =>
      unfold Fusion.charStep
      rw [hv]
      simp [charPairsOf, Spec.itemsOf, hv]
  | num q =>
      unfold Fusion.charStep
      rw [hv]
      simp [charPairsOf, Spec.itemsOf, hv]
  | str sv =>
      unfold Fusion.charStep
      rw [hv]
      simp [charPairsOf, Spec.itemsOf, hv]
  | obj o =>
      unfold Fusion.charStep
      rw [hv]
      simp [charPairsOf, Spec.itemsOf, hv]

theorem fuseCharacters_proj (cands : List Fusion.Cand) :
    ∀ s : Fusion.CharState,
      cands.foldl Fusion.charStep s
        = ⟨((flatCharPairs cands).foldl cpStep (s.charMap, s.confs)).1,
           ((flatCharPairs cands).foldl cpStep (s.charMap, s.confs)).2,
           cands.foldl (fun a c => Fusion.provUnion a c.prov) s.provs⟩ := by
  induction cands with
  | nil => intro s; rfl
  | cons c cs ih =>
      intro s
      simp only [List.foldl_cons]
      rw [charStep_proj, ih]
      simp [flatCharPairs, List.flatMap_cons, List.foldl_append]

theorem fuseCharacters_eq (cands : List Fusion.Cand) :
    Fusion.fuseCharacters cands
      = ⟨((flatCharPairs cands).foldl cpStep ([], [])).1,
         ((flatCharPairs cands).foldl cpStep ([], [])).2,
         cands.foldl (fun a c => Fusion.provUnion a c.prov) []⟩ :=
  fuseCharacters_proj cands ⟨[], [], []⟩

theorem dedupKeysAux_congr (l : List String) :
    ∀ s1 s2 : List String, (∀ x, x ∈ s1 ↔ x ∈ s2) →
      dedupKeysAux s1 l = dedupKeysAux s2 l := by
  induction l with
  | nil => intro _ _ _; rfl
  | cons a as ih =>
      intro s1 s2 h
      by_cases hm : a ∈ s1
      · have hc1 : s1.contains a = true := by simpa using hm
        have hc2 : s2.contains a = true := by simpa using (h a).mp hm
        simp only [dedupKeysAux, hc1, hc2, if_true]
        exact ih s1 s2 h
      · have hc1 : s1.contains a = false := by simpa using hm
        have hc2 : s2.contains a = false := by
          simpa using fun hx => hm ((h a).mpr hx)
        simp only [dedupKeysAux, hc1, hc2, Bool.false_eq_true, if_false]
        have := ih (a :: s1) (a :: s2) (fun x => by simp [h x])
        rw [this]

theorem cpFold_names (P : List (Option ℚ × List (String × JVal))) :
    ∀ st : List (String × List (String × JVal)) × List (String × ℚ),
      ((P.foldl cpStep st).1).map Prod.fst
        = st.1.map Prod.fst ++ dedupKeysAux (st.1.map Prod.fst) (pairNames P) := by
  induction P with
  | nil => intro st; simp [pairNames, dedupKeysAux]
  | cons p P ih =>
      intro st
      simp only [List.foldl_cons]
      cases hn : Fusion.charItemName p.2 with
      | none =>
          have hstep : cpStep st p = st := by simp [cpStep, hn]
          have hP : pairNames (p :: P) = pairNames P := by
            simp [pairNames, List.filterMap_cons, hn]
          rw [hstep, ih, hP]
      | some name =>
          have h1 : (cpStep st p).1 = Fusion.addCharEntry st.1 name p.2 := by
            simp [cpStep, hn]
          have hP : pairNames (p :: P) = name :: pairNames P := by
            simp [pairNames, List.filterMap_cons, hn]
          rw [ih (cpStep st p), h1, hP]
          cases hg : aget st.1 name with
          | some entry =>
              have hmem : name ∈ st.1.map Prod.fst := by
                by_contra hq2
                rw [← aget_none_iff] at hq2
                rw [hq2] at hg
                cases hg
              have hset : (Fusion.addCharEntry st.1 name p.2).map Prod.fst
                  = st.1.map Prod.fst := by
                cases hq : Fusion.getNum p.2 "screen_time" with
                | some q =>
                    simp only [Fusion.addCharEntry, hg, hq]
                    exact aset_keys_of_mem st.1 name _ (by simp [hg])
                | none => simp [Fusion.addCharEntry, hg, hq]
              have hcont : (st.1.map Prod.fst).contains name = true := by
                simpa using hmem
              rw [hset]
              simp only [dedupKeysAux, hcont, if_true]
          | none =>
              have hnm : name ∉ st.1.map Prod.fst := (aget_none_iff st.1 name).mp hg
              have hcont : (st.1.map Prod.fst).contains name = false := by
                simpa using hnm
              have hset : (Fusion.addCharEntry st.1 name p.2).map Prod.fst
                  = st.1.map Prod.fst ++ [name] := by
                simp [Fusion.addCharEntry, hg]
              rw [hset]
              simp only [dedupKeysAux, hcont, Bool.false_eq_true, if_false]
              rw [dedupKeysAux_congr (pairNames P)
                (st.1.map Prod.fst ++ [name]) (name :: st.1.map Prod.fst)
                (by intro x; simp; tauto)]
              simp [List.append_assoc]

theorem cpFold_confs (P : List (Option ℚ × List (String × JVal))) :
    ∀ (st : List (String × List (String × JVal)) × List (String × ℚ))
      (n : String),
      aget ((P.foldl cpStep st).2) n
        = (pairConfs P n).foldl confStep (aget st.2 n) := by
  induction P with
  | nil => intro st n; rfl
  | cons p P ih =>
      intro st n
      simp only [List.foldl_cons]
      cases hn : Fusion.charItemName p.2 with
      | none =>
          have hstep : cpStep st p = st := by simp [cpStep, hn]
          have hc : pairConfs (p :: P) n = pairConfs P n := by
            cases hq : p.1 <;> simp [pairConfs, List.filterMap_cons, hn, hq]
          rw [hstep, ih, hc]
      | some name =>
          cases hq : p.1 with
          | none =>
              have hstep : (cpStep st p).2 = st.2 := by simp [cpStep, hn, hq]
              have hc : pairConfs (p :: P) n = pairConfs P n := by
                simp [pairConfs, List.filterMap_cons, hq]
              rw [ih, hstep, hc]
          | some q =>
              have hstep : (cpStep st p).2
                  = aset st.2 name (max ((aget st.2 name).getD 0) q) := by
                simp [cpStep, hn, hq]
              rw [ih, hstep]
              by_cases hnn : n = name
              · subst hnn
                have hc : pairConfs (p :: P) n = q :: pairConfs P n := by
                  simp [pairConfs, List.filterMap_cons, hn, hq]
                rw [hc]
                simp only [List.foldl_cons]
                rw [aget_aset_same]
                rfl
              · have hc : pairConfs (p :: P) n = pairConfs P n := by
                  have hne : name ≠ n := fun hh => hnn hh.symm
                  simp [pairConfs, List.filterMap_cons, hn, hq, hne]
                rw [hc, aget_aset_other st.2 name n _ hnn]

theorem getNum_jset_same (o : List (String × JVal)) (q : ℚ) :
    Fusion.getNum (JVal.jset o "screen_time" (.num q)) "screen_time"
      = some q := by
  unfold Fusion.getNum
  rw [jget_jset_same]

theorem cpFold_screen (P : List (Option ℚ × List (String × JVal))) :
    ∀ st : List (String × List (String × JVal)) × List (String × ℚ),
      (∀ p ∈ P, stOk p.2 = true) →
      (∀ n e, aget st.1 n = some e →
        ∃ q, Fusion.getNum e "screen_time" = some q) →
      (∀ n e q, aget st.1 n = some e →
          Fusion.getNum e "screen_time" = some q →
          ∃ e', aget ((P.foldl cpStep st).1) n = some e' ∧
            Fusion.getNum e' "screen_time" = some (q + pairSum P n)) ∧
      (∀ n, aget st.1 n = none → n ∉ pairNames P →
        aget ((P.foldl cpStep st).1) n = none) ∧
      (∀ n, aget st.1 n = none → n ∈ pairNames P →
        ∃ e', aget ((P.foldl cpStep st).1) n = some e' ∧
          Fusion.getNum e' "screen_time" = some (pairSum P n)) := by
  induction P with
  | nil =>
      intro st hsh hval
      refine ⟨?_, ?_, ?_⟩
      · intro n e q h1 h2
        refine ⟨e, h1, ?_⟩
        simp only [pairSum, List.filterMap_nil, List.sum_nil, add_zero]
        exact h2
      · intro n h1 _
        exact h1
      · intro n h1 h2
        simp [pairNames] at h2
  | cons p P ih =>
      intro st hsh hval
      simp only [List.foldl_cons]
      have hshp : stOk p.2 = true := hsh p (List.mem_cons_self _ _)
      have hsht : ∀ x ∈ P, stOk x.2 = true :=
        fun x hx => hsh x (List.mem_cons_of_mem _ hx)
      cases hn : Fusion.charItemName p.2 with
      | none =>
          have hstep : cpStep st p = st := by simp [cpStep, hn]
          have hps : ∀ n, pairSum (p :: P) n = pairSum P n := by
            intro n; simp [pairSum, List.filterMap_cons, hn]
          have hpn : pairNames (p :: P) = pairNames P := by
            simp [pairNames, List.filterMap_cons, hn]
          rw [hstep]
          obtain ⟨ih1, ih2, ih3⟩ := ih st hsht hval
          refine ⟨?_, ?_, ?_⟩
          · intro n e q h1 h2
            rw [hps]
            exact ih1 n e q h1 h2
          · intro n h1 h2
            exact ih2 n h1 (by rwa [hpn] at h2)
          · intro n h1 h2
            rw [hps]
            exact ih3 n h1 (by rwa [hpn] at h2)
      | some name =>
          have h1 : (cpStep st p).1 = Fusion.addCharEntry st.1 name p.2 := by
            simp [cpStep, hn]
          have hpn : pairNames (p :: P) = name :: pairNames P := by
            simp [pairNames, List.filterMap_cons, hn]
          have hpsne : ∀ n, n ≠ name → pairSum (p :: P) n = pairSum P n := by
            intro n hne
            have hne2 : name ≠ n := fun hh => hne hh.symm
            simp [pairSum, List.filterMap_cons, hn, hne2]
          cases hg : aget st.1 name with
          | none =>
              -- first occurrence of the name: the item is copied, with
              -- screen_time defaulted to 0 when absent
              cases hjq : JVal.jget p.2 "screen_time" with
              | some w =>
                  have hwnum : ∃ q0, w = JVal.num q0 := by
                    unfold stOk at hshp
                    rw [hjq] at hshp
                    cases w with
                    | num q0 => exact ⟨q0, rfl⟩
                    | null => simp at hshp
                    | bool b => simp at hshp
                    | str s => simp at hshp
                    | arr l => simp at hshp
                    | obj o => simp at hshp
                  obtain ⟨q0, hw⟩ := hwnum
                  subst hw
                  have hgn : Fusion.getNum p.2 "screen_time" = some q0 := by
                    unfold Fusion.getNum
                    rw [hjq]
                  have hse : Fusion.addCharEntry st.1 name p.2
                      = st.1 ++ [(name, p.2)] := by
                    simp [Fusion.addCharEntry, hg, hjq]
                  have haes : aget (st.1 ++ [(name, p.2)]) name
                      = some p.2 := by
                    rw [aget_append_right st.1 _ name hg]
                    simp [aget]
                  have hother : ∀ n, n ≠ name →
                      aget (st.1 ++ [(name, p.2)]) n = aget st.1 n := by
                    intro n hne
                    cases hgn2 : aget st.1 n with
                    | some e => exact aget_append_left st.1 _ n e hgn2
                    | none =>
                        rw [aget_append_right st.1 _ n hgn2]
                        simp [aget, Ne.symm hne]
                  have hval' : ∀ n e, aget ((cpStep st p)).1 n = some e →
                      ∃ q, Fusion.getNum e "screen_time" = some q := by
                    intro n e he
                    rw [h1, hse] at he
                    by_cases hne : n = name
                    · subst hne
                      rw [haes] at he
                      injection he with he2
                      subst he2
                      exact ⟨q0, hgn⟩
                    · rw [hother n hne] at he
                      exact hval n e he
                  obtain ⟨ih1, ih2, ih3⟩ := ih (cpStep st p) hsht hval'
                  have hps : pairSum (p :: P) name = q0 + pairSum P name := by
                    simp [pairSum, List.filterMap_cons, hn, hgn]
                  refine ⟨?_, ?_, ?_⟩
                  · intro n e q h2 h3
                    by_cases hne : n = name
                    · subst hne
                      rw [hg] at h2
                      cases h2
                    · rw [hpsne n hne]
                      refine ih1 n e q ?_ h3
                      rw [h1, hse, hother n hne]
                      exact h2
                  · intro n h2 h3
                    rw [hpn] at h3
                    simp only [List.mem_cons, not_or] at h3
                    refine ih2 n ?_ h3.2
                    rw [h1, hse, hother n h3.1]
                    exact h2
                  · intro n h2 h3
                    rw [hpn] at h3
                    rcases List.mem_cons.mp h3 with hne | hmem
                    · subst hne
                      have := ih1 n p.2 q0 (by rw [h1, hse]; exact haes) hgn
                      rw [hps]
                      exact this
                    · by_cases hne : n = name
                      · subst hne
                        have := ih1 n p.2 q0 (by rw [h1, hse]; exact haes) hgn
                        rw [hps]
                        exact this
                      · rw [hpsne n hne]
                        refine ih3 n ?_ hmem
                        rw [h1, hse, hother n hne]
                        exact h2
              | none =>
                  have hgn : Fusion.getNum p.2 "screen_time" = none := by
                    unfold Fusion.getNum
                    rw [hjq]
                  have hse : Fusion.addCharEntry st.1 name p.2
                      = st.1 ++ [(name, JVal.jset p.2 "screen_time" (.num 0))] := by
                    simp [Fusion.addCharEntry, hg, hjq]
                  have haes : aget (st.1 ++ [(name, JVal.jset p.2 "screen_time" (.num 0))]) name
                      = some (JVal.jset p.2 "screen_time" (.num 0)) := by
                    rw [aget_append_right st.1 _ name hg]
                    simp [aget]
                  have hother : ∀ n, n ≠ name →
                      aget (st.1 ++ [(name, JVal.jset p.2 "screen_time" (.num 0))]) n
                        = aget st.1 n := by
                    intro n hne
                    cases hgn2 : aget st.1 n with
                    | some e => exact aget_append_left st.1 _ n e hgn2
                    | none =>
                        rw [aget_append_right st.1 _ n hgn2]
                        simp [aget, Ne.symm hne]
                  have hE : Fusion.getNum (JVal.jset p.2 "screen_time" (.num 0))
                      "screen_time" = some 0 := getNum_jset_same p.2 0
                  have hval' : ∀ n e, aget ((cpStep st p)).1 n = some e →
                      ∃ q, Fusion.getNum e "screen_time" = some q := by
                    intro n e he
                    rw [h1, hse] at he
                    by_cases hne : n = name
                    · subst hne
                      rw [haes] at he
                      injection he with he2
                      subst he2
                      exact ⟨0, hE⟩
                    · rw [hother n hne] at he
                      exact hval n e he
                  obtain ⟨ih1, ih2, ih3⟩ := ih (cpStep st p) hsht hval'
                  have hps : pairSum (p :: P) name = pairSum P name := by
                    simp [pairSum, List.filterMap_cons, hn, hgn]
                  refine ⟨?_, ?_, ?_⟩
                  · intro n e q h2 h3
                    by_cases hne : n = name
                    · subst hne
                      rw [hg] at h2
                      cases h2
                    · rw [hpsne n hne]
                      refine ih1 n e q ?_ h3
                      rw [h1, hse, hother n hne]
                      exact h2
                  · intro n h2 h3
                    rw [hpn] at h3
                    simp only [List.mem_cons, not_or] at h3
                    refine ih2 n ?_ h3.2
                    rw [h1, hse, hother n h3.1]
                    exact h2
                  · intro n h2 h3
                    rw [hpn] at h3
                    by_cases hne : n = name
                    · subst hne
                      have h4 := ih1 n (JVal.jset p.2 "screen_time" (.num 0)) 0
                        (by rw [h1, hse]; exact haes) hE
                      rw [hps]
                      simpa using h4
                    · rcases List.mem_cons.mp h3 with hne2 | hmem
                      · exact absurd hne2 hne
                      · rw [hpsne n hne]
                        refine ih3 n ?_ hmem
                        rw [h1, hse, hother n hne]
                        exact h2
          | some entry =>
              obtain ⟨qe, hqe⟩ := hval name entry hg
              cases hjq : Fusion.getNum p.2 "screen_time" with
              | some q1 =>
                  have hse : Fusion.addCharEntry st.1 name p.2
                      = aset st.1 name
                          (JVal.jset entry "screen_time" (.num (qe + q1))) := by
                    simp [Fusion.addCharEntry, hg, hjq, hqe]
                  have haes : aget (Fusion.addCharEntry st.1 name p.2) name
                      = some (JVal.jset entry "screen_time" (.num (qe + q1))) := by
                    rw [hse]
                    exact aget_aset_same st.1 name _
                  have hother : ∀ n, n ≠ name →
                      aget (Fusion.addCharEntry st.1 name p.2) n
                        = aget st.1 n := by
                    intro n hne
                    rw [hse]
                    exact aget_aset_other st.1 name n _ hne
                  have hE : Fusion.getNum
                      (JVal.jset entry "screen_time" (.num (qe + q1)))
                      "screen_time" = some (qe + q1) :=
                    getNum_jset_same entry (qe + q1)
                  have hval' : ∀ n e, aget ((cpStep st p)).1 n = some e →
                      ∃ q, Fusion.getNum e "screen_time" = some q := by
                    intro n e he
                    rw [h1] at he
                    by_cases hne : n = name
                    · subst hne
                      rw [haes] at he
                      injection he with he2
                      subst he2
                      exact ⟨qe + q1, hE⟩
                    · rw [hother n hne] at he
                      exact hval n e he
                  obtain ⟨ih1, ih2, ih3⟩ := ih (cpStep st p) hsht hval'
                  have hps : pairSum (p :: P) name = q1 + pairSum P name := by
                    simp [pairSum, List.filterMap_cons, hn, hjq]
                  refine ⟨?_, ?_, ?_⟩
                  · intro n e q h2 h3
                    by_cases hne : n = name
                    · subst hne
                      rw [hg] at h2
                      injection h2 with h2e
                      subst h2e
                      rw [hqe] at h3
                      injection h3 with h3e
                      subst h3e
                      have h4 := ih1 n
                        (JVal.jset entry "screen_time" (.num (qe + q1)))
                        (qe + q1) (by rw [h1]; exact haes) hE
                      rw [hps]
                      obtain ⟨e', he1, he2⟩ := h4
                      exact ⟨e', he1, by rw [he2]; ring_nf⟩
                    · rw [hpsne n hne]
                      refine ih1 n e q ?_ h3
                      rw [h1, hother n hne]
                      exact h2
                  · intro n h2 h3
                    rw [hpn] at h3
                    simp only [List.mem_cons, not_or] at h3
                    refine ih2 n ?_ h3.2
                    rw [h1, hother n h3.1]
                    exact h2
                  · intro n h2 h3
                    rw [hpn] at h3
                    by_cases hne : n = name
                    · subst hne
                      rw [hg] at h2
                      cases h2
                    · rcases List.mem_cons.mp h3 with hne2 | hmem
                      · exact absurd hne2 hne
                      · rw [hpsne n hne]
                        refine ih3 n ?_ hmem
                        rw [h1, hother n hne]
                        exact h2
              | none =>
                  have hse : Fusion.addCharEntry st.1 name p.2 = st.1 := by
                    simp [Fusion.addCharEntry, hg, hjq]
                  have hps : ∀ n, pairSum (p :: P) n = pairSum P n := by
                    intro n
                    by_cases hne : n = name
                    · subst hne
                      simp [pairSum, List.filterMap_cons, hn, hjq]
                    · exact hpsne n hne
                  have hval' : ∀ n e, aget ((cpStep st p)).1 n = some e →
                      ∃ q, Fusion.getNum e "screen_time" = some q := by
                    intro n e he
                    rw [h1, hse] at he
                    exact hval n e he
                  obtain ⟨ih1, ih2, ih3⟩ := ih (cpStep st p) hsht hval'
                  refine ⟨?_, ?_, ?_⟩
                  · intro n e q h2 h3
                    rw [hps]
                    refine ih1 n e q ?_ h3
                    rw [h1, hse]
                    exact h2
                  · intro n h2 h3
                    rw [hpn] at h3
                    simp only [List.mem_cons, not_or] at h3
                    refine ih2 n ?_ h3.2
                    rw [h1, hse]
                    exact h2
                  · intro n h2 h3
                    rw [hpn] at h3
                    by_cases hne : n = name
                    · subst hne
                      rw [hg] at h2
                      cases h2
                    · rcases List.mem_cons.mp h3 with hne2 | hmem
                      · exact absurd hne2 hne
                      · rw [hps]
                        refine ih3 n ?_ hmem
                        rw [h1, hse]
                        exact h2

theorem foldl_append_eq_flatMap {α β : Type} (f : α → List β) (l : List α) :
    ∀ init : List β,
      l.foldl (fun acc c => acc ++ f c) init = init ++ l.flatMap f := by
  induction l with
  | nil => intro init; simp
  | cons a as ih =>
      intro init
      simp [ih, List.flatMap_cons, List.append_assoc]

theorem pairNames_flat (cands : List Fusion.Cand) :
    pairNames (flatCharPairs cands) = cands.flatMap Spec.itemNamesOf := by
  induction cands with
  | nil => rfl
  | cons c cs ih =>
      simp only [flatCharPairs, List.flatMap_cons, pairNames,
        List.filterMap_append] at *
      rw [ih]
      congr 1
      rw [charPairsOf, Spec.itemNamesOf, List.filterMap_map]
      exact List.filterMap_congr fun a _ => rfl

theorem pairSum_list_flat (n : String) (cands : List Fusion.Cand) :
    (flatCharPairs cands).filterMap
        (fun p => if Fusion.charItemName p.2 = some n then
          Fusion.getNum p.2 "screen_time" else none)
      = (cands.flatMap Spec.itemsOf).filterMap
          (fun o => if Fusion.charItemName o = some n then
            Fusion.getNum o "screen_time" else none) := by
  induction cands with
  | nil => rfl
  | cons c cs ih =>
      simp only [flatCharPairs, List.flatMap_cons, List.filterMap_append] at *
      rw [ih]
      congr 1
      rw [charPairsOf, List.filterMap_map]
      exact List.filterMap_congr fun a _ => rfl

theorem pairSum_flat (cands : List Fusion.Cand) (n : String) :
    pairSum (flatCharPairs cands) n = Spec.claimedScreenTime cands n := by
  unfold pairSum Spec.claimedScreenTime
  rw [pairSum_list_flat, foldl_append_eq_flatMap]
  simp

theorem provFold_mem (cands : List Fusion.Cand) :
    ∀ (acc : List String) (x : String),
      x ∈ cands.foldl (fun a c => Fusion.provUnion a c.prov) acc
        ↔ x ∈ acc ∨ ∃ c ∈ cands, x ∈ c.prov := by
  induction cands with
  | nil => intro acc x; simp
  | cons c cs ih =>
      intro acc x
      simp only [List.foldl_cons]
      rw [ih, mem_provUnion]
      simp only [List.mem_cons]
      constructor
      · rintro (⟨h | h⟩ | ⟨c', hc', hx⟩)
        · exact Or.inl h
        · exact Or.inr ⟨c, by simp, h⟩
        · exact Or.inr ⟨c', by simp [hc'], hx⟩
      · rintro (h | ⟨c', hc', hx⟩)
        · exact Or.inl (Or.inl h)
        · rcases hc' with h1 | h1
          · subst h1
            exact Or.inl (Or.inr hx)
          · exact Or.inr ⟨c', h1, hx⟩

theorem provFold_nodup (cands : List Fusion.Cand) :
    ∀ acc : List String, acc.Nodup →
      (cands.foldl (fun a c => Fusion.provUnion a c.prov) acc).Nodup := by
  induction cands with
  | nil => intro acc h; exact h
  | cons c cs ih =>
      intro acc h
      simp only [List.foldl_cons]
      exact ih _ (nodup_provUnion c.prov acc h)

theorem confStep_absorb (q a : ℚ) :
    ∀ l : List ℚ, (∀ x ∈ l, x = q) →
      l.foldl confStep (some (max a q)) = some (max a q) := by
  intro l
  induction l with
  | nil => intro _; rfl
  | cons x xs ih =>
      intro h
      have hx : x = q := h x (List.mem_cons_self _ _)
      subst hx
      simp only [List.foldl_cons]
      have hstep : confStep (some (max a x)) x = some (max a x) := by
        simp [confStep, max_assoc]
      rw [hstep]
      exact ih (fun y hy => h y (List.mem_cons_of_mem _ hy))

theorem confStep_foldl_const (q : ℚ) (l : List ℚ) (h : ∀ x ∈ l, x = q) :
    ∀ o : Option ℚ,
      l.foldl confStep o = if l.isEmpty then o else confStep o q := by
  cases l with
  | nil => intro o; rfl
  | cons x xs =>
      intro o
      have hx : x = q := h x (List.mem_cons_self _ _)
      subst hx
      simp only [List.foldl_cons, List.isEmpty_cons, Bool.false_eq_true,
        if_false]
      have habs := confStep_absorb x (o.getD 0) xs
        (fun y hy => h y (List.mem_cons_of_mem _ hy))
      simpa [confStep] using habs

theorem pairConfs_charPairsOf_some (c : Fusion.Cand) (q : ℚ)
    (hq : c.conf = some q) (n : String) :
    pairConfs (charPairsOf c) n
      = (Spec.itemsOf c).filterMap
          (fun o => if Fusion.charItemName o = some n then some q
            else none) := by
  unfold pairConfs charPairsOf
  rw [List.filterMap_map]
  refine List.filterMap_congr fun a _ => ?_
  simp [hq]

theorem pairConfs_charPairsOf_none (c : Fusion.Cand)
    (hq : c.conf = none) (n : String) :
    pairConfs (charPairsOf c) n = [] := by
  unfold pairConfs charPairsOf
  rw [List.filterMap_map, List.filterMap_eq_nil_iff]
  intro a _
  simp [hq]

theorem confFold_flat (n : String) (cands : List Fusion.Cand) :
    ∀ o : Option ℚ,
      (pairConfs (flatCharPairs cands) n).foldl confStep o
        = (cands.filterMap (fun c =>
            match c.conf with
            | some q =>
                if (Spec.itemNamesOf c).contains n then some q else none
            | none => none)).foldl confStep o := by
  induction cands with
  | nil => intro o; rfl
  | cons c cs ih =>
      intro o
      have hsplit : pairConfs (flatCharPairs (c :: cs)) n
          = pairConfs (charPairsOf c) n
            ++ pairConfs (flatCharPairs cs) n := by
        simp [flatCharPairs, List.flatMap_cons, pairConfs,
          List.filterMap_append]
      rw [hsplit, List.foldl_append]
      cases hq : c.conf with
      | none =>
          rw [pairConfs_charPairsOf_none c hq n]
          simp only [List.foldl_nil]
          rw [ih]
          simp [List.filterMap_cons, hq]
      | some q =>
          rw [pairConfs_charPairsOf_some c q hq n]
          have hall : ∀ x ∈ (Spec.itemsOf c).filterMap
              (fun o2 => if Fusion.charItemName o2 = some n then some q
                else none), x = q := by
            intro x hx
            obtain ⟨a, _, ha⟩ := List.mem_filterMap.mp hx
            by_cases hcc : Fusion.charItemName a = some n
            · rw [if_pos hcc] at ha
              injection ha with ha2
              exact ha2.symm
            · rw [if_neg hcc] at ha
              cases ha
          rw [confStep_foldl_const q _ hall o]
          by_cases hm : n ∈ Spec.itemNamesOf c
          · have hne : ((Spec.itemsOf c).filterMap
                (fun o2 => if Fusion.charItemName o2 = some n then some q
                  else none)).isEmpty = false := by
              obtain ⟨a, ha, hna⟩ := List.mem_filterMap.mp hm
              have : q ∈ (Spec.itemsOf c).filterMap
                  (fun o2 => if Fusion.charItemName o2 = some n then some q
                    else none) :=
                List.mem_filterMap.mpr ⟨a, ha, by rw [if_pos hna]⟩
              cases hemp : ((Spec.itemsOf c).filterMap
                  (fun o2 => if Fusion.charItemName o2 = some n then some q
                    else none)).isEmpty
              · rfl
              · rw [List.isEmpty_iff] at hemp
                rw [hemp] at this
                cases this
            rw [hne]
            simp only [Bool.false_eq_true, if_false]
            rw [ih]
            simp [List.filterMap_cons, hq, hm]
          · have hemp : ((Spec.itemsOf c).filterMap
                (fun o2 => if Fusion.charItemName o2 = some n then some q
                  else none)) = [] := by
              rw [List.filterMap_eq_nil_iff]
              intro a ha
              by_cases hcc : Fusion.charItemName a = some n
              · exact absurd (List.mem_filterMap.mpr ⟨a, ha, hcc⟩) hm
              · rw [if_neg hcc]
            rw [hemp]
            simp only [List.isEmpty_nil, if_true]
            rw [ih]
            simp [List.filterMap_cons, hq, hm]

theorem confStep_foldl_some (qs : List ℚ) :
    ∀ m : ℚ, qs.foldl confStep (some m) = some (qs.foldl max m) := by
  induction qs with
  | nil => intro m; rfl
  | cons x xs ih =>
      intro m
      simp only [List.foldl_cons]
      have h2 : confStep (some m) x = some (max m x) := by
        simp [confStep]
      rw [h2, ih]

theorem confFold_to_max (L : List ℚ) (h : ∀ x ∈ L, 0 ≤ x) :
    L.foldl confStep none
      = match L with
        | [] => none
        | q :: qs => some (qs.foldl max q) := by
  cases L with
  | nil => rfl
  | cons q qs =>
      simp only [List.foldl_cons]
      have h1 : confStep none q = some q := by
        simp [confStep, max_eq_right (h q (by simp))]
      rw [h1, confStep_foldl_some]

theorem fuseChar_names_eq (cands : List Fusion.Cand) :
    (Fusion.fuseCharacters cands).charMap.map Prod.fst
      = Spec.claimedCharNames cands := by
  rw [fuseCharacters_eq]
  show (((flatCharPairs cands).foldl cpStep ([], [])).1).map Prod.fst = _
  rw [cpFold_names]
  simp only [List.map_nil, List.nil_append]
  rw [pairNames_flat]
  unfold Spec.claimedCharNames
  rw [foldl_append_eq_flatMap]
  simp

theorem fuseChar_confs_eq (cands : List Fusion.Cand)
    (hcf : ∀ c ∈ cands, confOk c = true) (n : String) :
    aget (Fusion.fuseCharacters cands).confs n
      = Spec.claimedCharConf cands n := by
  rw [fuseCharacters_eq]
  show aget ((flatCharPairs cands).foldl cpStep ([], [])).2 n = _
  rw [cpFold_confs]
  show (pairConfs (flatCharPairs cands) n).foldl confStep none = _
  rw [confFold_flat]
  have hpos : ∀ x ∈ cands.filterMap
      (fun c =>
        match c.conf with
        | some q =>
            if (Spec.itemNamesOf c).contains n then some q else none
        | none => none), 0 ≤ x := by
    intro x hx
    obtain ⟨c, hc, hcx⟩ := List.mem_filterMap.mp hx
    have hco := hcf c hc
    cases hq : c.conf with
    | none => simp [hq] at hcx
    | some q =>
        simp only [hq] at hcx
        unfold confOk at hco
        rw [hq] at hco
        have hq0 : 0 ≤ q := of_decide_eq_true hco
        by_cases hcn : (Spec.itemNamesOf c).contains n
        · rw [if_pos hcn] at hcx
          injection hcx with hcx2
          rw [← hcx2]
          exact hq0
        · rw [if_neg hcn] at hcx
          cases hcx
  simp only [Spec.claimedCharConf]
  cases hL : cands.filterMap
      (fun c =>
        match c.conf with
        | some q =>
            if (Spec.itemNamesOf c).contains n then some q else none
        | none => none) with
  | nil => rfl
  | cons q qs =>
      rw [hL] at hpos
      simp only [List.foldl_cons]
      have h1 : confStep none q = some q := by
        simp [confStep, max_eq_right (hpos q (by simp))]
      rw [h1, confStep_foldl_some]

theorem fuseChar_screen_eq (cands : List Fusion.Cand)
    (hsh : ∀ c ∈ cands, ∀ o ∈ Spec.itemsOf c, stOk o = true) :
    ∀ n e, aget (Fusion.fuseCharacters cands).charMap n = some e →
      Fusion.getNum e "screen_time"
        = some (Spec.claimedScreenTime cands n) := by
  have hshP : ∀ p ∈ flatCharPairs cands, stOk p.2 = true := by
    intro p hp
    obtain ⟨c, hc, hpc⟩ := List.mem_flatMap.mp hp
    obtain ⟨o, ho, hpo⟩ := List.mem_map.mp hpc
    rw [← hpo]
    exact hsh c hc o ho
  obtain ⟨inv1, inv2, inv3⟩ := cpFold_screen (flatCharPairs cands) ([], [])
      hshP (by intro n e h; cases h)
  intro n e he
  rw [fuseCharacters_eq] at he
  have he2 : aget ((flatCharPairs cands).foldl cpStep ([], [])).1 n
      = some e := he
  by_cases hm : n ∈ pairNames (flatCharPairs cands)
  · obtain ⟨e', he', hs⟩ := inv3 n rfl hm
    rw [he'] at he2
    injection he2 with hee
    rw [← hee]
    rw [← pairSum_flat cands n]
    exact hs
  · have h0 := inv2 n rfl hm
    rw [h0] at he2
    cases he2

theorem fuseChar_provs (cands : List Fusion.Cand) :
    (∀ x, x ∈ (Fusion.fuseCharacters cands).provs
      ↔ ∃ c ∈ cands, x ∈ c.prov) ∧
    (Fusion.fuseCharacters cands).provs.Nodup := by
  rw [fuseCharacters_eq]
  constructor
  · intro x
    show x ∈ cands.foldl (fun a c => Fusion.provUnion a c.prov) [] ↔ _
    rw [provFold_mem]
    simp
  · show (cands.foldl (fun a c => Fusion.provUnion a c.prov) []).Nodup
    exact provFold_nodup cands [] List.nodup_nil

/-- C3: when the `characters` special case fires (the first contribution
holds a list headed by a dict), `merge_scenes_from_sources` aggregates items
by their `name` key: the fused value lists one entry per contributed truthy
name in first-seen order; each entry's `screen_time` is the sum of the
numeric `screen_time` values of every contributed item bearing that name
(provided items carry numeric-or-absent `screen_time`, as pipeline data
does); the per-name confidence map records, for each name, the maximum
confidence supplied by a contribution mentioning it (confidences being
nonnegative, per the data model's [0, 1] range, so the code's
`confs_map.get(name, 0.0)` floor is harmless); and the field's provenance
is the flat deduplicated union of all contributing sources.  In particular
the claim's Alice/Bob example fuses to Alice.screen_time = 8,
Bob.screen_time = 2, confidences {Alice: 0.9, Bob: 0.8}. -/
theorem C3_character_aggregation (c0 : Fusion.Cand) (cs : List Fusion.Cand)
    (xs : List JVal) (hv : c0.val = JVal.arr xs)
    (hh : Fusion.headIsObj xs = true)
    (hsh : ∀ c ∈ c0 :: cs, ∀ o ∈ Spec.itemsOf c, stOk o = true)
    (hcf : ∀ c ∈ c0 :: cs, confOk c = true) :
    ((Fusion.fuseField "characters" (c0 :: cs)).1
      = JVal.arr ((Fusion.fuseCharacters (c0 :: cs)).charMap.map
          fun p => JVal.obj p.2)) ∧
    ((Fusion.fuseCharacters (c0 :: cs)).charMap.map Prod.fst
      = Spec.claimedCharNames (c0 :: cs)) ∧
    (∀ name e,
      aget (Fusion.fuseCharacters (c0 :: cs)).charMap name = some e →
      Fusion.getNum e "screen_time"
        = some (Spec.claimedScreenTime (c0 :: cs) name)) ∧
    (∀ name, aget (Fusion.fuseCharacters (c0 :: cs)).confs name
      = Spec.claimedCharConf (c0 :: cs) name) ∧
    (∀ x, x ∈ (Fusion.fuseCharacters (c0 :: cs)).provs
      ↔ ∃ c ∈ c0 :: cs, x ∈ c.prov) ∧
    (Fusion.fuseCharacters (c0 :: cs)).provs.Nodup ∧
    Fusion.fuseField "characters"
      [⟨.arr [.obj [("name", .str "Alice"), ("screen_time", .num 5)]],
        some (mkRat 9 10), ["s1"]⟩,
       ⟨.arr [.obj [("name", .str "Alice"), ("screen_time", .num 3)],
              .obj [("name", .str "Bob"), ("screen_time", .num 2)]],
        some (mkRat 8 10), ["s2"]⟩]
      = (.arr [.obj [("name", .str "Alice"), ("screen_time", .num 8)],
               .obj [("name", .str "Bob"), ("screen_time", .num 2)]],
         some (.obj [("Alice", .num (mkRat 9 10)),
                     ("Bob", .num (mkRat 8 10))]),
         some ["s1", "s2"]) := by
  refine ⟨?_, fuseChar_names_eq _, fuseChar_screen_eq _ hsh,
    fuseChar_confs_eq _ hcf, (fuseChar_provs _).1, (fuseChar_provs _).2, ?_⟩
  · rw [fuseField_characters c0 cs xs hv hh]
  · have h0 : Fusion.fuseField "characters"
        [⟨.arr [.obj [("name", .str "Alice"), ("screen_time", .num 5)]],
          some (mkRat 9 10), ["s1"]⟩,
         ⟨.arr [.obj [("name", .str "Alice"), ("screen_time", .num 3)],
                .obj [("name", .str "Bob"), ("screen_time", .num 2)]],
          some (mkRat 8 10), ["s2"]⟩]
      = (.arr [.obj [("name", .str "Alice"),
                     ("screen_time", .num (5 + 3))],
               .obj [("name", .str "Bob"), ("screen_time", .num 2)]],
         some (.obj [("Alice",
                      .num (max (max 0 (mkRat 9 10)) (mkRat 8 10))),
                     ("Bob", .num (max 0 (mkRat 8 10)))]),
         some ["s1", "s2"]) := rfl
    rw [h0]
    have h1 : (5 : ℚ) + 3 = 8 := by norm_num
    have h2 : max (max 0 (mkRat 9 10)) (mkRat 8 10) = mkRat 9 10 := by
      norm_num [Rat.mkRat_eq_div]
    have h3 : max (0 : ℚ) (mkRat 8 10) = mkRat 8 10 := by
      norm_num [Rat.mkRat_eq_div]
    rw [h1, h2, h3]

/-- C3 witness: the aggregation theorem applied to the claim's own
Alice/Bob example, yielding the fused entries, summed screen time, per-name
confidence map, and provenance union. -/
theorem C3_wit :
    (Fusion.fuseField "characters"
      [⟨.arr [.obj [("name", .str "Alice"), ("screen_time", .num 5)]],
        some (mkRat 9 10), ["s1"]⟩,
       ⟨.arr [.obj [("name", .str "Alice"), ("screen_time", .num 3)],
              .obj [("name", .str "Bob"), ("screen_time", .num 2)]],
        some (mkRat 8 10), ["s2"]⟩]
      = (.arr [.obj [("name", .str "Alice"), ("screen_time", .num 8)],
               .obj [("name", .str "Bob"), ("screen_time", .num 2)]],
         some (.obj [("Alice", .num (mkRat 9 10)),
                     ("Bob", .num (mkRat 8 10))]),
         some ["s1", "s2"])) ∧
    (Fusion.fuseCharacters
      [⟨.arr [.obj [("name", .str "Alice"), ("screen_time", .num 5)]],
        some (mkRat 9 10), ["s1"]⟩,
       ⟨.arr [.obj [("name", .str "Alice"), ("screen_time", .num 3)],
              .obj [("name", .str "Bob"), ("screen_time", .num 2)]],
        some (mkRat 8 10), ["s2"]⟩]).charMap.map Prod.fst
      = ["Alice", "Bob"] := by
  have h := C3_character_aggregation
    ⟨.arr [.obj [("name", .str "Alice"), ("screen_time", .num 5)]],
      some (mkRat 9 10), ["s1"]⟩
    [⟨.arr [.obj [("name", .str "Alice"), ("screen_time", .num 3)],
            .obj [("name", .str "Bob"), ("screen_time", .num 2)]],
      some (mkRat 8 10), ["s2"]⟩]
    [.obj [("name", .str "Alice"), ("screen_time", .num 5)]]
    rfl rfl (by decide) (by decide)
  refine ⟨h.2.2.2.2.2.2, ?_⟩
  rw [h.2.1]
  rfl

/-! ### Claim C6 -/

/-- C6 counterexample: one contribution defines the list field `"tags"` and
supplies neither a confidence nor a provenance value for it, yet the fused
record's `field_confidences` carries an explicit null entry for `"tags"`
and `field_provenance` carries the auto-appended source identifier — the
field is not omitted from either map. -/
theorem C6_counterexample :
    Fusion.merge_scenes_from_sources
      [⟨[("scene_id", .str "s1"), ("tags", .arr [.str "a"])], "x"⟩]
      = [("scene_id", .str "s1"), ("tags", .arr [.str "a"]),
         ("field_confidences", .obj [("tags", JVal.null)]),
         ("field_provenance", .obj [("tags", .arr [.str "x"])])] := rfl

/-- C6 (amended): a scalar/object-valued field with no supplied confidence
is omitted from `field_confidences`, but a generic-list field always
receives an entry — an explicit null when no candidate supplies a
confidence.  For `field_provenance`: every gathered candidate carries
non-empty provenance (the contributing source identifier is auto-appended),
so a list-valued field — generic or `characters` — with any candidate
always receives an entry; a scalar/object field receives one exactly when
at least one candidate value is non-null, because the scalar branch unions
provenance over the non-null candidates only and skips the entry when that
union is empty — in particular a field whose candidates are all null
receives no provenance entry despite having candidates.  The top-level
`field_confidences`/`field_provenance` maps are attached exactly when
non-empty: they appear (with their computed contents) whenever non-empty,
and when empty — and no contribution embeds a key of that name — the fused
record carries no such key at all. -/
theorem C6_conf_prov_presence (srcs : List Fusion.Src) (field : String)
    (cands : List Fusion.Cand) :
    ((∀ c ∈ cands, c.conf = none) →
      (∀ c ∈ cands, ∀ xs, c.val ≠ JVal.arr xs) →
      (Fusion.fuseField field cands).2.1 = none) ∧
    ((∀ c ∈ cands, c.conf = none) →
      ∀ c0 cs xs, cands = c0 :: cs → c0.val = JVal.arr xs →
        (Fusion.headIsObj xs && field == "characters") = false →
        (Fusion.fuseField field cands).2.1 = some JVal.null) ∧
    ((Fusion.fuseCore srcs).2.1 ≠ [] →
      JVal.jget (Fusion.merge_scenes_from_sources srcs) "field_confidences"
        = some (.obj (Fusion.fuseCore srcs).2.1)) ∧
    ((Fusion.fuseCore srcs).2.2 ≠ [] →
      JVal.jget (Fusion.merge_scenes_from_sources srcs) "field_provenance"
        = some (.obj ((Fusion.fuseCore srcs).2.2.map
            fun p => (p.1, .arr (p.2.map .str))))) ∧
    ((∀ s ∈ srcs, "field_confidences" ∉ s.scene.map Prod.fst) →
      (Fusion.fuseCore srcs).2.1 = [] →
      JVal.jget (Fusion.merge_scenes_from_sources srcs) "field_confidences"
        = none) ∧
    ((∀ s ∈ srcs, "field_provenance" ∉ s.scene.map Prod.fst) →
      (Fusion.fuseCore srcs).2.2 = [] →
      JVal.jget (Fusion.merge_scenes_from_sources srcs) "field_provenance"
        = none) ∧
    (∀ c0 cs, cands = c0 :: cs → (∀ c ∈ cands, c.val = JVal.null) →
      (Fusion.fuseField field cands).2.2 = none) ∧
    (∀ c0 cs, cands = c0 :: cs → (∀ xs, c0.val ≠ JVal.arr xs) →
      (∀ c ∈ cands, c.prov ≠ []) → (∃ c ∈ cands, c.val ≠ JVal.null) →
      ∃ ps, (Fusion.fuseField field cands).2.2 = some ps ∧ ps ≠ []) ∧
    (∀ c0 cs xs, cands = c0 :: cs → c0.val = JVal.arr xs →
      (Fusion.headIsObj xs && field == "characters") = false →
      (∀ c ∈ cands, c.prov ≠ []) →
      ∃ ps, (Fusion.fuseField field cands).2.2 = some ps ∧ ps ≠ []) ∧
    (∀ c0 cs xs, cands = c0 :: cs → c0.val = JVal.arr xs →
      Fusion.headIsObj xs = true → field = "characters" →
      (∀ c ∈ cands, c.prov ≠ []) →
      ∃ ps, (Fusion.fuseField field cands).2.2 = some ps ∧ ps ≠ []) ∧
    (∀ c ∈ Fusion.gatherCandidates srcs field, c.prov ≠ []) := by
  refine ⟨?_, ?_, merge_attach_conf srcs, merge_attach_prov srcs,
          merge_attach_conf_none srcs, merge_attach_prov_none srcs,
          ?_, ?_, ?_, ?_, gatherCandidates_prov_ne_nil srcs field⟩
  · intro h1 h2
    cases cands with
    | nil => rfl
    | cons c0 cs =>
        rw [fuseField_scalar field c0 cs (h2 c0 (by simp))]
        simp [pick_conf_none _ h1]
  · intro h1 c0 cs xs he hv hcond
    subst he
    rw [fuseField_generic field c0 cs xs hv hcond]
    simp [listParts_confs_none _ h1]
  · intro c0 cs hcands hall
    subst hcands
    have hscal : ∀ xs, c0.val ≠ JVal.arr xs := by
      intro xs hx
      rw [hall c0 (List.mem_cons_self _ _)] at hx
      cases hx
    rw [fuseField_scalar field c0 cs hscal,
        pick_prov_all_null (c0 :: cs) hall]
    rfl
  · intro c0 cs hcands hscal hprovne hex
    subst hcands
    obtain ⟨c, hc, hcnn⟩ := hex
    rw [fuseField_scalar field c0 cs hscal]
    have hxex : ∃ x, x ∈ c.prov := by
      cases hp : c.prov with
      | nil => exact absurd hp (hprovne c hc)
      | cons a as => exact ⟨a, by simp⟩
    obtain ⟨x, hx⟩ := hxex
    have hmem : x ∈ (Fusion.pick_best_scalar (c0 :: cs)).2.2 :=
      pick_prov_mem (c0 :: cs) c hc hcnn x hx
    have hne : (Fusion.pick_best_scalar (c0 :: cs)).2.2 ≠ [] := by
      intro h0
      rw [h0] at hmem
      cases hmem
    have hemp : (Fusion.pick_best_scalar (c0 :: cs)).2.2.isEmpty = false := by
      cases hp : (Fusion.pick_best_scalar (c0 :: cs)).2.2 with
      | nil => exact absurd hp hne
      | cons a as => rfl
    refine ⟨(Fusion.pick_best_scalar (c0 :: cs)).2.2, ?_, hne⟩
    show (if (Fusion.pick_best_scalar (c0 :: cs)).2.2.isEmpty then none
          else some (Fusion.pick_best_scalar (c0 :: cs)).2.2) = _
    simp only [hemp, Bool.false_eq_true, if_false]
  · intro c0 cs xs hcands hv hcond hprovne
    subst hcands
    rw [fuseField_generic field c0 cs xs hv hcond]
    have hxex : ∃ x, x ∈ c0.prov := by
      cases hp : c0.prov with
      | nil => exact absurd hp (hprovne c0 (List.mem_cons_self _ _))
      | cons a as => exact ⟨a, by simp⟩
    obtain ⟨x, hx⟩ := hxex
    have hmem : x ∈ (Fusion.listParts (c0 :: cs)).2.2 :=
      (listParts_provs_mem (c0 :: cs) ([], [], []) x).mpr
        (Or.inr ⟨c0, List.mem_cons_self _ _, hx⟩)
    have hne : (Fusion.listParts (c0 :: cs)).2.2 ≠ [] := by
      intro h0
      rw [h0] at hmem
      cases hmem
    have hemp : (Fusion.listParts (c0 :: cs)).2.2.isEmpty = false := by
      cases hp : (Fusion.listParts (c0 :: cs)).2.2 with
      | nil => exact absurd hp hne
      | cons a as => rfl
    refine ⟨(Fusion.listParts (c0 :: cs)).2.2, ?_, hne⟩
    show (if (Fusion.listParts (c0 :: cs)).2.2.isEmpty then none
          else some (Fusion.listParts (c0 :: cs)).2.2) = _
    simp only [hemp, Bool.false_eq_true, if_false]
  · intro c0 cs xs hcands hv hh hfield hprovne
    subst hcands
    subst hfield
    rw [fuseField_characters c0 cs xs hv hh]
    have hxex : ∃ x, x ∈ c0.prov := by
      cases hp : c0.prov with
      | nil => exact absurd hp (hprovne c0 (List.mem_cons_self _ _))
      | cons a as => exact ⟨a, by simp⟩
    obtain ⟨x, hx⟩ := hxex
    have hmem : x ∈ (Fusion.fuseCharacters (c0 :: cs)).provs :=
      ((fuseChar_provs (c0 :: cs)).1 x).mpr ⟨c0, List.mem_cons_self _ _, hx⟩
    have hne : (Fusion.fuseCharacters (c0 :: cs)).provs ≠ [] := by
      intro h0
      rw [h0] at hmem
      cases hmem
    have hemp : (Fusion.fuseCharacters (c0 :: cs)).provs.isEmpty = false := by
      cases hp : (Fusion.fuseCharacters (c0 :: cs)).provs with
      | nil => exact absurd hp hne
      | cons a as => rfl
    refine ⟨(Fusion.fuseCharacters (c0 :: cs)).provs, ?_, hne⟩
    show (if (Fusion.fuseCharacters (c0 :: cs)).provs.isEmpty then none
          else some (Fusion.fuseCharacters (c0 :: cs)).provs) = _
    simp only [hemp, Bool.false_eq_true, if_false]

/-- C6 witness: the amended presence theorem applied concretely — the
counterexample's single-source record gets its non-empty confidence map
(with the null `"tags"` entry) attached, and a scalar field whose only
candidate is null-valued receives no `field_provenance` entry despite
having a candidate. -/
theorem C6_wit :
    (JVal.jget
      (Fusion.merge_scenes_from_sources
        [⟨[("scene_id", .str "s1"), ("tags", .arr [.str "a"])], "x"⟩])
      "field_confidences" = some (.obj [("tags", JVal.null)])) ∧
    (Fusion.fuseField "rating"
      [⟨JVal.null, some (mkRat 5 10), ["x"]⟩]).2.2 = none := by
  have h := C6_conf_prov_presence
    [⟨[("scene_id", .str "s1"), ("tags", .arr [.str "a"])], "x"⟩] "rating"
    [⟨JVal.null, some (mkRat 5 10), ["x"]⟩]
  constructor
  · have he : (Fusion.fuseCore
        [⟨[("scene_id", .str "s1"), ("tags", .arr [.str "a"])], "x"⟩]).2.1
        = [("tags", JVal.null)] := rfl
    exact h.2.2.1 (by rw [he]; simp)
  · refine h.2.2.2.2.2.2.1 ⟨JVal.null, some (mkRat 5 10), ["x"]⟩ [] rfl ?_
    intro c hc
    simp at hc
    subst hc
    rfl
